import Mathlib

/-!
Verification of the core block-tree store and import pipeline of the
`rust-blockchain/blockchain` repository, as a shallow embedding in Lean.

The embedding fixes the generic parameters of the Rust code to concrete
types: block identifiers and auxiliary keys are `Nat`, block states are
`Nat`.  The in-memory backend's `HashMap`s are modelled as association
lists with map semantics (insert replaces the binding of an existing key,
lookup returns the first binding); `settle`'s iteration over the
`importing` map follows admission order.  Rust `panic!`/`expect`/`unwrap`
(unwinding, not a returned value) is modelled by the extra error value
`Error.Panicked`, and a loop that the Rust source could run forever is
modelled with fuel whose exhaustion yields `Error.Diverged`; both are
distinct from every error value the Rust functions return.
-/

deriving instance DecidableEq for Except

namespace RB

/-- Association-list lookup with `HashMap::get` semantics (first binding of
the key wins). -/
def alookup {α : Type} (k : Nat) : List (Nat × α) → Option α
  | [] => none
  | p :: rest => if p.1 = k then some p.2 else alookup k rest

/-- Association-list insert with `HashMap::insert` semantics: replace the
binding of an existing key in place, otherwise append. -/
def ains {α : Type} (k : Nat) (v : α) : List (Nat × α) → List (Nat × α)
  | [] => [(k, v)]
  | p :: rest => if p.1 = k then (k, v) :: rest else p :: ains k v rest

/-- Association-list removal with `HashMap::remove` semantics (a map has at
most one binding per key; all bindings of `k` are removed). -/
def arem {α : Type} (k : Nat) : List (Nat × α) → List (Nat × α)
  | [] => []
  | p :: rest => if p.1 = k then arem k rest else p :: arem k rest

/-- A block: an identifier plus an optional parent identifier (the `Block`
trait of `src/traits.rs`, instantiated with `Identifier = Nat`). -/
structure Block where
  id : Nat
  parent_id : Option Nat
deriving DecidableEq, Repr

/-- Raw block data held per identifier (`BlockData` of
`src/backend/operation.rs`). -/
structure BlockData where
  block : Block
  state : Nat
  depth : Nat
  children : List Nat
  is_canon : Bool
deriving DecidableEq, Repr

/-- An auxiliary record: a key plus the identifiers of associated blocks
(the `Auxiliary` trait of `src/traits.rs` with `Key = Nat`). -/
structure Auxiliary where
  key : Nat
  associated : List Nat
deriving DecidableEq, Repr

/-- The in-memory store (`MemoryDatabase` of `src/backend/memory.rs`, the
reference implementation of the `Store`/`ChainQuery`/`ChainSettlement`
traits). -/
structure Store where
  blocks_and_states : List (Nat × BlockData)
  head : Nat
  genesis : Nat
  canon_depth_mappings : List (Nat × Nat)
  auxiliaries : List (Nat × Auxiliary)
deriving DecidableEq, Repr

/-- The backend error type (`Error` of `src/backend/memory.rs`), extended
with two values that stand for outcomes the Rust code does NOT return as
values: `Panicked` for `panic!`/`expect`/`unwrap`/`assert!` unwinding and
`Diverged` for a loop that runs forever. -/
inductive Error where
  | NotExist
  | InvalidOperation
  | IsGenesis
  | Panicked
  | Diverged
deriving DecidableEq, Repr

/-- Import operation (`ImportOperation` of `src/backend/operation.rs`). -/
structure ImportOperation where
  block : Block
  state : Nat
deriving DecidableEq, Repr

/-- Operation for a backend (`Operation` of `src/backend/operation.rs`). -/
structure Operation where
  import_block : List ImportOperation
  set_head : Option Nat
  insert_auxiliaries : List Auxiliary
  remove_auxiliaries : List Nat
deriving DecidableEq, Repr

/-- `ChainQuery::contains`. -/
def contains (s : Store) (id : Nat) : Bool :=
  (alookup id s.blocks_and_states).isSome

/-- `ChainQuery::is_canon`: `none` models `Err(NotExist)`. -/
def is_canon (s : Store) (id : Nat) : Option Bool :=
  (alookup id s.blocks_and_states).map (·.is_canon)

/-- `ChainQuery::lookup_canon_depth`: `none` models `Ok(None)`. -/
def lookup_canon_depth (s : Store) (depth : Nat) : Option Nat :=
  alookup depth s.canon_depth_mappings

/-- `ChainQuery::auxiliary`. -/
def auxiliary (s : Store) (key : Nat) : Option Auxiliary :=
  alookup key s.auxiliaries

/-- `ChainQuery::depth_at`: `none` models `Err(NotExist)`. -/
def depth_at (s : Store) (id : Nat) : Option Nat :=
  (alookup id s.blocks_and_states).map (·.depth)

/-- `ChainQuery::children_at`: `none` models `Err(NotExist)`. -/
def children_at (s : Store) (id : Nat) : Option (List Nat) :=
  (alookup id s.blocks_and_states).map (·.children)

/-- `ChainQuery::block_at`: `none` models `Err(NotExist)`. -/
def block_at (s : Store) (id : Nat) : Option Block :=
  (alookup id s.blocks_and_states).map (·.block)

/-- `ChainQuery::state_at`: `none` models `Err(NotExist)`. -/
def state_at (s : Store) (id : Nat) : Option Nat :=
  (alookup id s.blocks_and_states).map (·.state)

/-- `ChainSettlement::insert_block`. -/
def insert_block (s : Store) (id : Nat) (block : Block) (state : Nat)
    (depth : Nat) (children : List Nat) (is_canon : Bool) : Store :=
  let bs := ains id ⟨block, state, depth, children, is_canon⟩ s.blocks_and_states
  { s with blocks_and_states := bs }

/-- `ChainSettlement::push_child`; its `.expect("Internal database error")`
on a missing parent is a panic. -/
def push_child (s : Store) (id child : Nat) : Except Error Store :=
  match alookup id s.blocks_and_states with
  | none => .error .Panicked
  | some bd =>
    let bs := ains id ({ bd with children := bd.children ++ [child] }) s.blocks_and_states
    .ok ({ s with blocks_and_states := bs })

/-- `ChainSettlement::set_canon`; panics on a missing identifier. -/
def set_canon (s : Store) (id : Nat) (is_canon : Bool) : Except Error Store :=
  match alookup id s.blocks_and_states with
  | none => .error .Panicked
  | some bd =>
    let bs := ains id ({ bd with is_canon := is_canon }) s.blocks_and_states
    .ok ({ s with blocks_and_states := bs })

/-- `ChainSettlement::insert_canon_depth_mapping`. -/
def insert_canon_depth_mapping (s : Store) (depth id : Nat) : Store :=
  { s with canon_depth_mappings := ains depth id s.canon_depth_mappings }

/-- `ChainSettlement::remove_canon_depth_mapping`. -/
def remove_canon_depth_mapping (s : Store) (depth : Nat) : Store :=
  { s with canon_depth_mappings := arem depth s.canon_depth_mappings }

/-- `ChainSettlement::insert_auxiliary`. -/
def insert_auxiliary (s : Store) (key : Nat) (value : Auxiliary) : Store :=
  { s with auxiliaries := ains key value s.auxiliaries }

/-- `ChainSettlement::remove_auxiliary`. -/
def remove_auxiliary (s : Store) (key : Nat) : Store :=
  { s with auxiliaries := arem key s.auxiliaries }

/-- `ChainSettlement::set_head`. -/
def set_head (s : Store) (head : Nat) : Store :=
  { s with head := head }

/-- `MemoryBackend::new_with_genesis` (the Rust asserts that the block has
no parent; theorems about stores built from this definition carry that as a
hypothesis). -/
def new_with_genesis (block : Block) (genesis_state : Nat) : Store :=
  { blocks_and_states := [(block.id, ⟨block, genesis_state, 0, [], true⟩)],
    head := block.id,
    genesis := block.id,
    canon_depth_mappings := [(0, block.id)],
    auxiliaries := [] }

/-- The parent-depth resolution of `Operation::settle`'s pre-check loop
(`src/backend/operation.rs` lines 66-78): a parent found in the backend
yields its backend depth, one found among the already admitted imports its
recorded depth, and an unresolved parent yields `none` (the block is
deferred).  The `NotExist` branch mirrors the `?` on `depth_at` and is
unreachable because it is guarded by `contains`. -/
def parentDepthLookup (s : Store) (importing : List (Nat × BlockData))
    (parent_id : Nat) : Except Error (Option Nat) :=
  if contains s parent_id then
    match depth_at s parent_id with
    | some d => .ok (some d)
    | none => .error .NotExist
  else if (alookup parent_id importing).isSome then
    .ok ((alookup parent_id importing).map (·.depth))
  else
    .ok none

/-- One pass of `Operation::settle`'s pre-check loop
(`src/backend/operation.rs` lines 61-107): walk the remaining imports in
order; admit each block whose parent resolves through `parentDepthLookup`
(recording depth `parent_depth + 1`), defer the rest to `next_verifying`,
fail with `IsGenesis` on a parentless block.  Returns the updated
`importing` and `parent_ides` maps, the deferred imports and the progress
flag. -/
def settlePassOne (s : Store) (importing : List (Nat × BlockData))
    (parent_ides : List (Nat × Nat)) :
    List ImportOperation →
    Except Error (List (Nat × BlockData) × List (Nat × Nat) × List ImportOperation × Bool)
  | [] => .ok (importing, parent_ides, [], false)
  | op :: rest =>
    match op.block.parent_id with
    | none => .error .IsGenesis
    | some parent_id =>
      match parentDepthLookup s importing parent_id with
      | .error e => .error e
      | .ok none =>
        match settlePassOne s importing parent_ides rest with
        | .error e => .error e
        | .ok (i, p, nv, progress) => .ok (i, p, op :: nv, progress)
      | .ok (some d) =>
        let importing2 := ains op.block.id ⟨op.block, op.state, d + 1, [], false⟩ importing
        let parent_ides2 := ains op.block.id parent_id parent_ides
        match settlePassOne s importing2 parent_ides2 rest with
        | .error e => .error e
        | .ok (i, p, nv, _) => .ok (i, p, nv, true)

/-- The pre-check loop of `Operation::settle`: repeat passes until nothing
is deferred (`break`), or a pass makes no progress (`InvalidOperation`).
The Rust `loop` has no fuel; each pass that progresses strictly shrinks the
list, so `import_block.length + 1` passes always suffice
(`settleLoop_no_fuel_exhaustion` below), and the `Diverged` value is
unreachable from `settle`. -/
def settleLoop (s : Store) : Nat → List (Nat × BlockData) → List (Nat × Nat) →
    List ImportOperation → Except Error (List (Nat × BlockData) × List (Nat × Nat))
  | 0, _, _, _ => .error .Diverged
  | fuel + 1, importing, parent_ides, verifying =>
    match settlePassOne s importing parent_ides verifying with
    | .error e => .error e
    | .ok (importing2, parent_ides2, next_verifying, progress) =>
      if next_verifying.length = 0 then .ok (importing2, parent_ides2)
      else if progress then settleLoop s fuel importing2 parent_ides2 next_verifying
      else .error .InvalidOperation

/-- `Operation::settle`'s head pre-check (lines 109-117): the new head must
be in the backend or among the admitted imports. -/
def headPrecheck (s : Store) (importing : List (Nat × BlockData)) :
    Option Nat → Bool
  | none => true
  | some new_head => contains s new_head || (alookup new_head importing).isSome

/-- `Operation::settle`'s auxiliary pre-check (lines 119-126): every
associated identifier of every auxiliary to insert must be in the backend
or among the admitted imports. -/
def auxPrecheck (s : Store) (importing : List (Nat × BlockData))
    (auxes : List Auxiliary) : Bool :=
  auxes.all (fun a => a.associated.all
    (fun id => contains s id || (alookup id importing).isSome))

/-- `Operation::settle` lines 128-132: insert every admitted block. -/
def doImports (importing : List (Nat × BlockData)) (s : Store) : Store :=
  importing.foldl
    (fun t pr => insert_block t pr.1 pr.2.block pr.2.state pr.2.depth pr.2.children pr.2.is_canon)
    s

/-- `Operation::settle` lines 134-137: append every admitted block to its
parent's children list. -/
def doPushes : List (Nat × Nat) → Store → Except Error Unit × Store
  | [], s => (.ok (), s)
  | (id, parent_id) :: rest, s =>
    match push_child s parent_id id with
    | .error e => (.error e, s)
    | .ok t => doPushes rest t

/-- A tree-route (`TreeRoute` of `src/backend/route.rs`): the whole route
with the pivot index of the common ancestor. -/
structure TreeRoute where
  route : List Nat
  pivot : Nat
deriving DecidableEq, Repr

/-- `TreeRoute::retracted`: the route before the pivot. -/
def TreeRoute.retracted (r : TreeRoute) : List Nat :=
  r.route.take r.pivot

/-- `TreeRoute::common_block` (`none` models its `.expect` panic on an
out-of-range pivot, which the construction never produces). -/
def TreeRoute.common_block (r : TreeRoute) : Option Nat :=
  r.route.get? r.pivot

/-- `TreeRoute::enacted`: the route after the pivot. -/
def TreeRoute.enacted (r : TreeRoute) : List Nat :=
  r.route.drop (r.pivot + 1)

/-- `tree_route`'s first loop (`src/backend/route.rs` lines 85-97): walk
the `to` side up while its depth exceeds the fixed `from` depth, recording
the walked identifiers.  A parentless block inside the loop hits
`assert!(to_depth == 0)`, whose failure is a panic; the Rust loop is
unbounded, so fuel exhaustion yields `Diverged`. -/
def walkToUp (s : Store) : Nat → Block → Nat → Nat → List Nat →
    Except Error (Block × Nat × List Nat)
  | 0, _, _, _, _ => .error .Diverged
  | fuel + 1, to_blk, to_depth, from_depth, to_branch =>
    if from_depth < to_depth then
      match to_blk.parent_id with
      | none => if to_depth = 0 then .ok (to_blk, to_depth, to_branch) else .error .Panicked
      | some parent_id =>
        let to_branch2 := to_branch ++ [to_blk.id]
        match block_at s parent_id with
        | none => .error .NotExist
        | some b2 =>
          match depth_at s parent_id with
          | none => .error .NotExist
          | some d2 => walkToUp s fuel b2 d2 from_depth to_branch2
    else .ok (to_blk, to_depth, to_branch)

/-- `tree_route`'s second loop (lines 99-111): walk the `from` side up
while its depth exceeds the (already aligned) `to` depth.  Its `assert!`
also tests `to_depth`, faithfully mirrored. -/
def walkFromUp (s : Store) : Nat → Block → Nat → Nat → List Nat →
    Except Error (Block × Nat × List Nat)
  | 0, _, _, _, _ => .error .Diverged
  | fuel + 1, from_blk, from_depth, to_depth, from_branch =>
    if to_depth < from_depth then
      match from_blk.parent_id with
      | none => if to_depth = 0 then .ok (from_blk, from_depth, from_branch) else .error .Panicked
      | some parent_id =>
        let from_branch2 := from_branch ++ [from_blk.id]
        match block_at s parent_id with
        | none => .error .NotExist
        | some b2 =>
          match depth_at s parent_id with
          | none => .error .NotExist
          | some d2 => walkFromUp s fuel b2 d2 to_depth from_branch2
    else .ok (from_blk, from_depth, from_branch)

/-- `tree_route`'s lock-step loop (lines 114-134): walk both sides up until
the identifiers meet; a parentless block on either side is a `panic!`. -/
def walkLock (s : Store) : Nat → Block → Block → List Nat → List Nat →
    Except Error (Block × Block × List Nat × List Nat)
  | 0, _, _, _, _ => .error .Diverged
  | fuel + 1, from_blk, to_blk, from_branch, to_branch =>
    if from_blk.id ≠ to_blk.id then
      match to_blk.parent_id with
      | none => .error .Panicked
      | some to_parent =>
        match from_blk.parent_id with
        | none => .error .Panicked
        | some from_parent =>
          let to_branch2 := to_branch ++ [to_blk.id]
          match block_at s to_parent with
          | none => .error .NotExist
          | some t2 =>
            let from_branch2 := from_branch ++ [from_blk.id]
            match block_at s from_parent with
            | none => .error .NotExist
            | some f2 => walkLock s fuel f2 t2 from_branch2 to_branch2
    else .ok (from_blk, to_blk, from_branch, to_branch)

/-- `tree_route` (`src/backend/route.rs` lines 70-145): compute the
retracted/common/enacted decomposition between two identifiers over parent
links. -/
def tree_route (s : Store) (from_id to_id : Nat) : Except Error TreeRoute :=
  match block_at s from_id with
  | none => .error .NotExist
  | some from_blk =>
    match block_at s to_id with
    | none => .error .NotExist
    | some to_blk =>
      match depth_at s from_id with
      | none => .error .NotExist
      | some from_depth =>
        match depth_at s to_id with
        | none => .error .NotExist
        | some to_depth =>
          match walkToUp s (to_depth + 1) to_blk to_depth from_depth [] with
          | .error e => .error e
          | .ok (to_blk2, to_depth2, to_branch) =>
            match walkFromUp s (from_depth + 1) from_blk from_depth to_depth2 [] with
            | .error e => .error e
            | .ok (from_blk2, _, from_branch) =>
              match walkLock s (from_depth + to_depth + 1) from_blk2 to_blk2 from_branch to_branch with
              | .error e => .error e
              | .ok (_, to_blk3, from_branch2, to_branch2) =>
                .ok ⟨from_branch2 ++ [to_blk3.id] ++ to_branch2.reverse, from_branch2.length⟩

/-- `Operation::settle`'s retraction loop (lines 143-148): clear the canon
flag and remove the canon-depth mapping of every retracted identifier; the
`.expect` on `depth_at` is a panic. -/
def retractAll : List Nat → Store → Except Error Unit × Store
  | [], s => (.ok (), s)
  | id :: rest, s =>
    match set_canon s id false with
    | .error e => (.error e, s)
    | .ok t =>
      match depth_at t id with
      | none => (.error .Panicked, t)
      | some d => retractAll rest (remove_canon_depth_mapping t d)

/-- `Operation::settle`'s enaction loop (lines 150-155): set the canon flag
and insert the canon-depth mapping of every enacted identifier. -/
def enactAll : List Nat → Store → Except Error Unit × Store
  | [], s => (.ok (), s)
  | id :: rest, s =>
    match set_canon s id true with
    | .error e => (.error e, s)
    | .ok t =>
      match depth_at t id with
      | none => (.error .Panicked, t)
      | some d => enactAll rest (insert_canon_depth_mapping t d id)

/-- `Operation::settle`'s reorganization step (lines 139-158): when a new
head is requested, compute the tree-route from the current head, retract
and enact, and move the head.  The `.expect` on `tree_route`'s result is a
panic whatever the route error was. -/
def doReorg (new_head : Option Nat) (s : Store) : Except Error Unit × Store :=
  match new_head with
  | none => (.ok (), s)
  | some nh =>
    match tree_route s s.head nh with
    | .error _ => (.error .Panicked, s)
    | .ok route =>
      match retractAll route.retracted s with
      | (.error e, t) => (.error e, t)
      | (.ok (), t) =>
        match enactAll route.enacted t with
        | (.error e, u) => (.error e, u)
        | (.ok (), u) => (.ok (), set_head u nh)

/-- `Operation::settle` lines 160-162: apply the auxiliary removals. -/
def doAuxRemoves (keys : List Nat) (s : Store) : Store :=
  keys.foldl (fun t k => remove_auxiliary t k) s

/-- `Operation::settle` lines 164-166: apply the auxiliary insertions. -/
def doAuxInserts (auxes : List Auxiliary) (s : Store) : Store :=
  auxes.foldl (fun t a => insert_auxiliary t a.key a) s

/-- `Operation::settle` (`src/backend/operation.rs` lines 52-169), threading
the backend state explicitly: the result value together with the backend
after the call (unchanged whenever an error value is returned before the
mutation phase). -/
def settle (op : Operation) (s : Store) : Except Error Unit × Store :=
  match settleLoop s (op.import_block.length + 1) [] [] op.import_block with
  | .error e => (.error e, s)
  | .ok (importing, parent_ides) =>
    if headPrecheck s importing op.set_head = false then (.error .InvalidOperation, s)
    else if auxPrecheck s importing op.insert_auxiliaries = false then (.error .InvalidOperation, s)
    else
      let s1 := doImports importing s
      match doPushes parent_ides s1 with
      | (.error e, t) => (.error e, t)
      | (.ok (), s2) =>
        match doReorg op.set_head s2 with
        | (.error e, t) => (.error e, t)
        | (.ok (), s3) =>
          (.ok (), doAuxInserts op.insert_auxiliaries (doAuxRemoves op.remove_auxiliaries s3))

/-- `BestDepthImporter::import_block` (`network/simple/src/lib.rs` lines
202-229; `network/src/sync/depth.rs` lines 92-124 is the same logic): read
the head depth (`.expect`), the parent depth (`.unwrap` — a panic when the
parent is missing), build the one-import operation, set the head when the
new depth strictly exceeds the current best depth, and commit it through
`settle`.  The executor is modelled as always succeeding, and the imported
state is the parent's state (`ImportAction::execute_block`). -/
def import_block (b : Block) (s : Store) : Except Error Unit × Store :=
  match depth_at s s.head with
  | none => (.error .Panicked, s)
  | some current_best_depth =>
    let new_parent_depth : Except Error Nat :=
      match b.parent_id with
      | some parent_id =>
        match depth_at s parent_id with
        | some d => .ok d
        | none => .error .Panicked
      | none => .ok 0
    match new_parent_depth with
    | .error e => (.error e, s)
    | .ok npd =>
      let new_depth := npd + 1
      match b.parent_id with
      | none => (.error .IsGenesis, s)
      | some parent_id =>
        match state_at s parent_id with
        | none => (.error .NotExist, s)
        | some st =>
          settle
            { import_block := [⟨b, st⟩],
              set_head := if current_best_depth < new_depth then some b.id else none,
              insert_auxiliaries := [],
              remove_auxiliaries := [] }
            s

/-- `BestDepthStatus` (`network/simple/src/lib.rs` lines 20-23;
`best_depth` is a `u64`, modelled as `Nat` since comparison never
overflows). -/
structure BestDepthStatus where
  best_depth : Nat
deriving DecidableEq, Repr

/-- `Ord::cmp for BestDepthStatus`: numeric comparison on `best_depth`. -/
def BestDepthStatus.cmp (a b : BestDepthStatus) : Ordering :=
  compare a.best_depth b.best_depth

/-- `PartialOrd::partial_cmp for BestDepthStatus`: `Some(self.cmp(other))`. -/
def BestDepthStatus.partial_cmp (a b : BestDepthStatus) : Option Ordering :=
  some (a.cmp b)

/-- Rust's derived `lt` (`a < b` iff `partial_cmp == Some(Less)`). -/
def BestDepthStatus.lt (a b : BestDepthStatus) : Bool :=
  a.partial_cmp b == some Ordering.lt

/-- `PartialEq::eq for BestDepthStatus` is written `self == other`, a call
to itself.  The fuel argument models the machine's call stack: each
recursive call consumes one frame, and running out (`none`) is the stack
overflow that the unbounded Rust recursion produces.  There is no
non-recursive branch to translate. -/
def BestDepthStatus.eq_fuel : Nat → BestDepthStatus → BestDepthStatus → Option Bool
  | 0, _, _ => none
  | fuel + 1, a, b => BestDepthStatus.eq_fuel fuel a b

/-! ### Association-list lemmas -/

theorem alookup_ains {α : Type} (k k2 : Nat) (v : α) (l : List (Nat × α)) :
    alookup k (ains k2 v l) = if k2 = k then some v else alookup k l := by
  induction l with
  | nil =>
    by_cases h : k2 = k <;> simp [ains, alookup, h]
  | cons p rest ih =>
    by_cases h1 : p.1 = k2
    · subst h1
      by_cases h2 : p.1 = k
      · subst h2
        simp [ains, alookup]
      · simp [ains, alookup, h2]
    · by_cases h2 : p.1 = k
      · subst h2
        have hk : ¬ k2 = p.1 := fun he => h1 he.symm
        simp [ains, alookup, h1, hk]
      · simp [ains, alookup, h1, h2, ih]

theorem alookup_arem {α : Type} (k k2 : Nat) (l : List (Nat × α)) :
    alookup k (arem k2 l) = if k2 = k then none else alookup k l := by
  induction l with
  | nil =>
    by_cases h : k2 = k <;> simp [arem, alookup, h]
  | cons p rest ih =>
    by_cases h1 : p.1 = k2
    · subst h1
      by_cases h2 : p.1 = k
      · subst h2
        simp [arem, alookup, ih]
      · simp [arem, alookup, h2, ih]
    · by_cases h2 : p.1 = k
      · subst h2
        have hk : ¬ k2 = p.1 := fun he => h1 he.symm
        simp [arem, alookup, h1, hk]
      · simp [arem, alookup, h1, h2, ih]

theorem alookup_mem {α : Type} {k : Nat} {v : α} {l : List (Nat × α)} :
    alookup k l = some v → (k, v) ∈ l := by
  induction l with
  | nil => intro h; simp [alookup] at h
  | cons p rest ih =>
    intro h
    by_cases h1 : p.1 = k
    · simp [alookup, h1] at h
      subst h1 h
      exact List.mem_cons_self _ _
    · simp [alookup, h1] at h
      exact List.mem_cons_of_mem _ (ih h)

theorem ains_of_alookup_none {α : Type} {k : Nat} (v : α) {l : List (Nat × α)} :
    alookup k l = none → ains k v l = l ++ [(k, v)] := by
  induction l with
  | nil => intro _; simp [ains]
  | cons p rest ih =>
    intro h
    by_cases h1 : p.1 = k
    · simp [alookup, h1] at h
    · simp [alookup, h1] at h
      simp [ains, h1, ih h]

/-! ### Error-value classification of the mutation phase -/

theorem push_child_error {s : Store} {a b : Nat} {e : Error} :
    push_child s a b = .error e → e = .Panicked := by
  intro h
  unfold push_child at h
  cases hx : alookup a s.blocks_and_states with
  | none =>
    rw [hx] at h
    exact (Except.error.inj h).symm
  | some bd =>
    rw [hx] at h
    simp at h

theorem set_canon_error {s : Store} {a : Nat} {c : Bool} {e : Error} :
    set_canon s a c = .error e → e = .Panicked := by
  intro h
  unfold set_canon at h
  cases hx : alookup a s.blocks_and_states with
  | none =>
    rw [hx] at h
    exact (Except.error.inj h).symm
  | some bd =>
    rw [hx] at h
    simp at h

theorem doPushes_error {l : List (Nat × Nat)} {s t : Store} {e : Error} :
    doPushes l s = (.error e, t) → e = .Panicked := by
  induction l generalizing s with
  | nil => intro h; simp [doPushes] at h
  | cons p rest ih =>
    intro h
    obtain ⟨a, b⟩ := p
    unfold doPushes at h
    cases hpc : push_child s b a with
    | error e2 =>
      rw [hpc] at h
      dsimp only at h
      have h1 := congrArg Prod.fst h
      cases Except.error.inj h1
      exact push_child_error hpc
    | ok t2 =>
      rw [hpc] at h
      dsimp only at h
      exact ih h

theorem retractAll_error {l : List Nat} {s t : Store} {e : Error} :
    retractAll l s = (.error e, t) → e = .Panicked := by
  induction l generalizing s with
  | nil => intro h; simp [retractAll] at h
  | cons a rest ih =>
    intro h
    unfold retractAll at h
    cases hsc : set_canon s a false with
    | error e2 =>
      rw [hsc] at h
      dsimp only at h
      have h1 := congrArg Prod.fst h
      cases Except.error.inj h1
      exact set_canon_error hsc
    | ok t2 =>
      rw [hsc] at h
      dsimp only at h
      cases hd : depth_at t2 a with
      | none =>
        rw [hd] at h
        dsimp only at h
        have h1 := congrArg Prod.fst h
        exact (Except.error.inj h1).symm
      | some d =>
        rw [hd] at h
        dsimp only at h
        exact ih h

theorem enactAll_error {l : List Nat} {s t : Store} {e : Error} :
    enactAll l s = (.error e, t) → e = .Panicked := by
  induction l generalizing s with
  | nil => intro h; simp [enactAll] at h
  | cons a rest ih =>
    intro h
    unfold enactAll at h
    cases hsc : set_canon s a true with
    | error e2 =>
      rw [hsc] at h
      dsimp only at h
      have h1 := congrArg Prod.fst h
      cases Except.error.inj h1
      exact set_canon_error hsc
    | ok t2 =>
      rw [hsc] at h
      dsimp only at h
      cases hd : depth_at t2 a with
      | none =>
        rw [hd] at h
        dsimp only at h
        have h1 := congrArg Prod.fst h
        exact (Except.error.inj h1).symm
      | some d =>
        rw [hd] at h
        dsimp only at h
        exact ih h

theorem doReorg_error {nh : Option Nat} {s t : Store} {e : Error} :
    doReorg nh s = (.error e, t) → e = .Panicked := by
  intro h
  unfold doReorg at h
  cases nh with
  | none => simp at h
  | some v =>
    dsimp only at h
    cases htr : tree_route s s.head v with
    | error e2 =>
      rw [htr] at h
      dsimp only at h
      have h1 := congrArg Prod.fst h
      exact (Except.error.inj h1).symm
    | ok route =>
      rw [htr] at h
      dsimp only at h
      cases hra : retractAll route.retracted s with
      | mk res1 t1 =>
        rw [hra] at h
        cases res1 with
        | error e2 =>
          dsimp only at h
          have h1 := congrArg Prod.fst h
          cases Except.error.inj h1
          exact retractAll_error hra
        | ok u1 =>
          dsimp only at h
          cases hea : enactAll route.enacted t1 with
          | mk res2 t2 =>
            rw [hea] at h
            cases res2 with
            | error e2 =>
              dsimp only at h
              have h1 := congrArg Prod.fst h
              cases Except.error.inj h1
              exact enactAll_error hea
            | ok u2 => simp at h

/-! ### Claim C1: a rejected Operation leaves the store unchanged -/

/-- Claim C1: for every store and every Operation, if `settle` returns an
error value (`NotExist`, `InvalidOperation` or `IsGenesis` — every error the
backend can raise during pre-validation), the store after the call equals
the store before the call.  (`Panicked`/`Diverged` model unwinding and
non-termination, which are not returned errors.) -/
theorem claim_c1_rejected_operation_store_unchanged (op : Operation) (s : Store) (e : Error)
    (herr : (settle op s).1 = .error e)
    (hkind : e = .NotExist ∨ e = .InvalidOperation ∨ e = .IsGenesis) :
    (settle op s).2 = s := by
  have hnp : e ≠ .Panicked := by rcases hkind with h | h | h <;> subst h <;> intro hc <;> cases hc
  unfold settle at herr ⊢
  cases hsl : settleLoop s (op.import_block.length + 1) [] [] op.import_block with
  | error e2 => rfl
  | ok pr =>
    obtain ⟨I, P⟩ := pr
    rw [hsl] at herr
    dsimp only at herr ⊢
    by_cases hh : headPrecheck s I op.set_head = false
    · simp [hh]
    · rw [if_neg hh] at herr ⊢
      by_cases ha : auxPrecheck s I op.insert_auxiliaries = false
      · simp [ha]
      · rw [if_neg ha] at herr ⊢
        cases hdp : doPushes P (doImports I s) with
        | mk res1 t1 =>
          rw [hdp] at herr
          cases res1 with
          | error e2 =>
            dsimp only at herr
            cases Except.error.inj herr
            exact absurd (doPushes_error hdp) hnp
          | ok u1 =>
            dsimp only at herr
            cases hdr : doReorg op.set_head t1 with
            | mk res2 t2 =>
              rw [hdr] at herr
              cases res2 with
              | error e2 =>
                dsimp only at herr
                cases Except.error.inj herr
                exact absurd (doReorg_error hdr) hnp
              | ok u2 =>
                dsimp only at herr
                cases herr

/-! ### Concrete example stores and operations (genesis block 1, child notation id over parent) -/

/-- A fresh genesis-only backend with genesis identifier 1. -/
def exG : Store := new_with_genesis ⟨1, none⟩ 0

/-- An operation importing the single block `i/p` with no head change. -/
def importOnlyOp (i p : Nat) : Operation :=
  ⟨[⟨⟨i, some p⟩, 0⟩], none, [], []⟩

/-- An operation with no imports that only sets the head. -/
def setHeadOp (h : Nat) : Operation :=
  ⟨[], some h, [], []⟩

/-- An operation importing a single parentless (genesis) block. -/
def genesisImportOp : Operation :=
  ⟨[⟨⟨5, none⟩, 0⟩], none, [], []⟩

/-- Witness for claim C1: importing a parentless block into the genesis-only
backend is rejected with `IsGenesis` and the store is unchanged. -/
theorem claim_c1_witness :
    (settle genesisImportOp exG).1 = .error .IsGenesis ∧
    (settle genesisImportOp exG).2 = exG :=
  ⟨by decide,
   claim_c1_rejected_operation_store_unchanged genesisImportOp exG .IsGenesis
     (by decide) (by decide)⟩

/-! ### Claim C3: out-of-order topological admission -/

/-- Imports `[4/3, 3/2, 2/1]` (children before parents), `set_head = 4`. -/
def exOpOutOfOrder : Operation :=
  ⟨[⟨⟨4, some 3⟩, 0⟩, ⟨⟨3, some 2⟩, 0⟩, ⟨⟨2, some 1⟩, 0⟩], some 4, [], []⟩

/-- Imports `[2/1, 3/2, 4/3]` in parent-first order, `set_head = 4`. -/
def exOpLinear : Operation :=
  ⟨[⟨⟨2, some 1⟩, 0⟩, ⟨⟨3, some 2⟩, 0⟩, ⟨⟨4, some 3⟩, 0⟩], some 4, [], []⟩

/-- The linear build of scenario S1 as three successive single-import
commits followed by the head change to 4. -/
def exSeqStore : Store :=
  (settle (setHeadOp 4)
    ((settle (importOnlyOp 4 3)
      ((settle (importOnlyOp 3 2)
        ((settle (importOnlyOp 2 1) exG).2)).2)).2)).2

/-- Claim C3: settling the single out-of-order Operation `[4/3, 3/2, 2/1]`
with `set_head = 4` on the genesis-only store succeeds and produces exactly
the store of the linear build `2/1, 3/2, 4/3` (both as one batch and as
successive commits): `head = 4`, `depth(4) = 3`, `is_canon` on
`{1, 2, 3, 4}` and `canon_depth_index = {0: 1, 1: 2, 2: 3, 3: 4}`. -/
theorem claim_c3_out_of_order_admission :
    (settle exOpOutOfOrder exG).1 = .ok () ∧
    (settle exOpLinear exG).1 = .ok () ∧
    (settle exOpOutOfOrder exG).2 = (settle exOpLinear exG).2 ∧
    (settle exOpOutOfOrder exG).2 = exSeqStore ∧
    (settle exOpOutOfOrder exG).2.head = 4 ∧
    depth_at (settle exOpOutOfOrder exG).2 4 = some 3 ∧
    (∀ i ∈ [1, 2, 3, 4], is_canon (settle exOpOutOfOrder exG).2 i = some true) ∧
    lookup_canon_depth (settle exOpOutOfOrder exG).2 0 = some 1 ∧
    lookup_canon_depth (settle exOpOutOfOrder exG).2 1 = some 2 ∧
    lookup_canon_depth (settle exOpOutOfOrder exG).2 2 = some 3 ∧
    lookup_canon_depth (settle exOpOutOfOrder exG).2 3 = some 4 := by
  decide

/-! ### Claim C8: missing parent makes the importer panic -/

/-- Claim C8 (code bug): `BestDepthImporter::import_block` computes the new
depth with `backend.depth_at(&parent_hash).unwrap()`; for a block whose
parent identifier is not in the backend the `unwrap` panics instead of
returning an error value, contradicting the stated totality policy. -/
theorem claim_c8_missing_parent_panics :
    import_block ⟨2, some 99⟩ exG = (.error .Panicked, exG) := by
  decide

/-! ### Claim C9: the BestDepthStatus comparison operators -/

/-- Claim C9 (code bug): the handwritten `PartialEq::eq` for
`BestDepthStatus` is `self == other` — a call to itself — so `==` never
returns no matter how deep the call stack (`eq_fuel` is `none` for every
fuel), even though the derived `<` does agree with numeric comparison on
`best_depth`. -/
theorem claim_c9_eq_never_returns :
    (∀ (fuel : Nat) (a b : BestDepthStatus), BestDepthStatus.eq_fuel fuel a b = none) ∧
    (∀ a b : BestDepthStatus, BestDepthStatus.lt a b = true ↔ a.best_depth < b.best_depth) := by
  constructor
  · intro fuel
    induction fuel with
    | zero => intro a b; rfl
    | succ n ih => intro a b; exact ih a b
  · intro a b
    have h1 : BestDepthStatus.lt a b = (compare a.best_depth b.best_depth == Ordering.lt) := by
      unfold BestDepthStatus.lt BestDepthStatus.partial_cmp BestDepthStatus.cmp
      cases compare a.best_depth b.best_depth <;> rfl
    rw [h1]
    rw [show (compare a.best_depth b.best_depth == Ordering.lt) =
        decide (compare a.best_depth b.best_depth = Ordering.lt) from by
      cases compare a.best_depth b.best_depth <;> rfl]
    rw [decide_eq_true_iff]
    exact Nat.compare_eq_lt

/-! ### Counterexamples growing from the missing duplicate-identifier check -/

/-- `{1, 2/1}` with head 2: the canonical two-block chain. -/
def exChain2 : Store := (settle ⟨[⟨⟨2, some 1⟩, 0⟩], some 2, [], []⟩ exG).2

/-- Re-importing `2/1` into `exChain2` (no head change). -/
def exChain2Dup : Store := (settle (importOnlyOp 2 1) exChain2).2

/-- Counterexample to claim C2 as stated: both settle calls succeed, so
`exChain2Dup` is reachable from a genesis-only backend by successful
settles, yet its head (identifier 2, on the canonical path trivially, and
named by `canon_depth_index[1]`) has `is_canon = false`: the re-import
silently overwrote the block data. -/
theorem claim_c2_counterexample :
    (settle ⟨[⟨⟨2, some 1⟩, 0⟩], some 2, [], []⟩ exG).1 = .ok () ∧
    (settle (importOnlyOp 2 1) exChain2).1 = .ok () ∧
    exChain2Dup.head = 2 ∧
    depth_at exChain2Dup 2 = some 1 ∧
    lookup_canon_depth exChain2Dup 1 = some 2 ∧
    is_canon exChain2Dup 2 = some false := by
  decide

/-- Counterexample to claim C4 as stated: settling an Operation
that imports `2/1` while identifier 2 is already in the store does NOT fail with
`InvalidOperation` — it succeeds, and it changes the store. -/
theorem claim_c4_counterexample :
    (settle (importOnlyOp 2 1) exChain2).1 = .ok () ∧
    (settle (importOnlyOp 2 1) exChain2).2 ≠ exChain2 := by
  decide

/-- Counterexample to claim C6 as stated: an Operation holding both a
parentless import (5 with no parent) and an import with an unresolvable parent
(`7/99`) fails with `IsGenesis`, not with the `InvalidOperation` the first
half of the claim demands for it. -/
theorem claim_c6_counterexample :
    (settle ⟨[⟨⟨5, none⟩, 0⟩, ⟨⟨7, some 99⟩, 0⟩], none, [], []⟩ exG).1 = .error .IsGenesis := by
  decide

/-- `{1, 3/1, 2/3}` with head 2 at depth 2. -/
def exC7Store : Store :=
  (settle ⟨[⟨⟨2, some 3⟩, 0⟩], some 2, [], []⟩ ((settle (importOnlyOp 3 1) exG).2)).2

/-- Counterexample to claim C7 as stated: the longest-depth importer
accepts the block `2/1` (identifier already present at depth 2 = head),
does not move the head, and the overwrite drops `depth(head)` from 2
to 1. -/
theorem claim_c7_counterexample :
    depth_at exC7Store exC7Store.head = some 2 ∧
    (import_block ⟨2, some 1⟩ exC7Store).1 = .ok () ∧
    (import_block ⟨2, some 1⟩ exC7Store).2.head = exC7Store.head ∧
    depth_at (import_block ⟨2, some 1⟩ exC7Store).2 exC7Store.head = some 1 := by
  decide

/-- Reachable-by-successful-settles chain used against claim C10:
`1 ← 2 ← 3 ← 7` (head 7) plus `1 ← 4 ← 5 ← 6`, after which re-importing
`5/6` makes 5 and 6 each other's parents. -/
def exT1 : Store := (settle (importOnlyOp 2 1) exG).2
def exT2 : Store := (settle (importOnlyOp 3 2) exT1).2
def exT3 : Store := (settle (importOnlyOp 7 3) exT2).2
def exT4 : Store := (settle (importOnlyOp 4 1) exT3).2
def exT5 : Store := (settle (importOnlyOp 5 4) exT4).2
def exT6 : Store := (settle (importOnlyOp 6 5) exT5).2
def exT7 : Store := (settle (setHeadOp 7) exT6).2
def exT8 : Store := (settle (importOnlyOp 5 6) exT7).2

/-- Counterexample to claim C10 as stated: every settle call below
succeeds, so `exT8` is reachable from a genesis-only backend; the final
Operation `set_head := 6` passes all prechecks (no imports, no auxiliaries,
identifier 6 exists), yet the mutation phase panics — the lock-step walk of
`tree_route(7, 6)` runs down into the `5 ↔ 6` parent cycle on the `to` side
while the `from` side reaches the parentless genesis, hitting the
`panic!` branch of `src/backend/route.rs` line 125. -/
theorem claim_c10_counterexample :
    (settle (importOnlyOp 2 1) exG).1 = .ok () ∧
    (settle (importOnlyOp 3 2) exT1).1 = .ok () ∧
    (settle (importOnlyOp 7 3) exT2).1 = .ok () ∧
    (settle (importOnlyOp 4 1) exT3).1 = .ok () ∧
    (settle (importOnlyOp 5 4) exT4).1 = .ok () ∧
    (settle (importOnlyOp 6 5) exT5).1 = .ok () ∧
    (settle (setHeadOp 7) exT6).1 = .ok () ∧
    (settle (importOnlyOp 5 6) exT7).1 = .ok () ∧
    (settle (setHeadOp 6) exT8).1 = .error .Panicked := by
  decide

/-! ### Lemmas about the pre-check loop -/

theorem parentDepthLookup_ok (s : Store) (I : List (Nat × BlockData)) (p : Nat) :
    ∃ v, parentDepthLookup s I p = .ok v := by
  unfold parentDepthLookup
  by_cases h : contains s p = true
  · have h2 : (alookup p s.blocks_and_states).isSome = true := by
      simpa [contains] using h
    obtain ⟨bd, hbd⟩ := Option.isSome_iff_exists.mp h2
    exact ⟨some bd.depth, by simp [h, depth_at, hbd]⟩
  · by_cases h3 : (alookup p I).isSome = true
    · exact ⟨(alookup p I).map (·.depth), by simp [h, h3]⟩
    · exact ⟨none, by simp [h, h3]⟩

theorem settlePassOne_error_isGenesis (s : Store) :
    ∀ (ops : List ImportOperation) (I : List (Nat × BlockData)) (P : List (Nat × Nat)) (e : Error),
      settlePassOne s I P ops = .error e → e = .IsGenesis := by
  intro ops
  induction ops with
  | nil =>
    intro I P e h
    simp [settlePassOne] at h
  | cons op rest ih =>
    intro I P e h
    unfold settlePassOne at h
    cases hpar : op.block.parent_id with
    | none =>
      rw [hpar] at h
      exact (Except.error.inj h).symm
    | some p =>
      rw [hpar] at h
      dsimp only at h
      obtain ⟨v, hv⟩ := parentDepthLookup_ok s I p
      rw [hv] at h
      cases v with
      | none =>
        dsimp only at h
        cases hrec : settlePassOne s I P rest with
        | error e2 =>
          rw [hrec] at h
          cases Except.error.inj h
          exact ih I P e hrec
        | ok r =>
          obtain ⟨a, b, c, d⟩ := r
          rw [hrec] at h
          simp at h
      | some d =>
        dsimp only at h
        cases hrec : settlePassOne s (ains op.block.id ⟨op.block, op.state, d + 1, [], false⟩ I)
            (ains op.block.id p P) rest with
        | error e2 =>
          rw [hrec] at h
          cases Except.error.inj h
          exact ih _ _ e hrec
        | ok r =>
          obtain ⟨a, b, c, d2⟩ := r
          rw [hrec] at h
          simp at h

theorem settlePassOne_ok_of_parents (s : Store) :
    ∀ (ops : List ImportOperation), (∀ i ∈ ops, i.block.parent_id ≠ none) →
    ∀ I P, ∃ r, settlePassOne s I P ops = .ok r := by
  intro ops
  induction ops with
  | nil => intro _ I P; exact ⟨_, rfl⟩
  | cons op rest ih =>
    intro hall I P
    have hop := hall op (List.mem_cons_self _ _)
    have hrest : ∀ i ∈ rest, i.block.parent_id ≠ none :=
      fun i hi => hall i (List.mem_cons_of_mem _ hi)
    cases hpar : op.block.parent_id with
    | none => exact absurd hpar hop
    | some p =>
      obtain ⟨v, hv⟩ := parentDepthLookup_ok s I p
      unfold settlePassOne
      rw [hpar]
      dsimp only
      rw [hv]
      cases v with
      | none =>
        dsimp only
        obtain ⟨r, hr⟩ := ih hrest I P
        obtain ⟨a, b, c, d⟩ := r
        rw [hr]
        exact ⟨_, rfl⟩
      | some d =>
        dsimp only
        obtain ⟨r, hr⟩ := ih hrest (ains op.block.id ⟨op.block, op.state, d + 1, [], false⟩ I)
          (ains op.block.id p P)
        obtain ⟨a, b, c, d2⟩ := r
        rw [hr]
        exact ⟨_, rfl⟩

theorem settlePassOne_shape (s : Store) :
    ∀ (ops : List ImportOperation) (I : List (Nat × BlockData)) (P : List (Nat × Nat))
      (I2 : List (Nat × BlockData)) (P2 : List (Nat × Nat))
      (nv : List ImportOperation) (prog : Bool),
      settlePassOne s I P ops = .ok (I2, P2, nv, prog) →
      (∀ x ∈ nv, x ∈ ops) ∧ nv.length ≤ ops.length ∧
      (prog = true → nv.length < ops.length) ∧
      (∀ k, (alookup k I2).isSome = true →
        (alookup k I).isSome = true ∨ k ∈ ops.map (fun o => o.block.id)) := by
  intro ops
  induction ops with
  | nil =>
    intro I P I2 P2 nv prog h
    obtain ⟨rfl, rfl, rfl, rfl⟩ : I = I2 ∧ P = P2 ∧ nv = [] ∧ prog = false := by
      simpa [settlePassOne, Prod.ext_iff] using h
    refine ⟨by simp, by simp, by simp, fun k hk => Or.inl hk⟩
  | cons op rest ih =>
    intro I P I2 P2 nv prog h
    unfold settlePassOne at h
    cases hpar : op.block.parent_id with
    | none => rw [hpar] at h; cases h
    | some p =>
      rw [hpar] at h
      dsimp only at h
      obtain ⟨v, hv⟩ := parentDepthLookup_ok s I p
      rw [hv] at h
      cases v with
      | none =>
        dsimp only at h
        cases hrec : settlePassOne s I P rest with
        | error e2 => rw [hrec] at h; cases h
        | ok r =>
          obtain ⟨a, b, c, d⟩ := r
          rw [hrec] at h
          obtain ⟨rfl, rfl, rfl, rfl⟩ : a = I2 ∧ b = P2 ∧ op :: c = nv ∧ d = prog := by
            simpa [Prod.ext_iff] using h
          obtain ⟨hsub, hle, hlt, hkeys⟩ := ih I P a b c d hrec
          refine ⟨?_, ?_, ?_, ?_⟩
          · intro x hx
            cases List.mem_cons.mp hx with
            | inl he => exact he ▸ List.mem_cons_self _ _
            | inr hm => exact List.mem_cons_of_mem _ (hsub x hm)
          · simpa using Nat.succ_le_succ hle
          · intro hp
            have := hlt hp
            simp only [List.length_cons]
            omega
          · intro k hk
            cases hkeys k hk with
            | inl hin => exact Or.inl hin
            | inr hmem => exact Or.inr (by simp only [List.map_cons]; exact List.mem_cons_of_mem _ hmem)
      | some d =>
        dsimp only at h
        cases hrec : settlePassOne s (ains op.block.id ⟨op.block, op.state, d + 1, [], false⟩ I)
            (ains op.block.id p P) rest with
        | error e2 => rw [hrec] at h; cases h
        | ok r =>
          obtain ⟨a, b, c, d2⟩ := r
          rw [hrec] at h
          obtain ⟨rfl, rfl, rfl, rfl⟩ : a = I2 ∧ b = P2 ∧ c = nv ∧ true = prog := by
            simpa [Prod.ext_iff] using h
          obtain ⟨hsub, hle, hlt, hkeys⟩ := ih _ _ a b c d2 hrec
          refine ⟨?_, ?_, ?_, ?_⟩
          · exact fun x hx => List.mem_cons_of_mem _ (hsub x hx)
          · calc c.length ≤ rest.length := hle
              _ ≤ (op :: rest).length := by simp
          · intro _
            calc c.length ≤ rest.length := hle
              _ < (op :: rest).length := by simp
          · intro k hk
            cases hkeys k hk with
            | inl hin =>
              rw [alookup_ains] at hin
              by_cases he : op.block.id = k
              · exact Or.inr (by simp [he.symm])
              · rw [if_neg he] at hin
                exact Or.inl hin
            | inr hmem => exact Or.inr (by simp only [List.map_cons]; exact List.mem_cons_of_mem _ hmem)

theorem settlePassOne_bad_deferred (s : Store) (i : ImportOperation) (p : Nat)
    (hip : i.block.parent_id = some p) (hnc : contains s p = false) :
    ∀ (ops : List ImportOperation), i ∈ ops →
      p ∉ ops.map (fun o => o.block.id) →
    ∀ I P, alookup p I = none →
    ∀ I2 P2 nv prog, settlePassOne s I P ops = .ok (I2, P2, nv, prog) →
      i ∈ nv ∧ alookup p I2 = none := by
  intro ops
  induction ops with
  | nil => intro hi; cases hi
  | cons op rest ih =>
    intro hi hpids I P hpI I2 P2 nv prog h
    have hI2none : (alookup p I2).isSome = true → False := by
      intro hk
      obtain ⟨a, b, c, d⟩ :=
        settlePassOne_shape s (op :: rest) I P I2 P2 nv prog h
      cases d p hk with
      | inl hin => rw [hpI] at hin; cases hin
      | inr hmem => exact hpids hmem
    have hI2 : alookup p I2 = none := by
      cases hx : alookup p I2 with
      | none => rfl
      | some v => exact absurd (by simp [hx]) (fun hh => hI2none hh)
    unfold settlePassOne at h
    cases List.mem_cons.mp hi with
    | inl he =>
      subst he
      rw [hip] at h
      dsimp only at h
      have hpdl : parentDepthLookup s I p = .ok none := by
        unfold parentDepthLookup
        simp [hnc, hpI]
      rw [hpdl] at h
      dsimp only at h
      cases hrec : settlePassOne s I P rest with
      | error e2 => rw [hrec] at h; cases h
      | ok r =>
        obtain ⟨a, b, c, d⟩ := r
        rw [hrec] at h
        obtain ⟨-, -, hnv, -⟩ : a = I2 ∧ b = P2 ∧ i :: c = nv ∧ d = prog := by
          simpa [Prod.ext_iff] using h
        exact ⟨hnv ▸ List.mem_cons_self _ _, hI2⟩
    | inr hm =>
      cases hpar : op.block.parent_id with
      | none => rw [hpar] at h; cases h
      | some q =>
        rw [hpar] at h
        dsimp only at h
        have hqrest : p ∉ rest.map (fun o => o.block.id) := by
          intro hmem
          exact hpids (by simp only [List.map_cons]; exact List.mem_cons_of_mem _ hmem)
        obtain ⟨v, hv⟩ := parentDepthLookup_ok s I q
        rw [hv] at h
        cases v with
        | none =>
          dsimp only at h
          cases hrec : settlePassOne s I P rest with
          | error e2 => rw [hrec] at h; cases h
          | ok r =>
            obtain ⟨a, b, c, d⟩ := r
            rw [hrec] at h
            obtain ⟨-, -, hnv, -⟩ : a = I2 ∧ b = P2 ∧ op :: c = nv ∧ d = prog := by
              simpa [Prod.ext_iff] using h
            obtain ⟨hin, -⟩ := ih hm hqrest I P hpI a b c d hrec
            exact ⟨hnv ▸ List.mem_cons_of_mem _ hin, hI2⟩
        | some dq =>
          dsimp only at h
          have hne : op.block.id ≠ p := by
            intro he
            exact hpids (by simp [he])
          have hpI' : alookup p (ains op.block.id ⟨op.block, op.state, dq + 1, [], false⟩ I) = none := by
            rw [alookup_ains, if_neg hne]
            exact hpI
          cases hrec : settlePassOne s (ains op.block.id ⟨op.block, op.state, dq + 1, [], false⟩ I)
              (ains op.block.id q P) rest with
          | error e2 => rw [hrec] at h; cases h
          | ok r =>
            obtain ⟨a, b, c, d2⟩ := r
            rw [hrec] at h
            obtain ⟨-, -, hnv, -⟩ : a = I2 ∧ b = P2 ∧ c = nv ∧ true = prog := by
              simpa [Prod.ext_iff] using h
            obtain ⟨hin, -⟩ := ih hm hqrest _ _ hpI' a b c d2 hrec
            exact ⟨hnv ▸ hin, hI2⟩

theorem settleLoop_invalid_of_bad_parent (s : Store) :
    ∀ (n : Nat) (ops : List ImportOperation) (I : List (Nat × BlockData)) (P : List (Nat × Nat)),
      ops.length < n →
      (∀ i ∈ ops, i.block.parent_id ≠ none) →
      (∃ i ∈ ops, ∃ p, i.block.parent_id = some p ∧ contains s p = false ∧
        p ∉ ops.map (fun o => o.block.id) ∧ alookup p I = none) →
      settleLoop s n I P ops = .error .InvalidOperation := by
  intro n
  induction n with
  | zero =>
    intro ops I P hlen _ _
    exact absurd hlen (by omega)
  | succ m ih =>
    intro ops I P hlen hall hbad
    obtain ⟨i, hi, p, hip, hnc, hpids, hpI⟩ := hbad
    obtain ⟨r, hr⟩ := settlePassOne_ok_of_parents s ops hall I P
    obtain ⟨I2, P2, nv, prog⟩ := r
    unfold settleLoop
    rw [hr]
    dsimp only
    obtain ⟨hsub, hle, hlt, hkeys⟩ := settlePassOne_shape s ops I P I2 P2 nv prog hr
    obtain ⟨hin, hpI2⟩ :=
      settlePassOne_bad_deferred s i p hip hnc ops hi hpids I P hpI I2 P2 nv prog hr
    have hnv : ¬ nv.length = 0 := by
      intro h0
      rw [List.length_eq_zero] at h0
      subst h0
      cases hin
    rw [if_neg hnv]
    cases prog with
    | false => rfl
    | true =>
      rw [if_pos rfl]
      apply ih nv I2 P2
      · have h1 := hlt rfl
        omega
      · exact fun x hx => hall x (hsub x hx)
      · refine ⟨i, hin, p, hip, hnc, ?_, hpI2⟩
        intro hmem
        apply hpids
        simp only [List.mem_map] at hmem ⊢
        obtain ⟨x, hx, hxe⟩ := hmem
        exact ⟨x, hsub x hx, hxe⟩

theorem settlePassOne_genesis (s : Store) :
    ∀ (ops : List ImportOperation), (∃ i ∈ ops, i.block.parent_id = none) →
    ∀ I P, settlePassOne s I P ops = .error .IsGenesis := by
  intro ops
  induction ops with
  | nil =>
    intro hex I P
    obtain ⟨i, hi, -⟩ := hex
    cases hi
  | cons op rest ih =>
    intro hex I P
    cases hpar : op.block.parent_id with
    | none =>
      unfold settlePassOne
      rw [hpar]
    | some p =>
      have hex2 : ∃ i ∈ rest, i.block.parent_id = none := by
        obtain ⟨i, hi, hpi⟩ := hex
        cases List.mem_cons.mp hi with
        | inl he =>
          subst he
          rw [hpar] at hpi
          cases hpi
        | inr hm => exact ⟨i, hm, hpi⟩
      unfold settlePassOne
      rw [hpar]
      dsimp only
      obtain ⟨v, hv⟩ := parentDepthLookup_ok s I p
      rw [hv]
      cases v with
      | none =>
        dsimp only
        rw [ih hex2 I P]
      | some d =>
        dsimp only
        rw [ih hex2 (ains op.block.id ⟨op.block, op.state, d + 1, [], false⟩ I)
          (ains op.block.id p P)]

theorem settleLoop_genesis (s : Store) (n : Nat) (ops : List ImportOperation)
    (I : List (Nat × BlockData)) (P : List (Nat × Nat))
    (hex : ∃ i ∈ ops, i.block.parent_id = none) (hn : 0 < n) :
    settleLoop s n I P ops = .error .IsGenesis := by
  cases n with
  | zero => omega
  | succ m =>
    unfold settleLoop
    rw [settlePassOne_genesis s ops hex I P]

/-- Claim C6 amended: for an Operation none of whose imports is parentless,
an import whose parent identifier is neither in the store nor among the
Operation's own imports makes `settle` fail with `InvalidOperation` (never
`NotExist`); and for every Operation containing a parentless import,
`settle` fails with `IsGenesis` (the amendment: the first half additionally
requires no parentless import, since a parentless import wins and produces
`IsGenesis` even when an unresolvable parent is also present). -/
theorem claim_c6_amended_missing_parent (s : Store) (op : Operation) :
    ((∀ i ∈ op.import_block, i.block.parent_id ≠ none) →
      (∃ i ∈ op.import_block, ∃ p, i.block.parent_id = some p ∧ contains s p = false ∧
        p ∉ op.import_block.map (fun o => o.block.id)) →
      (settle op s).1 = .error .InvalidOperation) ∧
    ((∃ i ∈ op.import_block, i.block.parent_id = none) →
      (settle op s).1 = .error .IsGenesis) := by
  constructor
  · intro hall hbad
    have hloop : settleLoop s (op.import_block.length + 1) [] [] op.import_block =
        .error .InvalidOperation := by
      apply settleLoop_invalid_of_bad_parent s (op.import_block.length + 1) op.import_block [] []
        (by omega) hall
      obtain ⟨i, hi, p, hip, hnc, hpids⟩ := hbad
      exact ⟨i, hi, p, hip, hnc, hpids, rfl⟩
    unfold settle
    rw [hloop]
  · intro hex
    have hloop : settleLoop s (op.import_block.length + 1) [] [] op.import_block =
        .error .IsGenesis :=
      settleLoop_genesis s _ op.import_block [] [] hex (by omega)
    unfold settle
    rw [hloop]

/-- Witness for the amended claim C6: on the genesis-only backend,
the import `7/99` alone is rejected with `InvalidOperation`, and an Operation
with a parentless import is rejected with `IsGenesis`. -/
theorem claim_c6_witness :
    (settle (importOnlyOp 7 99) exG).1 = .error .InvalidOperation ∧
    (settle genesisImportOp exG).1 = .error .IsGenesis :=
  ⟨(claim_c6_amended_missing_parent exG (importOnlyOp 7 99)).1
      (by decide)
      ⟨⟨⟨7, some 99⟩, 0⟩, by decide, 99, by decide, by decide, by decide⟩,
   (claim_c6_amended_missing_parent exG genesisImportOp).2
      ⟨⟨⟨5, none⟩, 0⟩, by decide, by decide⟩⟩

/-- The unfolding equation of `settleLoop` for positive fuel. -/
theorem settleLoop_succ (s : Store) (n : Nat) (I : List (Nat × BlockData))
    (P : List (Nat × Nat)) (ops : List ImportOperation) :
    settleLoop s (n + 1) I P ops =
      (match settlePassOne s I P ops with
       | .error e => .error e
       | .ok (importing2, parent_ides2, next_verifying, progress) =>
         if next_verifying.length = 0 then .ok (importing2, parent_ides2)
         else if progress then settleLoop s n importing2 parent_ides2 next_verifying
         else .error .InvalidOperation) := rfl

/-- Claim C4 amended: `settle` does NOT reject an import whose identifier is
already present in the store — there is no duplicate check in the admission
loop, and `ChainSettlement::insert_block` overwrites.  The positive half is
stated for exactly the Operation consisting of that one duplicate import
(no head move, no auxiliaries): whenever the duplicate's parent resolves in
the store, settling it succeeds and the stored entry of that identifier is
silently overwritten with the freshly imported data: depth recomputed from
the parent, children reset (to `[id]` in the degenerate self-parent case,
since the child push lands on the new entry), and `is_canon` reset to
false.  The success half does not extend to arbitrary Operations holding a
duplicate: combined with a `set_head`, a duplicate that passes every
precheck can still panic inside `tree_route` over the parent cycle it
created, as `claim_c10_counterexample` exhibits on the `5 and 6` cycle. -/
theorem claim_c4_amended_duplicate_overwrites (s : Store) (b : Block) (st p pd : Nat)
    (hdup : contains s b.id = true)
    (hpar : b.parent_id = some p)
    (hpd : depth_at s p = some pd) :
    (settle ⟨[⟨b, st⟩], none, [], []⟩ s).1 = .ok () ∧
    alookup b.id (settle ⟨[⟨b, st⟩], none, [], []⟩ s).2.blocks_and_states =
      some ⟨b, st, pd + 1, if p = b.id then [b.id] else [], false⟩ := by
  obtain ⟨pbd, hlook, hpdepth⟩ :
      ∃ pbd, alookup p s.blocks_and_states = some pbd ∧ pbd.depth = pd := by
    unfold depth_at at hpd
    cases hx : alookup p s.blocks_and_states with
    | none => rw [hx] at hpd; cases hpd
    | some v =>
      rw [hx] at hpd
      exact ⟨v, rfl, Option.some.inj hpd⟩
  have hcont : contains s p = true := by simp [contains, hlook]
  have hpdl : parentDepthLookup s [] p = .ok (some pd) := by
    unfold parentDepthLookup
    simp [hcont, hpd]
  have hpass : settlePassOne s [] [] [⟨b, st⟩] =
      .ok ([(b.id, ⟨b, st, pd + 1, [], false⟩)], [(b.id, p)], [], true) := by
    unfold settlePassOne
    rw [hpar]
    dsimp only
    rw [hpdl]
    rfl
  have hloop : settleLoop s (1 + 1) [] [] [⟨b, st⟩] =
      .ok ([(b.id, ⟨b, st, pd + 1, [], false⟩)], [(b.id, p)]) := by
    rw [settleLoop_succ, hpass]
    rfl
  unfold settle
  dsimp only
  rw [show List.length [(⟨b, st⟩ : ImportOperation)] = 1 from rfl, hloop]
  dsimp only [headPrecheck, auxPrecheck, List.all_nil]
  rw [if_neg (by simp), if_neg (by simp)]
  have hs1 : doImports [(b.id, ⟨b, st, pd + 1, [], false⟩)] s =
      insert_block s b.id b st (pd + 1) [] false := rfl
  rw [hs1]
  by_cases hpb : p = b.id
  · have hlook1 : alookup p (insert_block s b.id b st (pd + 1) [] false).blocks_and_states =
        some ⟨b, st, pd + 1, [], false⟩ := by
      unfold insert_block
      dsimp only
      rw [alookup_ains, if_pos hpb.symm]
    cases hpc : push_child (insert_block s b.id b st (pd + 1) [] false) p b.id with
    | error e =>
      unfold push_child at hpc
      rw [hlook1] at hpc
      cases hpc
    | ok t =>
      have hpc2 := hpc
      unfold push_child at hpc2
      rw [hlook1] at hpc2
      dsimp only at hpc2
      have ht := Except.ok.inj hpc2
      unfold doPushes
      rw [hpc]
      dsimp only [doPushes, doReorg, doAuxInserts, doAuxRemoves, List.foldl]
      refine ⟨rfl, ?_⟩
      rw [← ht]
      dsimp only
      rw [alookup_ains, if_pos hpb]
      simp [hpb]
  · have hlook1 : alookup p (insert_block s b.id b st (pd + 1) [] false).blocks_and_states =
        some pbd := by
      unfold insert_block
      dsimp only
      rw [alookup_ains, if_neg (fun he => hpb he.symm)]
      exact hlook
    cases hpc : push_child (insert_block s b.id b st (pd + 1) [] false) p b.id with
    | error e =>
      unfold push_child at hpc
      rw [hlook1] at hpc
      cases hpc
    | ok t =>
      have hpc2 := hpc
      unfold push_child at hpc2
      rw [hlook1] at hpc2
      dsimp only at hpc2
      have ht := Except.ok.inj hpc2
      unfold doPushes
      rw [hpc]
      dsimp only [doPushes, doReorg, doAuxInserts, doAuxRemoves, List.foldl]
      refine ⟨rfl, ?_⟩
      rw [← ht]
      dsimp only
      rw [alookup_ains, if_neg hpb]
      unfold insert_block
      dsimp only
      rw [alookup_ains, if_pos rfl]
      simp [hpb]

/-- Witness for the amended claim C4: re-importing `2/1` into the
two-block chain succeeds and resets the entry of identifier 2. -/
theorem claim_c4_witness :
    (settle ⟨[⟨⟨2, some 1⟩, 0⟩], none, [], []⟩ exChain2).1 = .ok () ∧
    alookup 2 (settle ⟨[⟨⟨2, some 1⟩, 0⟩], none, [], []⟩ exChain2).2.blocks_and_states =
      some ⟨⟨2, some 1⟩, 0, 0 + 1, [], false⟩ :=
  claim_c4_amended_duplicate_overwrites exChain2 ⟨2, some 1⟩ 0 1 0
    (by decide) (by decide) (by decide)

/-! ### Projection lemmas: which store fields each mutation step can touch -/

theorem push_child_proj {s t : Store} {a c : Nat} (h : push_child s a c = .ok t) :
    (∀ x, depth_at t x = depth_at s x) ∧ t.head = s.head := by
  unfold push_child at h
  cases hx : alookup a s.blocks_and_states with
  | none => rw [hx] at h; cases h
  | some bd =>
    rw [hx] at h
    dsimp only at h
    cases Except.ok.inj h
    constructor
    · intro x
      unfold depth_at
      dsimp only
      rw [alookup_ains]
      by_cases he : a = x
      · subst he
        rw [if_pos rfl, hx]
        rfl
      · rw [if_neg he]
    · rfl

theorem set_canon_proj {s t : Store} {a : Nat} {c : Bool} (h : set_canon s a c = .ok t) :
    (∀ x, depth_at t x = depth_at s x) ∧ t.head = s.head := by
  unfold set_canon at h
  cases hx : alookup a s.blocks_and_states with
  | none => rw [hx] at h; cases h
  | some bd =>
    rw [hx] at h
    dsimp only at h
    cases Except.ok.inj h
    constructor
    · intro x
      unfold depth_at
      dsimp only
      rw [alookup_ains]
      by_cases he : a = x
      · subst he
        rw [if_pos rfl, hx]
        rfl
      · rw [if_neg he]
    · rfl

theorem doPushes_proj : ∀ (l : List (Nat × Nat)) (s : Store) (res : Except Error Unit) (t : Store),
    doPushes l s = (res, t) → (∀ x, depth_at t x = depth_at s x) ∧ t.head = s.head := by
  intro l
  induction l with
  | nil =>
    intro s res t h
    obtain ⟨-, rfl⟩ : (Except.ok () : Except Error Unit) = res ∧ s = t := by
      simpa [doPushes, Prod.ext_iff] using h
    exact ⟨fun x => rfl, rfl⟩
  | cons pr rest ih =>
    intro s res t h
    obtain ⟨a, c⟩ := pr
    unfold doPushes at h
    cases hpc : push_child s c a with
    | error e =>
      rw [hpc] at h
      obtain ⟨-, rfl⟩ : (Except.error e : Except Error Unit) = res ∧ s = t := by
        simpa [Prod.ext_iff] using h
      exact ⟨fun x => rfl, rfl⟩
    | ok t2 =>
      rw [hpc] at h
      dsimp only at h
      obtain ⟨h1, h2⟩ := ih t2 res t h
      obtain ⟨h3, h4⟩ := push_child_proj hpc
      exact ⟨fun x => (h1 x).trans (h3 x), h2.trans h4⟩

theorem retractAll_proj : ∀ (l : List Nat) (s : Store) (res : Except Error Unit) (t : Store),
    retractAll l s = (res, t) → (∀ x, depth_at t x = depth_at s x) ∧ t.head = s.head := by
  intro l
  induction l with
  | nil =>
    intro s res t h
    obtain ⟨-, rfl⟩ : (Except.ok () : Except Error Unit) = res ∧ s = t := by
      simpa [retractAll, Prod.ext_iff] using h
    exact ⟨fun x => rfl, rfl⟩
  | cons a rest ih =>
    intro s res t h
    unfold retractAll at h
    cases hsc : set_canon s a false with
    | error e =>
      rw [hsc] at h
      obtain ⟨-, rfl⟩ : (Except.error e : Except Error Unit) = res ∧ s = t := by
        simpa [Prod.ext_iff] using h
      exact ⟨fun x => rfl, rfl⟩
    | ok t2 =>
      rw [hsc] at h
      dsimp only at h
      obtain ⟨h3, h4⟩ := set_canon_proj hsc
      cases hd : depth_at t2 a with
      | none =>
        rw [hd] at h
        obtain ⟨-, rfl⟩ : (Except.error Error.Panicked : Except Error Unit) = res ∧ t2 = t := by
          simpa [Prod.ext_iff] using h
        exact ⟨h3, h4⟩
      | some d =>
        rw [hd] at h
        dsimp only at h
        obtain ⟨h1, h2⟩ := ih (remove_canon_depth_mapping t2 d) res t h
        exact ⟨fun x => ((h1 x).trans (h3 x)), h2.trans h4⟩

theorem enactAll_proj : ∀ (l : List Nat) (s : Store) (res : Except Error Unit) (t : Store),
    enactAll l s = (res, t) → (∀ x, depth_at t x = depth_at s x) ∧ t.head = s.head := by
  intro l
  induction l with
  | nil =>
    intro s res t h
    obtain ⟨-, rfl⟩ : (Except.ok () : Except Error Unit) = res ∧ s = t := by
      simpa [enactAll, Prod.ext_iff] using h
    exact ⟨fun x => rfl, rfl⟩
  | cons a rest ih =>
    intro s res t h
    unfold enactAll at h
    cases hsc : set_canon s a true with
    | error e =>
      rw [hsc] at h
      obtain ⟨-, rfl⟩ : (Except.error e : Except Error Unit) = res ∧ s = t := by
        simpa [Prod.ext_iff] using h
      exact ⟨fun x => rfl, rfl⟩
    | ok t2 =>
      rw [hsc] at h
      dsimp only at h
      obtain ⟨h3, h4⟩ := set_canon_proj hsc
      cases hd : depth_at t2 a with
      | none =>
        rw [hd] at h
        obtain ⟨-, rfl⟩ : (Except.error Error.Panicked : Except Error Unit) = res ∧ t2 = t := by
          simpa [Prod.ext_iff] using h
        exact ⟨h3, h4⟩
      | some d =>
        rw [hd] at h
        dsimp only at h
        obtain ⟨h1, h2⟩ := ih (insert_canon_depth_mapping t2 d a) res t h
        exact ⟨fun x => ((h1 x).trans (h3 x)), h2.trans h4⟩

theorem doReorg_ok_head {nh : Nat} {s t : Store}
    (h : doReorg (some nh) s = (.ok (), t)) :
    t.head = nh ∧ (∀ x, depth_at t x = depth_at s x) := by
  unfold doReorg at h
  dsimp only at h
  cases htr : tree_route s s.head nh with
  | error e => rw [htr] at h; cases (Prod.ext_iff.mp h).1
  | ok route =>
    rw [htr] at h
    dsimp only at h
    cases hra : retractAll route.retracted s with
    | mk res1 t1 =>
      rw [hra] at h
      cases res1 with
      | error e => cases (Prod.ext_iff.mp h).1
      | ok u1 =>
        dsimp only at h
        cases hea : enactAll route.enacted t1 with
        | mk res2 t2 =>
          rw [hea] at h
          cases res2 with
          | error e => cases (Prod.ext_iff.mp h).1
          | ok u2 =>
            dsimp only at h
            obtain ⟨-, rfl⟩ := Prod.ext_iff.mp h
            obtain ⟨hr1, -⟩ := retractAll_proj route.retracted s (.ok ()) t1 hra
            obtain ⟨he1, -⟩ := enactAll_proj route.enacted t1 (.ok ()) t2 hea
            exact ⟨rfl, fun x => (he1 x).trans (hr1 x)⟩

theorem doAuxRemoves_proj (l : List Nat) (s : Store) :
    (doAuxRemoves l s).blocks_and_states = s.blocks_and_states ∧
    (doAuxRemoves l s).head = s.head := by
  induction l generalizing s with
  | nil => exact ⟨rfl, rfl⟩
  | cons a rest ih => exact (ih (remove_auxiliary s a))

theorem doAuxInserts_proj (l : List Auxiliary) (s : Store) :
    (doAuxInserts l s).blocks_and_states = s.blocks_and_states ∧
    (doAuxInserts l s).head = s.head := by
  induction l generalizing s with
  | nil => exact ⟨rfl, rfl⟩
  | cons a rest ih => exact (ih (insert_auxiliary s a.key a))

/-- Claim C7 amended: for an accepted block whose identifier is NOT already
in the backend (the amendment — a duplicate identifier overwrite can lower
the head's stored depth), the longest-depth importer calls `set_head` (and
so moves the head to the new block) exactly when the new block's depth
`parent_depth + 1` strictly exceeds the current `depth(head)`, and
`depth(head)` afterwards is the maximum of the old value and the new depth:
it never decreases, and an import of equal depth leaves the head
unchanged. -/
theorem claim_c7_amended_longest_depth (s : Store) (b : Block) (p cur npd : Nat)
    (hfresh : contains s b.id = false)
    (hhead : depth_at s s.head = some cur)
    (hpar : b.parent_id = some p)
    (hnpd : depth_at s p = some npd)
    (hok : (import_block b s).1 = .ok ()) :
    (import_block b s).2.head = (if cur < npd + 1 then b.id else s.head) ∧
    depth_at (import_block b s).2 (import_block b s).2.head = some (max cur (npd + 1)) := by
  have hfreshN : alookup b.id s.blocks_and_states = none := by
    cases hx : alookup b.id s.blocks_and_states with
    | none => rfl
    | some v =>
      rw [contains, hx] at hfresh
      cases hfresh
  obtain ⟨pbd, hlook, hpdepth⟩ :
      ∃ pbd, alookup p s.blocks_and_states = some pbd ∧ pbd.depth = npd := by
    unfold depth_at at hnpd
    cases hx : alookup p s.blocks_and_states with
    | none => rw [hx] at hnpd; cases hnpd
    | some v =>
      rw [hx] at hnpd
      exact ⟨v, rfl, Option.some.inj hnpd⟩
  have hpb : ¬ p = b.id := by
    intro he
    rw [he, hfreshN] at hlook
    cases hlook
  have hheadb : ¬ s.head = b.id := by
    intro he
    rw [depth_at, he, hfreshN] at hhead
    cases hhead
  have hstate : state_at s p = some pbd.state := by
    rw [state_at, hlook]
    rfl
  have hcont : contains s p = true := by simp [contains, hlook]
  have hpdl : parentDepthLookup s [] p = .ok (some npd) := by
    unfold parentDepthLookup
    simp [hcont, hnpd]
  have hpass : settlePassOne s [] [] [⟨b, pbd.state⟩] =
      .ok ([(b.id, ⟨b, pbd.state, npd + 1, [], false⟩)], [(b.id, p)], [], true) := by
    unfold settlePassOne
    rw [hpar]
    dsimp only
    rw [hpdl]
    rfl
  have hloop : settleLoop s (1 + 1) [] [] [⟨b, pbd.state⟩] =
      .ok ([(b.id, ⟨b, pbd.state, npd + 1, [], false⟩)], [(b.id, p)]) := by
    rw [settleLoop_succ, hpass]
    rfl
  have hs1lookB : alookup b.id (insert_block s b.id b pbd.state (npd + 1) [] false).blocks_and_states =
      some ⟨b, pbd.state, npd + 1, [], false⟩ := by
    unfold insert_block
    dsimp only
    rw [alookup_ains, if_pos rfl]
  have hs1lookH : ∀ x, ¬ x = b.id →
      alookup x (insert_block s b.id b pbd.state (npd + 1) [] false).blocks_and_states =
      alookup x s.blocks_and_states := by
    intro x hx
    unfold insert_block
    dsimp only
    rw [alookup_ains, if_neg (fun he => hx he.symm)]
  unfold import_block at hok ⊢
  rw [hhead] at hok ⊢
  dsimp only at hok ⊢
  rw [hpar] at hok ⊢
  dsimp only at hok ⊢
  rw [hnpd] at hok ⊢
  dsimp only at hok ⊢
  rw [hstate] at hok ⊢
  dsimp only at hok ⊢
  unfold settle at hok ⊢
  dsimp only at hok ⊢
  rw [show List.length [(⟨b, pbd.state⟩ : ImportOperation)] = 1 from rfl, hloop] at hok ⊢
  dsimp only at hok ⊢
  by_cases hlt : cur < npd + 1
  · rw [if_pos hlt] at hok ⊢
    have hhp : headPrecheck s [(b.id, ⟨b, pbd.state, npd + 1, [], false⟩)] (some b.id) = true := by
      simp [headPrecheck, alookup]
    rw [hhp] at hok ⊢
    dsimp only [auxPrecheck, List.all_nil] at hok ⊢
    rw [if_neg (by simp), if_neg (by simp)] at hok ⊢
    cases hdp : doPushes [(b.id, p)] (doImports [(b.id, ⟨b, pbd.state, npd + 1, [], false⟩)] s) with
    | mk res1 t1 =>
      rw [hdp] at hok
      cases res1 with
      | error e => cases hok
      | ok u1 =>
        dsimp only at hok ⊢
        cases hre : doReorg (some b.id) t1 with
        | mk res2 t2 =>
          rw [hre] at hok
          cases res2 with
          | error e => cases hok
          | ok u2 =>
            dsimp only
            obtain ⟨hhd, hdepths⟩ := doReorg_ok_head hre
            obtain ⟨hbs, hhd2⟩ := doAuxRemoves_proj [] t2
            have hfin1 : (doAuxInserts [] (doAuxRemoves [] t2)).head = t2.head := rfl
            have hfin2 : ∀ x, depth_at (doAuxInserts [] (doAuxRemoves [] t2)) x = depth_at t2 x :=
              fun x => rfl
            rw [hfin1, hfin2, hhd]
            obtain ⟨hdp1, -⟩ := doPushes_proj [(b.id, p)] _ (.ok u1) t1 hdp
            constructor
            · rw [if_pos hlt]
            · rw [hdepths b.id, hdp1 b.id]
              have : depth_at (insert_block s b.id b pbd.state (npd + 1) [] false) b.id =
                  some (npd + 1) := by
                rw [depth_at, hs1lookB]
                rfl
              rw [show doImports [(b.id, ⟨b, pbd.state, npd + 1, [], false⟩)] s =
                  insert_block s b.id b pbd.state (npd + 1) [] false from rfl]
              rw [this]
              rw [Nat.max_eq_right (Nat.le_of_lt hlt)]
  · rw [if_neg hlt] at hok ⊢
    have hhp : headPrecheck s [(b.id, ⟨b, pbd.state, npd + 1, [], false⟩)] none = true := rfl
    rw [hhp] at hok ⊢
    dsimp only [auxPrecheck, List.all_nil] at hok ⊢
    rw [if_neg (by simp), if_neg (by simp)] at hok ⊢
    cases hdp : doPushes [(b.id, p)] (doImports [(b.id, ⟨b, pbd.state, npd + 1, [], false⟩)] s) with
    | mk res1 t1 =>
      rw [hdp] at hok
      cases res1 with
      | error e => cases hok
      | ok u1 =>
        dsimp only
        rw [show doReorg none t1 = (.ok (), t1) from rfl]
        dsimp only
        obtain ⟨hdp1, hdph⟩ := doPushes_proj [(b.id, p)] _ (.ok u1) t1 hdp
        have hs1h : (doImports [(b.id, ⟨b, pbd.state, npd + 1, [], false⟩)] s).head = s.head := rfl
        have hred : doAuxInserts [] (doAuxRemoves [] t1) = t1 := rfl
        rw [hred]
        have hdps : depth_at (insert_block s b.id b pbd.state (npd + 1) [] false) s.head =
            depth_at s s.head := by
          unfold depth_at
          rw [hs1lookH s.head hheadb]
        constructor
        · rw [if_neg hlt]
          exact hdph.trans hs1h
        · rw [hdph.trans hs1h]
          rw [hdp1 s.head]
          rw [show doImports [(b.id, ⟨b, pbd.state, npd + 1, [], false⟩)] s =
              insert_block s b.id b pbd.state (npd + 1) [] false from rfl]
          rw [hdps, hhead]
          rw [Nat.max_eq_left (Nat.le_of_not_lt hlt)]

/-- Witness for the amended claim C7: importing the fresh block `5/2` into
the canonical chain built by scenario S1 (head 4 at depth 3) succeeds,
leaves the head at 4 (depth 1 + 1 does not exceed 3), and keeps
depth(head) = 3. -/
theorem claim_c7_witness :
    (import_block ⟨5, some 2⟩ (settle exOpLinear exG).2).2.head =
      (if 3 < 1 + 1 then 5 else (settle exOpLinear exG).2.head) ∧
    depth_at (import_block ⟨5, some 2⟩ (settle exOpLinear exG).2).2
      (import_block ⟨5, some 2⟩ (settle exOpLinear exG).2).2.head = some (max 3 (1 + 1)) :=
  claim_c7_amended_longest_depth (settle exOpLinear exG).2 ⟨5, some 2⟩ 2 3 1
    (by decide) (by decide) (by decide) (by decide) (by decide)

/-! ### The store invariant

The canonical-chain invariant that a freshly created genesis-only backend
satisfies and that every *well-formed* settle call preserves (imported
identifiers pairwise distinct and not already present — the counterexamples
to claims C2/C4/C7/C10 show that duplicate identifiers break it). -/

/-- The `k`-th ancestor of `id` along stored parent links. -/
def anc (s : Store) : Nat → Nat → Option Nat
  | id, 0 => some id
  | id, k + 1 =>
    match alookup id s.blocks_and_states with
    | none => none
    | some bd =>
      match bd.block.parent_id with
      | none => none
      | some p => anc s p k

/-- The `k`-th ancestor with a (never reached under the invariant) default. -/
def ancD (s : Store) (id k : Nat) : Nat :=
  (anc s id k).getD 0

/-- Per-entry structural invariant: the key is the stored block's own
identifier; a parentless block is the genesis at depth 0; a block with a
parent has its parent stored with depth one less. -/
def blockOk (s : Store) (pr : Nat × BlockData) : Bool :=
  (pr.2.block.id == pr.1) &&
  (match pr.2.block.parent_id with
   | none => (pr.1 == s.genesis) && (pr.2.depth == 0)
   | some p =>
     match alookup p s.blocks_and_states with
     | none => false
     | some pbd => pr.2.depth == pbd.depth + 1)

/-- The genesis identifier is stored, parentless, at depth 0. -/
def genesisOk (s : Store) : Bool :=
  match alookup s.genesis s.blocks_and_states with
  | none => false
  | some bd => (bd.block.parent_id == none) && (bd.depth == 0)

/-- Canonical-chain invariant: the head is stored at some depth `H`;
`canon_depth_mappings` maps each `d ≤ H` to the `(H - d)`-th ancestor of
the head and holds no key beyond `H`; a stored block's `is_canon` flag is
set exactly when the block is an ancestor-or-self of the head within `H`
steps. -/
def canonOk (s : Store) : Bool :=
  match alookup s.head s.blocks_and_states with
  | none => false
  | some hbd =>
    ((List.range (hbd.depth + 1)).all (fun d =>
      alookup d s.canon_depth_mappings == anc s s.head (hbd.depth - d))) &&
    (s.canon_depth_mappings.all (fun pr => pr.1 < hbd.depth + 1)) &&
    (s.blocks_and_states.all (fun pr =>
      pr.2.is_canon == (List.range (hbd.depth + 1)).any (fun k => anc s s.head k == some pr.1)))

/-- The full store invariant (decidable, so concrete stores discharge it by
`decide`). -/
def Inv (s : Store) : Prop :=
  s.blocks_and_states.all (blockOk s) = true ∧ genesisOk s = true ∧ canonOk s = true

instance (s : Store) : Decidable (Inv s) := by
  unfold Inv
  infer_instance

/-- An Operation is well-formed for a store when its imported identifiers
are pairwise distinct and none is already present (the discipline under
which the canonical-chain claims hold; the spec itself calls
duplicate imports malformed). -/
def GoodOp (s : Store) (op : Operation) : Prop :=
  (op.import_block.map (fun i => i.block.id)).Nodup ∧
  ∀ i ∈ op.import_block, contains s i.block.id = false

/-- Stores reachable from a freshly created genesis-only backend by
successful, well-formed settle calls. -/
inductive ReachableG : Store → Prop where
  | genesis (b : Block) (st : Nat) (hb : b.parent_id = none) :
      ReachableG (new_with_genesis b st)
  | step (s : Store) (op : Operation) (hs : ReachableG s) (hop : GoodOp s op)
      (hok : (settle op s).1 = .ok ()) : ReachableG (settle op s).2

/-! ### Accessors of the invariant -/

theorem inv_block {s : Store} {id : Nat} {bd : BlockData} (hInv : Inv s)
    (h : alookup id s.blocks_and_states = some bd) :
    bd.block.id = id ∧
    (bd.block.parent_id = none → id = s.genesis ∧ bd.depth = 0) ∧
    (∀ p, bd.block.parent_id = some p →
      ∃ pbd, alookup p s.blocks_and_states = some pbd ∧ bd.depth = pbd.depth + 1) := by
  have hmem := alookup_mem h
  have hb := List.all_eq_true.mp hInv.1 (id, bd) hmem
  unfold blockOk at hb
  rw [Bool.and_eq_true] at hb
  obtain ⟨hb1, hb2⟩ := hb
  refine ⟨by simpa using hb1, ?_, ?_⟩
  · intro hpar
    rw [hpar] at hb2
    simp at hb2
    exact ⟨hb2.1, hb2.2⟩
  · intro p hpar
    rw [hpar] at hb2
    dsimp only at hb2
    cases hx : alookup p s.blocks_and_states with
    | none => rw [hx] at hb2; cases hb2
    | some pbd =>
      rw [hx] at hb2
      exact ⟨pbd, rfl, by simpa using hb2⟩

theorem inv_genesis {s : Store} (hInv : Inv s) :
    ∃ gbd, alookup s.genesis s.blocks_and_states = some gbd ∧
      gbd.block.parent_id = none ∧ gbd.depth = 0 := by
  have hg := hInv.2.1
  unfold genesisOk at hg
  cases hx : alookup s.genesis s.blocks_and_states with
  | none => rw [hx] at hg; cases hg
  | some bd =>
    rw [hx] at hg
    simp at hg
    exact ⟨bd, rfl, hg.1, hg.2⟩

theorem inv_head {s : Store} (hInv : Inv s) :
    ∃ hbd, alookup s.head s.blocks_and_states = some hbd := by
  have hc := hInv.2.2
  unfold canonOk at hc
  cases hx : alookup s.head s.blocks_and_states with
  | none => rw [hx] at hc; cases hc
  | some bd => exact ⟨bd, rfl⟩

theorem inv_canon {s : Store} {hbd : BlockData} (hInv : Inv s)
    (hh : alookup s.head s.blocks_and_states = some hbd) :
    (∀ d, d < hbd.depth + 1 →
      alookup d s.canon_depth_mappings = anc s s.head (hbd.depth - d)) ∧
    (∀ d v, alookup d s.canon_depth_mappings = some v → d < hbd.depth + 1) ∧
    (∀ id bd, alookup id s.blocks_and_states = some bd →
      (bd.is_canon = true ↔ ∃ k, k < hbd.depth + 1 ∧ anc s s.head k = some id)) := by
  have hc := hInv.2.2
  unfold canonOk at hc
  rw [hh] at hc
  rw [Bool.and_eq_true, Bool.and_eq_true] at hc
  obtain ⟨⟨hc1, hc2⟩, hc3⟩ := hc
  refine ⟨?_, ?_, ?_⟩
  · intro d hd
    have := List.all_eq_true.mp hc1 d (List.mem_range.mpr hd)
    simpa using this
  · intro d v hdv
    have hmem := alookup_mem hdv
    have := List.all_eq_true.mp hc2 (d, v) hmem
    simpa using this
  · intro id bd hid
    have := List.all_eq_true.mp hc3 (id, bd) (alookup_mem hid)
    rw [beq_iff_eq] at this
    constructor
    · intro hcan
      rw [hcan] at this
      have h2 := (List.any_eq_true.mp this.symm)
      obtain ⟨k, hk, he⟩ := h2
      exact ⟨k, List.mem_range.mp hk, by simpa using he⟩
    · intro ⟨k, hk, he⟩
      rw [this]
      apply List.any_eq_true.mpr
      exact ⟨k, List.mem_range.mpr hk, by simpa using he⟩

/-! ### Ancestor lemmas -/

theorem anc_depth {s : Store} (hInv : Inv s) :
    ∀ (k : Nat) (id : Nat) (bd : BlockData),
      alookup id s.blocks_and_states = some bd → k ≤ bd.depth →
      ∃ id2 bd2, anc s id k = some id2 ∧ alookup id2 s.blocks_and_states = some bd2 ∧
        bd2.depth = bd.depth - k := by
  intro k
  induction k with
  | zero =>
    intro id bd h _
    exact ⟨id, bd, rfl, h, by omega⟩
  | succ m ih =>
    intro id bd h hk
    obtain ⟨-, hnop, hsome⟩ := inv_block hInv h
    cases hpar : bd.block.parent_id with
    | none =>
      obtain ⟨-, hd0⟩ := hnop hpar
      omega
    | some p =>
      obtain ⟨pbd, hp, hdp⟩ := hsome p hpar
      obtain ⟨id2, bd2, h1, h2, h3⟩ := ih p pbd hp (by omega)
      refine ⟨id2, bd2, ?_, h2, by omega⟩
      unfold anc
      rw [h]
      dsimp only
      rw [hpar]
      exact h1

theorem anc_succ (s : Store) (id k : Nat) :
    anc s id (k + 1) =
      (match alookup id s.blocks_and_states with
       | none => none
       | some bd =>
         match bd.block.parent_id with
         | none => none
         | some p => anc s p k) := rfl

theorem anc_add (s : Store) :
    ∀ (a b : Nat) (id : Nat),
      anc s id (a + b) = (anc s id a).bind (fun x => anc s x b) := by
  intro a
  induction a with
  | zero =>
    intro b id
    simp [anc]
  | succ m ih =>
    intro b id
    rw [show m + 1 + b = (m + b) + 1 from by omega]
    rw [anc_succ, anc_succ]
    cases hx : alookup id s.blocks_and_states with
    | none => simp
    | some bd =>
      dsimp only
      cases hpar : bd.block.parent_id with
      | none => simp
      | some p =>
        dsimp only
        exact ih b p

theorem anc_add_some {s : Store} {id c : Nat} {a : Nat}
    (h : anc s id a = some c) (b : Nat) :
    anc s id (a + b) = anc s c b := by
  rw [anc_add, h]
  rfl

/-! ### Specifications of the tree-route walks under the invariant -/

theorem range_map_anc_step (s : Store) {id p : Nat} {bd : BlockData}
    (h : alookup id s.blocks_and_states = some bd) (hpar : bd.block.parent_id = some p)
    (k : Nat) :
    (List.range (k + 1)).map (ancD s id) = id :: (List.range k).map (ancD s p) := by
  rw [List.range_succ_eq_map]
  rw [List.map_cons]
  rw [List.map_map]
  congr 1
  apply List.map_congr_left
  intro i _
  show ancD s id (i + 1) = ancD s p i
  unfold ancD
  rw [anc_succ, h]
  dsimp only
  rw [hpar]

theorem walkToUp_spec {s : Store} (hInv : Inv s) :
    ∀ (n : Nat) (blk : Block) (bd : BlockData) (d tgt : Nat) (br : List Nat),
      alookup blk.id s.blocks_and_states = some bd → bd.block = blk → bd.depth = d →
      d - min d tgt < n →
      ∃ blk2 bd2,
        walkToUp s n blk d tgt br =
          .ok (blk2, min d tgt, br ++ (List.range (d - min d tgt)).map (ancD s blk.id)) ∧
        anc s blk.id (d - min d tgt) = some blk2.id ∧
        alookup blk2.id s.blocks_and_states = some bd2 ∧ bd2.block = blk2 ∧
        bd2.depth = min d tgt := by
  intro n
  induction n with
  | zero =>
    intro blk bd d tgt br _ _ _ hfuel
    omega
  | succ m ih =>
    intro blk bd d tgt br hlk hblk hd hfuel
    by_cases hg : tgt < d
    · have hmin : min d tgt = tgt := by omega
      cases hpar : blk.parent_id with
      | none =>
        obtain ⟨-, hnop, -⟩ := inv_block hInv hlk
        obtain ⟨-, hd0⟩ := hnop (by rw [hblk]; exact hpar)
        omega
      | some p =>
        obtain ⟨-, -, hsome⟩ := inv_block hInv hlk
        obtain ⟨pbd, hp, hdp⟩ := hsome p (by rw [hblk]; exact hpar)
        have hpid : pbd.block.id = p := (inv_block hInv hp).1
        have hba : block_at s p = some pbd.block := by
          unfold block_at
          rw [hp]
          rfl
        have hda : depth_at s p = some pbd.depth := by
          unfold depth_at
          rw [hp]
          rfl
        have hminp : min pbd.depth tgt = tgt := by omega
        obtain ⟨blk2, bd2, hrec, hanc, hl2, hb2, hdep2⟩ :=
          ih pbd.block pbd pbd.depth tgt (br ++ [blk.id])
            (by rw [hpid]; exact hp) rfl rfl (by omega)
        refine ⟨blk2, bd2, ?_, ?_, hl2, hb2, by omega⟩
        · unfold walkToUp
          rw [if_pos hg, hpar]
          dsimp only
          rw [hba]
          dsimp only
          rw [hda]
          dsimp only
          rw [hrec]
          rw [hmin, hminp]
          have hdd : d - tgt = (pbd.depth - tgt) + 1 := by omega
          rw [hdd, range_map_anc_step s hlk (by rw [hblk]; exact hpar), hpid]
          simp
        · have hdd : d - min d tgt = (pbd.depth - tgt) + 1 := by omega
          rw [hdd, anc_succ, hlk]
          dsimp only
          rw [hblk, hpar]
          rw [hpid] at hanc
          rw [hminp] at hanc
          exact hanc
    · have hmin : min d tgt = d := by omega
      refine ⟨blk, bd, ?_, ?_, hlk, hblk, by omega⟩
      · unfold walkToUp
        rw [if_neg hg, hmin]
        simp
      · rw [hmin]
        simp [anc]

theorem walkFromUp_spec {s : Store} (hInv : Inv s) :
    ∀ (n : Nat) (blk : Block) (bd : BlockData) (d tgt : Nat) (br : List Nat),
      alookup blk.id s.blocks_and_states = some bd → bd.block = blk → bd.depth = d →
      d - min d tgt < n →
      ∃ blk2 bd2,
        walkFromUp s n blk d tgt br =
          .ok (blk2, min d tgt, br ++ (List.range (d - min d tgt)).map (ancD s blk.id)) ∧
        anc s blk.id (d - min d tgt) = some blk2.id ∧
        alookup blk2.id s.blocks_and_states = some bd2 ∧ bd2.block = blk2 ∧
        bd2.depth = min d tgt := by
  intro n
  induction n with
  | zero =>
    intro blk bd d tgt br _ _ _ hfuel
    omega
  | succ m ih =>
    intro blk bd d tgt br hlk hblk hd hfuel
    by_cases hg : tgt < d
    · have hmin : min d tgt = tgt := by omega
      cases hpar : blk.parent_id with
      | none =>
        obtain ⟨-, hnop, -⟩ := inv_block hInv hlk
        obtain ⟨-, hd0⟩ := hnop (by rw [hblk]; exact hpar)
        omega
      | some p =>
        obtain ⟨-, -, hsome⟩ := inv_block hInv hlk
        obtain ⟨pbd, hp, hdp⟩ := hsome p (by rw [hblk]; exact hpar)
        have hpid : pbd.block.id = p := (inv_block hInv hp).1
        have hba : block_at s p = some pbd.block := by
          unfold block_at
          rw [hp]
          rfl
        have hda : depth_at s p = some pbd.depth := by
          unfold depth_at
          rw [hp]
          rfl
        have hminp : min pbd.depth tgt = tgt := by omega
        obtain ⟨blk2, bd2, hrec, hanc, hl2, hb2, hdep2⟩ :=
          ih pbd.block pbd pbd.depth tgt (br ++ [blk.id])
            (by rw [hpid]; exact hp) rfl rfl (by omega)
        refine ⟨blk2, bd2, ?_, ?_, hl2, hb2, by omega⟩
        · unfold walkFromUp
          rw [if_pos hg, hpar]
          dsimp only
          rw [hba]
          dsimp only
          rw [hda]
          dsimp only
          rw [hrec]
          rw [hmin, hminp]
          have hdd : d - tgt = (pbd.depth - tgt) + 1 := by omega
          rw [hdd, range_map_anc_step s hlk (by rw [hblk]; exact hpar), hpid]
          simp
        · have hdd : d - min d tgt = (pbd.depth - tgt) + 1 := by omega
          rw [hdd, anc_succ, hlk]
          dsimp only
          rw [hblk, hpar]
          rw [hpid] at hanc
          rw [hminp] at hanc
          exact hanc
    · have hmin : min d tgt = d := by omega
      refine ⟨blk, bd, ?_, ?_, hlk, hblk, by omega⟩
      · unfold walkFromUp
        rw [if_neg hg, hmin]
        simp
      · rw [hmin]
        simp [anc]

theorem walkLock_spec {s : Store} (hInv : Inv s) :
    ∀ (dep : Nat) (n : Nat) (f t : Block) (fbd tbd : BlockData) (fb tb : List Nat),
      alookup f.id s.blocks_and_states = some fbd → fbd.block = f → fbd.depth = dep →
      alookup t.id s.blocks_and_states = some tbd → tbd.block = t → tbd.depth = dep →
      dep < n →
      ∃ f2 t2 m f2bd,
        walkLock s n f t fb tb =
          .ok (f2, t2, fb ++ (List.range m).map (ancD s f.id), tb ++ (List.range m).map (ancD s t.id)) ∧
        f2.id = t2.id ∧ m ≤ dep ∧
        anc s f.id m = some f2.id ∧ anc s t.id m = some t2.id ∧
        alookup f2.id s.blocks_and_states = some f2bd ∧ f2bd.depth = dep - m := by
  intro dep
  induction dep with
  | zero =>
    intro n f t fbd tbd fb tb hf hfb hfd ht htb htd hn
    cases n with
    | zero => omega
    | succ n2 =>
      by_cases heq : f.id = t.id
      · refine ⟨f, t, 0, fbd, ?_, heq, by omega, rfl, rfl, hf, by omega⟩
        unfold walkLock
        rw [if_neg (by simpa using heq)]
        simp [anc]
      · exfalso
        obtain ⟨-, hfnop, hfsome⟩ := inv_block hInv hf
        obtain ⟨-, htnop, htsome⟩ := inv_block hInv ht
        cases hfp : f.parent_id with
        | some p =>
          obtain ⟨pbd, -, hdp⟩ := hfsome p (by rw [hfb]; exact hfp)
          omega
        | none =>
          cases htp : t.parent_id with
          | some q =>
            obtain ⟨qbd, -, hdq⟩ := htsome q (by rw [htb]; exact htp)
            omega
          | none =>
            obtain ⟨hfg, -⟩ := hfnop (by rw [hfb]; exact hfp)
            obtain ⟨htg, -⟩ := htnop (by rw [htb]; exact htp)
            exact heq (hfg.trans htg.symm)
  | succ dd ih =>
    intro n f t fbd tbd fb tb hf hfb hfd ht htb htd hn
    cases n with
    | zero => omega
    | succ n2 =>
      by_cases heq : f.id = t.id
      · refine ⟨f, t, 0, fbd, ?_, heq, by omega, rfl, rfl, hf, by omega⟩
        unfold walkLock
        rw [if_neg (by simpa using heq)]
        simp [anc]
      · obtain ⟨-, hfnop, hfsome⟩ := inv_block hInv hf
        obtain ⟨-, htnop, htsome⟩ := inv_block hInv ht
        cases htp : t.parent_id with
        | none =>
          obtain ⟨-, htd0⟩ := htnop (by rw [htb]; exact htp)
          omega
        | some tq =>
          cases hfp : f.parent_id with
          | none =>
            obtain ⟨-, hfd0⟩ := hfnop (by rw [hfb]; exact hfp)
            omega
          | some fq =>
            obtain ⟨fqbd, hfq, hdfq⟩ := hfsome fq (by rw [hfb]; exact hfp)
            obtain ⟨tqbd, htq, hdtq⟩ := htsome tq (by rw [htb]; exact htp)
            have hfqid : fqbd.block.id = fq := (inv_block hInv hfq).1
            have htqid : tqbd.block.id = tq := (inv_block hInv htq).1
            have hbaf : block_at s fq = some fqbd.block := by
              unfold block_at
              rw [hfq]
              rfl
            have hbat : block_at s tq = some tqbd.block := by
              unfold block_at
              rw [htq]
              rfl
            obtain ⟨f2, t2, m, f2bd, hrec, hid2, hm, hancf, hanct, hl2, hd2⟩ :=
              ih n2 fqbd.block tqbd.block fqbd tqbd (fb ++ [f.id]) (tb ++ [t.id])
                (by rw [hfqid]; exact hfq) rfl (by omega)
                (by rw [htqid]; exact htq) rfl (by omega) (by omega)
            refine ⟨f2, t2, m + 1, f2bd, ?_, hid2, by omega, ?_, ?_, hl2, by omega⟩
            · unfold walkLock
              rw [if_pos (by simpa using heq), htp]
              dsimp only
              rw [hfp]
              dsimp only
              rw [hbat]
              dsimp only
              rw [hbaf]
              dsimp only
              rw [hrec]
              rw [range_map_anc_step s hf (by rw [hfb]; exact hfp), hfqid]
              rw [range_map_anc_step s ht (by rw [htb]; exact htp), htqid]
              simp
            · rw [anc_succ, hf]
              dsimp only
              rw [hfb, hfp]
              rw [hfqid] at hancf
              exact hancf
            · rw [anc_succ, ht]
              dsimp only
              rw [htb, htp]
              rw [htqid] at hanct
              exact hanct

theorem range_map_anc_add (s : Store) {id c2 : Nat} {x : Nat}
    (h : anc s id x = some c2) (y : Nat) :
    (List.range (x + y)).map (ancD s id) =
      (List.range x).map (ancD s id) ++ (List.range y).map (ancD s c2) := by
  rw [List.range_add, List.map_append, List.map_map]
  congr 1
  apply List.map_congr_left
  intro i _
  show ancD s id (x + i) = ancD s c2 i
  unfold ancD
  rw [anc_add_some h i]

/-- `tree_route` under the invariant: both walks succeed, and the route
decomposes as the first `ka` ancestors of `a` (the retracted side), the
common ancestor `c`, and the first `kb` ancestors of `b` in reverse (the
enacted side). -/
theorem tree_route_spec {s : Store} (hInv : Inv s) (a b : Nat) (abd bbd : BlockData)
    (ha : alookup a s.blocks_and_states = some abd)
    (hb : alookup b s.blocks_and_states = some bbd) :
    ∃ r ka kb c cbd,
      tree_route s a b = .ok r ∧
      r.retracted = (List.range ka).map (ancD s a) ∧
      r.enacted = ((List.range kb).map (ancD s b)).reverse ∧
      r.common_block = some c ∧
      r.pivot = ka ∧
      anc s a ka = some c ∧ anc s b kb = some c ∧
      ka ≤ abd.depth ∧ kb ≤ bbd.depth ∧
      alookup c s.blocks_and_states = some cbd ∧
      cbd.depth = abd.depth - ka ∧ cbd.depth = bbd.depth - kb := by
  have haid : abd.block.id = a := (inv_block hInv ha).1
  have hbid : bbd.block.id = b := (inv_block hInv hb).1
  have hbaa : block_at s a = some abd.block := by
    unfold block_at
    rw [ha]
    rfl
  have hbab : block_at s b = some bbd.block := by
    unfold block_at
    rw [hb]
    rfl
  have hdaa : depth_at s a = some abd.depth := by
    unfold depth_at
    rw [ha]
    rfl
  have hdab : depth_at s b = some bbd.depth := by
    unfold depth_at
    rw [hb]
    rfl
  obtain ⟨to2, to2bd, hto, hancb, hlto, hbto, hdto⟩ :=
    walkToUp_spec hInv (bbd.depth + 1) bbd.block bbd bbd.depth abd.depth []
      (by rw [hbid]; exact hb) rfl rfl (by omega)
  rw [hbid] at hto hancb
  rw [List.nil_append] at hto
  obtain ⟨fr2, fr2bd, hfr, hanca, hlfr, hbfr, hdfr⟩ :=
    walkFromUp_spec hInv (abd.depth + 1) abd.block abd abd.depth (min bbd.depth abd.depth) []
      (by rw [haid]; exact ha) rfl rfl (by omega)
  rw [haid] at hfr hanca
  rw [List.nil_append] at hfr
  have hminmin : min abd.depth (min bbd.depth abd.depth) = min bbd.depth abd.depth := by omega
  rw [hminmin] at hfr hanca hdfr
  obtain ⟨f2, t2, m, f2bd, hlock, hid2, hm, hancf, hanct, hlf2, hdf2⟩ :=
    walkLock_spec hInv (min bbd.depth abd.depth) (abd.depth + bbd.depth + 1)
      fr2 to2 fr2bd to2bd
      ((List.range (abd.depth - min bbd.depth abd.depth)).map (ancD s a))
      ((List.range (bbd.depth - min bbd.depth abd.depth)).map (ancD s b))
      hlfr hbfr hdfr hlto hbto hdto (by omega)
  have hancA : anc s a ((abd.depth - min bbd.depth abd.depth) + m) = some f2.id := by
    rw [anc_add_some hanca m]
    exact hancf
  have hancB : anc s b ((bbd.depth - min bbd.depth abd.depth) + m) = some t2.id := by
    rw [anc_add_some hancb m]
    exact hanct
  have hFB : (List.range (abd.depth - min bbd.depth abd.depth)).map (ancD s a) ++
      (List.range m).map (ancD s fr2.id) =
      (List.range ((abd.depth - min bbd.depth abd.depth) + m)).map (ancD s a) :=
    (range_map_anc_add s hanca m).symm
  have hTB : (List.range (bbd.depth - min bbd.depth abd.depth)).map (ancD s b) ++
      (List.range m).map (ancD s to2.id) =
      (List.range ((bbd.depth - min bbd.depth abd.depth) + m)).map (ancD s b) :=
    (range_map_anc_add s hancb m).symm
  rw [hFB, hTB] at hlock
  have hroute : tree_route s a b = .ok
      ⟨(List.range ((abd.depth - min bbd.depth abd.depth) + m)).map (ancD s a) ++
        [t2.id] ++ ((List.range ((bbd.depth - min bbd.depth abd.depth) + m)).map (ancD s b)).reverse,
       ((List.range ((abd.depth - min bbd.depth abd.depth) + m)).map (ancD s a)).length⟩ := by
    unfold tree_route
    rw [hbaa]
    dsimp only
    rw [hbab]
    dsimp only
    rw [hdaa]
    dsimp only
    rw [hdab]
    dsimp only
    rw [hto]
    dsimp only
    rw [hfr]
    dsimp only
    rw [hlock]
  refine ⟨_, (abd.depth - min bbd.depth abd.depth) + m,
    (bbd.depth - min bbd.depth abd.depth) + m, t2.id, f2bd,
    hroute, ?_, ?_, ?_, ?_, hid2 ▸ hancA, hancB, by omega, by omega,
    hid2 ▸ hlf2, by omega, by omega⟩
  · show (((List.range ((abd.depth - min bbd.depth abd.depth) + m)).map (ancD s a) ++
        [t2.id]) ++ ((List.range ((bbd.depth - min bbd.depth abd.depth) + m)).map (ancD s b)).reverse).take
        ((List.range ((abd.depth - min bbd.depth abd.depth) + m)).map (ancD s a)).length =
      (List.range ((abd.depth - min bbd.depth abd.depth) + m)).map (ancD s a)
    rw [List.append_assoc, List.take_left]
  · show (((List.range ((abd.depth - min bbd.depth abd.depth) + m)).map (ancD s a) ++
        [t2.id]) ++ ((List.range ((bbd.depth - min bbd.depth abd.depth) + m)).map (ancD s b)).reverse).drop
        (((List.range ((abd.depth - min bbd.depth abd.depth) + m)).map (ancD s a)).length + 1) =
      ((List.range ((bbd.depth - min bbd.depth abd.depth) + m)).map (ancD s b)).reverse
    rw [show ((List.range ((abd.depth - min bbd.depth abd.depth) + m)).map (ancD s a)).length + 1 =
        ((List.range ((abd.depth - min bbd.depth abd.depth) + m)).map (ancD s a) ++ [t2.id]).length
      from by simp]
    rw [List.drop_left]
  · show (((List.range ((abd.depth - min bbd.depth abd.depth) + m)).map (ancD s a) ++
        [t2.id]) ++ ((List.range ((bbd.depth - min bbd.depth abd.depth) + m)).map (ancD s b)).reverse).get?
        ((List.range ((abd.depth - min bbd.depth abd.depth) + m)).map (ancD s a)).length =
      some t2.id
    rw [List.append_assoc, List.get?_append_right (Nat.le_refl _)]
    simp
  · show (List.map (ancD s a) (List.range (abd.depth - min bbd.depth abd.depth + m))).length =
      abd.depth - min bbd.depth abd.depth + m
    simp

/-! ### Key-set and nodup infrastructure -/

theorem alookup_none_iff {α : Type} (k : Nat) (l : List (Nat × α)) :
    alookup k l = none ↔ k ∉ l.map Prod.fst := by
  induction l with
  | nil => simp [alookup]
  | cons p rest ih =>
    by_cases h : p.1 = k
    · simp [alookup, h]
    · have h2 : ¬ k = p.1 := fun he => h he.symm
      simp [alookup, h, h2, ih]

theorem alookup_of_mem_nodup {α : Type} {k : Nat} {v : α} {l : List (Nat × α)}
    (hnod : (l.map Prod.fst).Nodup) (hmem : (k, v) ∈ l) :
    alookup k l = some v := by
  induction l with
  | nil => cases hmem
  | cons p rest ih =>
    rw [List.map_cons, List.nodup_cons] at hnod
    cases List.mem_cons.mp hmem with
    | inl he =>
      subst he
      simp [alookup]
    | inr hm =>
      have hk : ¬ p.1 = k := by
        intro he
        exact hnod.1 (by rw [he]; exact List.mem_map.mpr ⟨(k, v), hm, rfl⟩)
      simp [alookup, hk]
      exact ih hnod.2 hm

theorem all_iff_alookup {α : Type} {l : List (Nat × α)} (hnod : (l.map Prod.fst).Nodup)
    (p : Nat × α → Bool) :
    l.all p = true ↔ ∀ k v, alookup k l = some v → p (k, v) = true := by
  constructor
  · intro h k v hkv
    exact List.all_eq_true.mp h (k, v) (alookup_mem hkv)
  · intro h
    apply List.all_eq_true.mpr
    intro pr hpr
    exact h pr.1 pr.2 (alookup_of_mem_nodup hnod hpr)

theorem ains_keys_mem {α : Type} (k : Nat) (v : α) :
    ∀ (l : List (Nat × α)) (x : Nat),
      x ∈ (ains k v l).map Prod.fst ↔ x = k ∨ x ∈ l.map Prod.fst := by
  intro l
  induction l with
  | nil => intro x; simp [ains]
  | cons p rest ih =>
    intro x
    by_cases he : p.1 = k
    · subst he
      simp [ains]
    · simp [ains, he, ih]
      tauto

theorem ains_keys_nodup {α : Type} (k : Nat) (v : α) :
    ∀ (l : List (Nat × α)), (l.map Prod.fst).Nodup → ((ains k v l).map Prod.fst).Nodup := by
  intro l
  induction l with
  | nil => intro _; simp [ains]
  | cons p rest ih =>
    intro h
    rw [List.map_cons, List.nodup_cons] at h
    by_cases he : p.1 = k
    · subst he
      rw [show ains p.1 v (p :: rest) = (p.1, v) :: rest from by simp [ains]]
      rw [List.map_cons, List.nodup_cons]
      exact h
    · rw [show ains k v (p :: rest) = p :: ains k v rest from by simp [ains, he]]
      rw [List.map_cons, List.nodup_cons]
      refine ⟨?_, ih h.2⟩
      intro hmem
      cases (ains_keys_mem k v rest p.1).mp hmem with
      | inl h1 => exact he h1
      | inr h2 => exact h.1 h2

theorem arem_keys_sublist {α : Type} (k : Nat) :
    ∀ (l : List (Nat × α)), ((arem k l).map Prod.fst).Sublist (l.map Prod.fst) := by
  intro l
  induction l with
  | nil => simp [arem]
  | cons p rest ih =>
    by_cases he : p.1 = k
    · rw [show arem k (p :: rest) = arem k rest from by simp [arem, he]]
      rw [List.map_cons]
      exact ih.trans (List.sublist_cons_self _ _)
    · rw [show arem k (p :: rest) = p :: arem k rest from by simp [arem, he]]
      rw [List.map_cons, List.map_cons]
      exact List.Sublist.cons₂ _ ih

theorem arem_keys_nodup {α : Type} (k : Nat) (l : List (Nat × α))
    (h : (l.map Prod.fst).Nodup) : ((arem k l).map Prod.fst).Nodup :=
  h.sublist (arem_keys_sublist k l)

/-- `anc` only reads the stored blocks, so two stores with pointwise equal
block lookups have the same ancestor function. -/
theorem anc_congr {s t : Store}
    (hb : ∀ id, (alookup id t.blocks_and_states).map (fun bd => bd.block) =
      (alookup id s.blocks_and_states).map (fun bd => bd.block)) :
    ∀ (k id : Nat), anc t id k = anc s id k := by
  intro k
  induction k with
  | zero => intro id; rfl
  | succ m ih =>
    intro id
    rw [anc_succ, anc_succ]
    have h := hb id
    cases hx : alookup id s.blocks_and_states with
    | none =>
      rw [hx] at h
      simp only [Option.map_none'] at h
      rw [Option.map_eq_none'] at h
      rw [h]
    | some bd =>
      rw [hx] at h
      cases hy : alookup id t.blocks_and_states with
      | none => rw [hy] at h; simp at h
      | some bd2 =>
        rw [hy] at h
        simp only [Option.map_some'] at h
        have hbe : bd2.block = bd.block := Option.some.inj h
        dsimp only
        rw [hbe]
        cases bd.block.parent_id with
        | none => rfl
        | some p => exact ih p

/-! ### The insert phase: lookups after `doImports` -/

theorem doImports_proj : ∀ (I : List (Nat × BlockData)) (s : Store),
    (doImports I s).head = s.head ∧ (doImports I s).genesis = s.genesis ∧
    (doImports I s).canon_depth_mappings = s.canon_depth_mappings ∧
    (doImports I s).auxiliaries = s.auxiliaries := by
  intro I
  induction I with
  | nil => intro s; exact ⟨rfl, rfl, rfl, rfl⟩
  | cons pr rest ih => intro s; exact ih _

theorem doImports_lookup : ∀ (I : List (Nat × BlockData)) (s : Store) (id : Nat),
    (I.map Prod.fst).Nodup →
    alookup id (doImports I s).blocks_and_states =
      (match alookup id I with
       | some bd => some bd
       | none => alookup id s.blocks_and_states) := by
  intro I
  induction I with
  | nil => intro s id _; rfl
  | cons pr rest ih =>
    intro s id hnod
    rw [List.map_cons, List.nodup_cons] at hnod
    have hstep : doImports (pr :: rest) s =
        doImports rest (insert_block s pr.1 pr.2.block pr.2.state pr.2.depth pr.2.children pr.2.is_canon) := rfl
    rw [hstep, ih _ id hnod.2]
    by_cases he : pr.1 = id
    · subst he
      have h1 : alookup pr.1 rest = none := (alookup_none_iff _ _).mpr hnod.1
      rw [h1]
      dsimp only
      rw [show alookup pr.1 (pr :: rest) = some pr.2 from by simp [alookup]]
      show alookup pr.1 (ains pr.1 _ s.blocks_and_states) = _
      rw [alookup_ains, if_pos rfl]
    · rw [show alookup id (pr :: rest) = alookup id rest from by simp [alookup, he]]
      cases hx : alookup id rest with
      | some bd => rfl
      | none =>
        dsimp only
        show alookup id (ains pr.1 _ s.blocks_and_states) = alookup id s.blocks_and_states
        rw [alookup_ains, if_neg he]

theorem doImports_keys_nodup : ∀ (I : List (Nat × BlockData)) (s : Store),
    (s.blocks_and_states.map Prod.fst).Nodup →
    ((doImports I s).blocks_and_states.map Prod.fst).Nodup := by
  intro I
  induction I with
  | nil => intro s h; exact h
  | cons pr rest ih =>
    intro s h
    exact ih _ (ains_keys_nodup _ _ _ h)

/-- The invariant the pre-check loop maintains on the admitted imports and
the parent map: each entry is keyed by its own identifier, fresh for the
backend, flagged non-canon with no children, and its recorded depth is one
more than the depth of its parent as found in the backend or among the
admitted imports; the parent map has the same keys. -/
def AdmEntryOk (s : Store) (I : List (Nat × BlockData)) (P : List (Nat × Nat)) : Prop :=
  (∀ id bd, alookup id I = some bd →
    bd.block.id = id ∧ bd.children = [] ∧ bd.is_canon = false ∧
    alookup id s.blocks_and_states = none ∧
    ∃ p, bd.block.parent_id = some p ∧ alookup id P = some p ∧
      ((∃ pbd, alookup p s.blocks_and_states = some pbd ∧ bd.depth = pbd.depth + 1) ∨
       (∃ pbd2, alookup p I = some pbd2 ∧ bd.depth = pbd2.depth + 1))) ∧
  (∀ id p, alookup id P = some p → (alookup id I).isSome = true)

theorem parentDepthLookup_some {s : Store} {I : List (Nat × BlockData)} {p d : Nat}
    (h : parentDepthLookup s I p = .ok (some d)) :
    (∃ pbd, alookup p s.blocks_and_states = some pbd ∧ d = pbd.depth) ∨
    (∃ pbd2, alookup p I = some pbd2 ∧ d = pbd2.depth) := by
  unfold parentDepthLookup at h
  by_cases hc : contains s p = true
  · rw [if_pos hc] at h
    cases hx : depth_at s p with
    | none => rw [hx] at h; cases h
    | some d2 =>
      rw [hx] at h
      have hd2 : d2 = d := Option.some.inj (Except.ok.inj h)
      subst hd2
      left
      unfold depth_at at hx
      cases hy : alookup p s.blocks_and_states with
      | none => rw [hy] at hx; cases hx
      | some pbd =>
        rw [hy] at hx
        exact ⟨pbd, rfl, (Option.some.inj hx).symm⟩
  · rw [if_neg hc] at h
    by_cases h3 : (alookup p I).isSome = true
    · rw [if_pos h3] at h
      obtain ⟨pbd2, hp⟩ := Option.isSome_iff_exists.mp h3
      rw [hp] at h
      right
      refine ⟨pbd2, hp, ?_⟩
      have := Except.ok.inj h
      simpa using this.symm
    · rw [if_neg h3] at h
      cases Option.some.injEq _ _ ▸ (Except.ok.inj h) with
      | _ => exact absurd (Except.ok.inj h) (by simp)

theorem admEntryOk_ains (s : Store) (I : List (Nat × BlockData)) (P : List (Nat × Nat))
    (hadm : AdmEntryOk s I P) (op : ImportOperation) (p d : Nat)
    (hpar : op.block.parent_id = some p)
    (hfreshI : alookup op.block.id I = none)
    (hfreshS : alookup op.block.id s.blocks_and_states = none)
    (hd : (∃ pbd, alookup p s.blocks_and_states = some pbd ∧ d = pbd.depth) ∨
          (∃ pbd2, alookup p I = some pbd2 ∧ d = pbd2.depth)) :
    AdmEntryOk s (ains op.block.id ⟨op.block, op.state, d + 1, [], false⟩ I)
      (ains op.block.id p P) := by
  constructor
  · intro id bd hid
    rw [alookup_ains] at hid
    by_cases he : op.block.id = id
    · rw [if_pos he] at hid
      have hbd : bd = ⟨op.block, op.state, d + 1, [], false⟩ := (Option.some.inj hid).symm
      subst hbd
      refine ⟨he, rfl, rfl, he ▸ hfreshS, p, hpar, ?_, ?_⟩
      · rw [alookup_ains, if_pos he]
      · cases hd with
        | inl h => obtain ⟨pbd, h1, h2⟩ := h; exact Or.inl ⟨pbd, h1, by rw [h2]⟩
        | inr h =>
          obtain ⟨pbd2, h1, h2⟩ := h
          refine Or.inr ⟨pbd2, ?_, by rw [h2]⟩
          rw [alookup_ains]
          by_cases hpe : op.block.id = p
          · rw [hpe] at hfreshI; rw [hfreshI] at h1; cases h1
          · rw [if_neg hpe]; exact h1
    · rw [if_neg he] at hid
      obtain ⟨h1, h2, h3, h4, q, hq1, hq2, hq3⟩ := hadm.1 id bd hid
      refine ⟨h1, h2, h3, h4, q, hq1, ?_, ?_⟩
      · rw [alookup_ains, if_neg he]; exact hq2
      · cases hq3 with
        | inl h => exact Or.inl h
        | inr h =>
          obtain ⟨pbd2, hh1, hh2⟩ := h
          refine Or.inr ⟨pbd2, ?_, hh2⟩
          rw [alookup_ains]
          by_cases hpe : op.block.id = q
          · rw [hpe] at hfreshI; rw [hfreshI] at hh1; cases hh1
          · rw [if_neg hpe]; exact hh1
  · intro id q hq
    rw [alookup_ains] at hq
    rw [alookup_ains]
    by_cases he : op.block.id = id
    · rw [if_pos he]; rfl
    · rw [if_neg he] at hq
      rw [if_neg he]
      exact hadm.2 id q hq

theorem settlePassOne_adm (s : Store) :
    ∀ (ops : List ImportOperation) (I : List (Nat × BlockData)) (P : List (Nat × Nat)),
      (ops.map (fun o => o.block.id)).Nodup →
      (∀ i ∈ ops, alookup i.block.id s.blocks_and_states = none) →
      (∀ i ∈ ops, alookup i.block.id I = none) →
      AdmEntryOk s I P →
      (I.map Prod.fst).Nodup → (P.map Prod.fst).Nodup →
      ∀ I2 P2 nv prog, settlePassOne s I P ops = .ok (I2, P2, nv, prog) →
        AdmEntryOk s I2 P2 ∧ (I2.map Prod.fst).Nodup ∧ (P2.map Prod.fst).Nodup ∧
        (nv.map (fun o => o.block.id)).Nodup ∧
        (∀ k, (alookup k I2).isSome = true ↔
          ((alookup k I).isSome = true ∨
            (k ∈ ops.map (fun o => o.block.id) ∧ k ∉ nv.map (fun o => o.block.id)))) := by
  intro ops
  induction ops with
  | nil =>
    intro I P hnod hfs hfI hadm hIn hPn I2 P2 nv prog h
    obtain ⟨rfl, rfl, rfl, rfl⟩ : I = I2 ∧ P = P2 ∧ nv = [] ∧ prog = false := by
      simpa [settlePassOne, Prod.ext_iff] using h
    refine ⟨hadm, hIn, hPn, by simp, fun k => ?_⟩
    simp
  | cons op rest ih =>
    intro I P hnod hfs hfI hadm hIn hPn I2 P2 nv prog h
    rw [List.map_cons, List.nodup_cons] at hnod
    have hfs_op := hfs op (List.mem_cons_self _ _)
    have hfI_op := hfI op (List.mem_cons_self _ _)
    have hfs_rest : ∀ i ∈ rest, alookup i.block.id s.blocks_and_states = none :=
      fun i hi => hfs i (List.mem_cons_of_mem _ hi)
    have hfI_rest : ∀ i ∈ rest, alookup i.block.id I = none :=
      fun i hi => hfI i (List.mem_cons_of_mem _ hi)
    unfold settlePassOne at h
    cases hpar : op.block.parent_id with
    | none => rw [hpar] at h; cases h
    | some p =>
      rw [hpar] at h
      dsimp only at h
      obtain ⟨v, hv⟩ := parentDepthLookup_ok s I p
      rw [hv] at h
      cases v with
      | none =>
        dsimp only at h
        cases hrec : settlePassOne s I P rest with
        | error e2 => rw [hrec] at h; cases h
        | ok r =>
          obtain ⟨a, b, c, d⟩ := r
          rw [hrec] at h
          obtain ⟨rfl, rfl, rfl, rfl⟩ : a = I2 ∧ b = P2 ∧ op :: c = nv ∧ d = prog := by
            simpa [Prod.ext_iff] using h
          obtain ⟨hadm2, hIn2, hPn2, hcn, hiff⟩ :=
            ih I P hnod.2 hfs_rest hfI_rest hadm hIn hPn a b c d hrec
          obtain ⟨hsub, -, -, -⟩ := settlePassOne_shape s rest I P a b c d hrec
          have hopc : op.block.id ∉ c.map (fun o => o.block.id) := by
            intro hmem
            obtain ⟨o2, ho2, he2⟩ := List.mem_map.mp hmem
            exact hnod.1 (he2 ▸ List.mem_map.mpr ⟨o2, hsub o2 ho2, rfl⟩)
          refine ⟨hadm2, hIn2, hPn2, ?_, ?_⟩
          · rw [List.map_cons, List.nodup_cons]
            exact ⟨hopc, hcn⟩
          · intro k
            rw [hiff k]
            constructor
            · intro hk
              cases hk with
              | inl h1 => exact Or.inl h1
              | inr h2 =>
                refine Or.inr ⟨List.mem_cons_of_mem _ h2.1, ?_⟩
                rw [List.map_cons]
                intro hmem
                cases List.mem_cons.mp hmem with
                | inl he =>
                  subst he
                  obtain ⟨o2, ho2, he2⟩ := List.mem_map.mp h2.1
                  exact hnod.1 (he2 ▸ List.mem_map.mpr ⟨o2, ho2, rfl⟩)
                | inr hm => exact h2.2 hm
            · intro hk
              cases hk with
              | inl h1 => exact Or.inl h1
              | inr h2 =>
                rw [List.map_cons] at h2
                have h2b : k ∉ c.map (fun o => o.block.id) :=
                  fun hm => h2.2 (List.mem_cons_of_mem _ hm)
                cases List.mem_cons.mp h2.1 with
                | inl he =>
                  exact absurd (List.mem_cons_self _ _) (he ▸ h2.2)
                | inr hm => exact Or.inr ⟨hm, h2b⟩
      | some d0 =>
        dsimp only at h
        have hd := parentDepthLookup_some hv
        cases hrec : settlePassOne s (ains op.block.id ⟨op.block, op.state, d0 + 1, [], false⟩ I)
            (ains op.block.id p P) rest with
        | error e2 => rw [hrec] at h; cases h
        | ok r =>
          obtain ⟨a, b, c, d2⟩ := r
          rw [hrec] at h
          obtain ⟨rfl, rfl, rfl, rfl⟩ : a = I2 ∧ b = P2 ∧ c = nv ∧ true = prog := by
            simpa [Prod.ext_iff] using h
          have hfI2 : ∀ i ∈ rest, alookup i.block.id
              (ains op.block.id ⟨op.block, op.state, d0 + 1, [], false⟩ I) = none := by
            intro i hi
            rw [alookup_ains]
            have : ¬ op.block.id = i.block.id := by
              intro he
              exact hnod.1 (he ▸ List.mem_map.mpr ⟨i, hi, rfl⟩)
            rw [if_neg this]
            exact hfI_rest i hi
          obtain ⟨hadm2, hIn2, hPn2, hcn, hiff⟩ :=
            ih _ _ hnod.2 hfs_rest hfI2
              (admEntryOk_ains s I P hadm op p d0 hpar hfI_op hfs_op hd)
              (ains_keys_nodup _ _ _ hIn) (ains_keys_nodup _ _ _ hPn) a b c d2 hrec
          obtain ⟨hsub, -, -, -⟩ := settlePassOne_shape s rest _ _ a b c d2 hrec
          refine ⟨hadm2, hIn2, hPn2, hcn, ?_⟩
          intro k
          rw [hiff k]
          have hains : (alookup k (ains op.block.id ⟨op.block, op.state, d0 + 1, [], false⟩ I)).isSome = true ↔
              (k = op.block.id ∨ (alookup k I).isSome = true) := by
            rw [alookup_ains]
            by_cases he : op.block.id = k
            · simp [he]
            · have h2 : ¬ k = op.block.id := fun hx => he hx.symm
              simp [he, h2]
          rw [hains]
          have hknv : k = op.block.id → k ∉ c.map (fun o => o.block.id) := by
            intro he hmem
            obtain ⟨o2, ho2, he2⟩ := List.mem_map.mp hmem
            exact hnod.1 ((he.symm.trans he2.symm).symm ▸ List.mem_map.mpr ⟨o2, hsub o2 ho2, rfl⟩)
          constructor
          · intro hk
            cases hk with
            | inl h1 =>
              cases h1 with
              | inl he => exact Or.inr ⟨by rw [List.map_cons, he]; exact List.mem_cons_self _ _, hknv he⟩
              | inr hi => exact Or.inl hi
            | inr h2 => exact Or.inr ⟨List.mem_cons_of_mem _ h2.1, h2.2⟩
          · intro hk
            cases hk with
            | inl h1 => exact Or.inl (Or.inr h1)
            | inr h2 =>
              have h21 := h2.1
              rw [List.map_cons] at h21
              cases List.mem_cons.mp h21 with
              | inl he => exact Or.inl (Or.inl he)
              | inr hm => exact Or.inr ⟨hm, h2.2⟩

theorem settleLoop_adm (s : Store) :
    ∀ (fuel : Nat) (ops : List ImportOperation) (I : List (Nat × BlockData)) (P : List (Nat × Nat)),
      (ops.map (fun o => o.block.id)).Nodup →
      (∀ i ∈ ops, alookup i.block.id s.blocks_and_states = none) →
      (∀ i ∈ ops, alookup i.block.id I = none) →
      AdmEntryOk s I P →
      (I.map Prod.fst).Nodup → (P.map Prod.fst).Nodup →
      ∀ I2 P2, settleLoop s fuel I P ops = .ok (I2, P2) →
        AdmEntryOk s I2 P2 ∧ (I2.map Prod.fst).Nodup ∧ (P2.map Prod.fst).Nodup ∧
        (∀ k, (alookup k I2).isSome = true ↔
          ((alookup k I).isSome = true ∨ k ∈ ops.map (fun o => o.block.id))) := by
  intro fuel
  induction fuel with
  | zero =>
    intro ops I P _ _ _ _ _ _ I2 P2 h
    cases h
  | succ n ih =>
    intro ops I P hnod hfs hfI hadm hIn hPn I2 P2 h
    rw [settleLoop_succ] at h
    cases hp : settlePassOne s I P ops with
    | error e => rw [hp] at h; cases h
    | ok r =>
      obtain ⟨Ip, Pp, nv, prog⟩ := r
      rw [hp] at h
      dsimp only at h
      obtain ⟨hadm2, hIn2, hPn2, hnvn, hiff⟩ :=
        settlePassOne_adm s ops I P hnod hfs hfI hadm hIn hPn Ip Pp nv prog hp
      obtain ⟨hsub, -, -, -⟩ := settlePassOne_shape s ops I P Ip Pp nv prog hp
      by_cases hz : nv.length = 0
      · rw [if_pos hz] at h
        obtain ⟨rfl, rfl⟩ : Ip = I2 ∧ Pp = P2 := by simpa [Prod.ext_iff] using h
        have hnv : nv = [] := List.length_eq_zero.mp hz
        subst hnv
        refine ⟨hadm2, hIn2, hPn2, fun k => ?_⟩
        rw [hiff k]
        simp
      · rw [if_neg hz] at h
        cases prog with
        | false => rw [if_neg (by simp)] at h; cases h
        | true =>
          rw [if_pos rfl] at h
          have hfs2 : ∀ i ∈ nv, alookup i.block.id s.blocks_and_states = none :=
            fun i hi => hfs i (hsub i hi)
          have hfI2 : ∀ i ∈ nv, alookup i.block.id Ip = none := by
            intro i hi
            rw [← Option.not_isSome_iff_eq_none]
            intro hcontra
            cases (hiff i.block.id).mp hcontra with
            | inl h1 =>
              rw [hfI i (hsub i hi)] at h1
              cases h1
            | inr h2 => exact h2.2 (List.mem_map.mpr ⟨i, hi, rfl⟩)
          obtain ⟨hadm3, hIn3, hPn3, hiff3⟩ :=
            ih nv Ip Pp hnvn hfs2 hfI2 hadm2 hIn2 hPn2 I2 P2 h
          refine ⟨hadm3, hIn3, hPn3, fun k => ?_⟩
          rw [hiff3 k, hiff k]
          constructor
          · intro hk
            cases hk with
            | inl h1 =>
              cases h1 with
              | inl ha => exact Or.inl ha
              | inr hb => exact Or.inr hb.1
            | inr h2 =>
              obtain ⟨o2, ho2, he2⟩ := List.mem_map.mp h2
              exact Or.inr (List.mem_map.mpr ⟨o2, hsub o2 ho2, he2⟩)
          · intro hk
            cases hk with
            | inl h1 => exact Or.inl (Or.inl h1)
            | inr h2 =>
              by_cases hm : k ∈ nv.map (fun o => o.block.id)
              · exact Or.inr hm
              · exact Or.inl (Or.inr ⟨h2, hm⟩)

theorem settleLoop_errors (s : Store) :
    ∀ (fuel : Nat) (ops : List ImportOperation) (I : List (Nat × BlockData))
      (P : List (Nat × Nat)) (e : Error),
      ops.length < fuel → settleLoop s fuel I P ops = .error e →
      e = .InvalidOperation ∨ e = .IsGenesis := by
  intro fuel
  induction fuel with
  | zero =>
    intro ops I P e hlen h
    omega
  | succ n ih =>
    intro ops I P e hlen h
    rw [settleLoop_succ] at h
    cases hp : settlePassOne s I P ops with
    | error e2 =>
      rw [hp] at h
      cases Except.error.inj h
      exact Or.inr (settlePassOne_error_isGenesis s ops I P e hp)
    | ok r =>
      obtain ⟨Ip, Pp, nv, prog⟩ := r
      rw [hp] at h
      dsimp only at h
      obtain ⟨-, hle, hlt, -⟩ := settlePassOne_shape s ops I P Ip Pp nv prog hp
      by_cases hz : nv.length = 0
      · rw [if_pos hz] at h; cases h
      · rw [if_neg hz] at h
        cases prog with
        | false =>
          rw [if_neg (by simp)] at h
          exact Or.inl (Except.error.inj h).symm
        | true =>
          rw [if_pos rfl] at h
          exact ih nv Ip Pp e (by have := hlt rfl; omega) h

/-! ### Introduction rules for the invariant components -/

theorem blockOk_intro {s : Store} {id : Nat} {bd : BlockData}
    (h1 : bd.block.id = id)
    (h2 : bd.block.parent_id = none → id = s.genesis ∧ bd.depth = 0)
    (h3 : ∀ p, bd.block.parent_id = some p →
      ∃ pbd, alookup p s.blocks_and_states = some pbd ∧ bd.depth = pbd.depth + 1) :
    blockOk s (id, bd) = true := by
  unfold blockOk
  rw [Bool.and_eq_true]
  refine ⟨by simpa using h1, ?_⟩
  cases hp : bd.block.parent_id with
  | none =>
    obtain ⟨hg, hd⟩ := h2 hp
    simp [hg, hd]
  | some p =>
    obtain ⟨pbd, hpl, hpd⟩ := h3 p hp
    dsimp only
    rw [hpl]
    simpa using hpd

theorem genesisOk_intro {s : Store} {gbd : BlockData}
    (h : alookup s.genesis s.blocks_and_states = some gbd)
    (h2 : gbd.block.parent_id = none) (h3 : gbd.depth = 0) : genesisOk s = true := by
  unfold genesisOk
  rw [h]
  simp [h2, h3]

theorem canonOk_intro {s : Store} {hbd : BlockData}
    (hh : alookup s.head s.blocks_and_states = some hbd)
    (h1 : ∀ d, d < hbd.depth + 1 → alookup d s.canon_depth_mappings = anc s s.head (hbd.depth - d))
    (h2 : ∀ pr ∈ s.canon_depth_mappings, pr.1 < hbd.depth + 1)
    (h3 : ∀ pr ∈ s.blocks_and_states,
      pr.2.is_canon = true ↔ ∃ k, k < hbd.depth + 1 ∧ anc s s.head k = some pr.1) :
    canonOk s = true := by
  unfold canonOk
  rw [hh]
  rw [Bool.and_eq_true, Bool.and_eq_true]
  refine ⟨⟨?_, ?_⟩, ?_⟩
  · apply List.all_eq_true.mpr
    intro d hd
    have := h1 d (List.mem_range.mp hd)
    simpa using this
  · apply List.all_eq_true.mpr
    intro pr hpr
    simpa using h2 pr hpr
  · apply List.all_eq_true.mpr
    intro pr hpr
    rw [beq_iff_eq]
    cases hic : pr.2.is_canon with
    | true =>
      obtain ⟨k, hk, ha⟩ := (h3 pr hpr).mp hic
      symm
      apply List.any_eq_true.mpr
      exact ⟨k, List.mem_range.mpr hk, by rw [ha]; exact beq_self_eq_true _⟩
    | false =>
      symm
      rw [Bool.eq_false_iff]
      intro hcontra
      obtain ⟨k, hk, hbeq⟩ := List.any_eq_true.mp hcontra
      have : pr.2.is_canon = true :=
        (h3 pr hpr).mpr ⟨k, List.mem_range.mp hk, by simpa using hbeq⟩
      rw [hic] at this
      cases this

/-- The invariant only reads the stored blocks (through lookups), the
head, the genesis and the canon-depth mappings: it transfers to any store
agreeing on those, entry by entry for the blocks. -/
theorem inv_transfer {s t : Store}
    (hb : ∀ id, (alookup id t.blocks_and_states).map (fun bd => bd.block) =
      (alookup id s.blocks_and_states).map (fun bd => bd.block))
    (hd : ∀ id, (alookup id t.blocks_and_states).map (fun bd => bd.depth) =
      (alookup id s.blocks_and_states).map (fun bd => bd.depth))
    (hc : ∀ id, (alookup id t.blocks_and_states).map (fun bd => bd.is_canon) =
      (alookup id s.blocks_and_states).map (fun bd => bd.is_canon))
    (hh : t.head = s.head) (hg : t.genesis = s.genesis)
    (hm : t.canon_depth_mappings = s.canon_depth_mappings)
    (hnods : (s.blocks_and_states.map Prod.fst).Nodup)
    (hnodt : (t.blocks_and_states.map Prod.fst).Nodup)
    (hInv : Inv s) : Inv t := by
  have hanc : ∀ k id, anc t id k = anc s id k := anc_congr hb
  have hpair : ∀ id bd2, alookup id t.blocks_and_states = some bd2 →
      ∃ bd, alookup id s.blocks_and_states = some bd ∧
        bd.block = bd2.block ∧ bd.depth = bd2.depth ∧ bd.is_canon = bd2.is_canon := by
    intro id bd2 h2
    have h1 := hb id
    have h2d := hd id
    have h2c := hc id
    rw [h2] at h1 h2d h2c
    cases hx : alookup id s.blocks_and_states with
    | none => rw [hx] at h1; cases h1
    | some bd =>
      rw [hx] at h1 h2d h2c
      exact ⟨bd, rfl, (Option.some.inj h1).symm, (Option.some.inj h2d).symm,
        (Option.some.inj h2c).symm⟩
  obtain ⟨hblocks, hgen, hcanon⟩ := hInv
  refine ⟨?_, ?_, ?_⟩
  · rw [all_iff_alookup hnodt]
    intro id bd2 h2
    obtain ⟨bd, h1, hbe, hde, -⟩ := hpair id bd2 h2
    obtain ⟨hk, hnone, hsome⟩ := inv_block ⟨hblocks, hgen, hcanon⟩ h1
    apply blockOk_intro
    · rw [← hbe]; exact hk
    · intro hp
      rw [← hbe] at hp
      obtain ⟨hgeq, hdeq⟩ := hnone hp
      exact ⟨hg ▸ hgeq, by rw [← hde]; exact hdeq⟩
    · intro p hp
      rw [← hbe] at hp
      obtain ⟨pbd, hpl, hpd⟩ := hsome p hp
      have h3 := hd p
      rw [hpl] at h3
      cases hy : alookup p t.blocks_and_states with
      | none => rw [hy] at h3; cases h3
      | some pbd2 =>
        rw [hy] at h3
        refine ⟨pbd2, rfl, ?_⟩
        have : pbd2.depth = pbd.depth := Option.some.inj h3
        rw [← hde, this]
        exact hpd
  · obtain ⟨gbd, hgl, hgp, hgd⟩ := inv_genesis ⟨hblocks, hgen, hcanon⟩
    have h1 := hb s.genesis
    have h2 := hd s.genesis
    rw [hgl] at h1 h2
    cases hy : alookup s.genesis t.blocks_and_states with
    | none => rw [hy] at h1; cases h1
    | some gbd2 =>
      rw [hy] at h1 h2
      have hbe : gbd2.block = gbd.block := Option.some.inj h1
      have hde : gbd2.depth = gbd.depth := Option.some.inj h2
      apply genesisOk_intro
      · rw [hg]; exact hy
      · rw [hbe]; exact hgp
      · rw [hde]; exact hgd
  · obtain ⟨hbd, hhl⟩ := inv_head ⟨hblocks, hgen, hcanon⟩
    obtain ⟨hc1, hc2, hc3⟩ := inv_canon ⟨hblocks, hgen, hcanon⟩ hhl
    have h1 := hb s.head
    have h2 := hd s.head
    rw [hhl] at h1 h2
    cases hy : alookup s.head t.blocks_and_states with
    | none => rw [hy] at h1; cases h1
    | some hbd2 =>
      rw [hy] at h1 h2
      have hde : hbd2.depth = hbd.depth := Option.some.inj h2
      apply @canonOk_intro t hbd2
      · rw [hh]; exact hy
      · intro d hdlt
        rw [hm, hh, hanc, hde]
        exact hc1 d (by omega)
      · intro pr hpr
        rw [hm] at hpr
        rw [hde]
        have hcraw := hcanon
        unfold canonOk at hcraw
        rw [hhl] at hcraw
        rw [Bool.and_eq_true, Bool.and_eq_true] at hcraw
        have := List.all_eq_true.mp hcraw.1.2 pr hpr
        simpa using this
      · intro pr hpr
        have hpl2 : alookup pr.1 t.blocks_and_states = some pr.2 :=
          alookup_of_mem_nodup hnodt hpr
        obtain ⟨bd, hsl, -, -, hce⟩ := hpair pr.1 pr.2 hpl2
        rw [hde, hh]
        have hiff := (hc3 pr.1 bd hsl)
        constructor
        · intro hcan
          rw [← hce] at hcan
          obtain ⟨k, hk, ha⟩ := hiff.mp hcan
          exact ⟨k, hk, by rw [hanc]; exact ha⟩
        · intro ⟨k, hk, ha⟩
          rw [← hce]
          exact hiff.mpr ⟨k, hk, by rw [hanc] at ha; exact ha⟩

/-! ### The push phase only grows children lists -/

theorem push_child_strip {s t : Store} {a c : Nat} (h : push_child s a c = .ok t) :
    t.head = s.head ∧ t.genesis = s.genesis ∧
    t.canon_depth_mappings = s.canon_depth_mappings ∧ t.auxiliaries = s.auxiliaries ∧
    (∀ x, (alookup x t.blocks_and_states).map (fun bd => bd.block) =
      (alookup x s.blocks_and_states).map (fun bd => bd.block)) ∧
    (∀ x, (alookup x t.blocks_and_states).map (fun bd => bd.depth) =
      (alookup x s.blocks_and_states).map (fun bd => bd.depth)) ∧
    (∀ x, (alookup x t.blocks_and_states).map (fun bd => bd.is_canon) =
      (alookup x s.blocks_and_states).map (fun bd => bd.is_canon)) ∧
    ((s.blocks_and_states.map Prod.fst).Nodup → (t.blocks_and_states.map Prod.fst).Nodup) := by
  unfold push_child at h
  cases hx : alookup a s.blocks_and_states with
  | none => rw [hx] at h; cases h
  | some bd =>
    rw [hx] at h
    dsimp only at h
    cases Except.ok.inj h
    refine ⟨rfl, rfl, rfl, rfl, ?_, ?_, ?_, fun hn => ains_keys_nodup _ _ _ hn⟩
    all_goals
      intro x
      show (alookup x (ains a _ s.blocks_and_states)).map _ = _
      rw [alookup_ains]
      by_cases he : a = x
      · subst he
        rw [if_pos rfl, hx]
        rfl
      · rw [if_neg he]

theorem doPushes_strip : ∀ (l : List (Nat × Nat)) (s : Store) (res : Except Error Unit) (t : Store),
    doPushes l s = (res, t) →
    t.head = s.head ∧ t.genesis = s.genesis ∧
    t.canon_depth_mappings = s.canon_depth_mappings ∧ t.auxiliaries = s.auxiliaries ∧
    (∀ x, (alookup x t.blocks_and_states).map (fun bd => bd.block) =
      (alookup x s.blocks_and_states).map (fun bd => bd.block)) ∧
    (∀ x, (alookup x t.blocks_and_states).map (fun bd => bd.depth) =
      (alookup x s.blocks_and_states).map (fun bd => bd.depth)) ∧
    (∀ x, (alookup x t.blocks_and_states).map (fun bd => bd.is_canon) =
      (alookup x s.blocks_and_states).map (fun bd => bd.is_canon)) ∧
    ((s.blocks_and_states.map Prod.fst).Nodup → (t.blocks_and_states.map Prod.fst).Nodup) := by
  intro l
  induction l with
  | nil =>
    intro s res t h
    obtain ⟨-, rfl⟩ : (Except.ok () : Except Error Unit) = res ∧ s = t := by
      simpa [doPushes, Prod.ext_iff] using h
    exact ⟨rfl, rfl, rfl, rfl, fun x => rfl, fun x => rfl, fun x => rfl, fun hn => hn⟩
  | cons pr rest ih =>
    intro s res t h
    obtain ⟨a, c⟩ := pr
    unfold doPushes at h
    cases hpc : push_child s c a with
    | error e =>
      rw [hpc] at h
      obtain ⟨-, rfl⟩ : (Except.error e : Except Error Unit) = res ∧ s = t := by
        simpa [Prod.ext_iff] using h
      exact ⟨rfl, rfl, rfl, rfl, fun x => rfl, fun x => rfl, fun x => rfl, fun hn => hn⟩
    | ok t2 =>
      rw [hpc] at h
      dsimp only at h
      obtain ⟨i1, i2, i3, i4, i5, i6, i7, i8⟩ := ih t2 res t h
      obtain ⟨j1, j2, j3, j4, j5, j6, j7, j8⟩ := push_child_strip hpc
      exact ⟨i1.trans j1, i2.trans j2, i3.trans j3, i4.trans j4,
        fun x => (i5 x).trans (j5 x), fun x => (i6 x).trans (j6 x),
        fun x => (i7 x).trans (j7 x), fun hn => i8 (j8 hn)⟩

theorem doPushes_ok : ∀ (l : List (Nat × Nat)) (s : Store),
    (∀ pr ∈ l, (alookup pr.2 s.blocks_and_states).isSome = true) →
    ∃ t, doPushes l s = (.ok (), t) := by
  intro l
  induction l with
  | nil => intro s _; exact ⟨s, rfl⟩
  | cons pr rest ih =>
    intro s hall
    obtain ⟨a, c⟩ := pr
    have hc := hall (a, c) (List.mem_cons_self _ _)
    cases hpc : push_child s c a with
    | error e =>
      obtain ⟨bd, hbd⟩ := Option.isSome_iff_exists.mp hc
      unfold push_child at hpc
      rw [hbd] at hpc
      cases hpc
    | ok t2 =>
      obtain ⟨-, -, -, -, j5, -, -, -⟩ := push_child_strip hpc
      obtain ⟨t, ht⟩ := ih t2 (by
        intro pr2 hpr2
        have h2 := hall pr2 (List.mem_cons_of_mem _ hpr2)
        have hiso : (alookup pr2.2 t2.blocks_and_states).isSome =
            (alookup pr2.2 s.blocks_and_states).isSome := by
          have := congrArg Option.isSome (j5 pr2.2)
          simpa using this
        rw [hiso]
        exact h2)
      refine ⟨t, ?_⟩
      unfold doPushes
      rw [hpc]
      exact ht

/-! ### The insert phase preserves the invariant for fresh, well-parented imports -/

theorem doImports_anc (s : Store) (I : List (Nat × BlockData))
    (hInv : Inv s) (hInod : (I.map Prod.fst).Nodup)
    (hfresh : ∀ id bd, alookup id I = some bd → alookup id s.blocks_and_states = none) :
    ∀ (k id : Nat), (alookup id s.blocks_and_states).isSome = true →
      anc (doImports I s) id k = anc s id k := by
  intro k
  induction k with
  | zero => intro id _; rfl
  | succ m ih =>
    intro id hid
    obtain ⟨bd, hbd⟩ := Option.isSome_iff_exists.mp hid
    have hI : alookup id I = none := by
      cases hx : alookup id I with
      | none => rfl
      | some v => rw [hfresh id v hx] at hbd; cases hbd
    rw [anc_succ, anc_succ]
    rw [doImports_lookup I s id hInod, hI]
    dsimp only
    rw [hbd]
    dsimp only
    cases hpar : bd.block.parent_id with
    | none => rfl
    | some p =>
      obtain ⟨-, -, hsome⟩ := inv_block hInv hbd
      obtain ⟨pbd, hp, -⟩ := hsome p hpar
      exact ih p (by rw [hp]; rfl)

theorem doImports_inv (s : Store) (I : List (Nat × BlockData)) (P : List (Nat × Nat))
    (hInv : Inv s) (hnod : (s.blocks_and_states.map Prod.fst).Nodup)
    (hInod : (I.map Prod.fst).Nodup) (hadm : AdmEntryOk s I P) :
    Inv (doImports I s) ∧ ((doImports I s).blocks_and_states.map Prod.fst).Nodup := by
  have hfresh : ∀ id bd, alookup id I = some bd → alookup id s.blocks_and_states = none :=
    fun id bd h => (hadm.1 id bd h).2.2.2.1
  have hBnod := doImports_keys_nodup I s hnod
  have hLook := fun id => doImports_lookup I s id hInod
  obtain ⟨hph, hpg, hpm, hpa⟩ := doImports_proj I s
  have hanc := doImports_anc s I hInv hInod hfresh
  refine ⟨⟨?_, ?_, ?_⟩, hBnod⟩
  · rw [all_iff_alookup hBnod]
    intro id bd hid
    rw [hLook id] at hid
    cases hx : alookup id I with
    | some bdI =>
      rw [hx] at hid
      have hbe : bdI = bd := Option.some.inj hid
      subst hbe
      obtain ⟨h1, -, -, -, p, hp1, -, hp3⟩ := hadm.1 id bdI hx
      apply blockOk_intro h1
      · intro hnone
        rw [hp1] at hnone
        cases hnone
      · intro q hq
        rw [hp1] at hq
        have hpq : p = q := Option.some.inj hq
        subst hpq
        cases hp3 with
        | inl hcase =>
          obtain ⟨pbd, hs1, hs2⟩ := hcase
          refine ⟨pbd, ?_, hs2⟩
          rw [hLook p]
          have hpI : alookup p I = none := by
            cases hy : alookup p I with
            | none => rfl
            | some v => rw [hfresh p v hy] at hs1; cases hs1
          rw [hpI]
          exact hs1
        | inr hcase =>
          obtain ⟨pbd2, hs1, hs2⟩ := hcase
          refine ⟨pbd2, ?_, hs2⟩
          rw [hLook p, hs1]
    | none =>
      rw [hx] at hid
      obtain ⟨h1, h2, h3⟩ := inv_block hInv hid
      apply blockOk_intro h1
      · intro hnone
        obtain ⟨hg, hd⟩ := h2 hnone
        exact ⟨hpg ▸ hg, hd⟩
      · intro p hp
        obtain ⟨pbd, hs1, hs2⟩ := h3 p hp
        refine ⟨pbd, ?_, hs2⟩
        rw [hLook p]
        have hpI : alookup p I = none := by
          cases hy : alookup p I with
          | none => rfl
          | some v => rw [hfresh p v hy] at hs1; cases hs1
        rw [hpI]
        exact hs1
  · obtain ⟨gbd, hgl, hgp, hgd⟩ := inv_genesis hInv
    have hgI : alookup s.genesis I = none := by
      cases hy : alookup s.genesis I with
      | none => rfl
      | some v => rw [hfresh _ v hy] at hgl; cases hgl
    apply @genesisOk_intro (doImports I s) gbd
    · rw [hpg, hLook s.genesis, hgI]
      exact hgl
    · exact hgp
    · exact hgd
  · obtain ⟨hbd, hhl⟩ := inv_head hInv
    obtain ⟨hc1, hc2, hc3⟩ := inv_canon hInv hhl
    have hhI : alookup s.head I = none := by
      cases hy : alookup s.head I with
      | none => rfl
      | some v => rw [hfresh _ v hy] at hhl; cases hhl
    have hheadSome : (alookup s.head s.blocks_and_states).isSome = true := by
      rw [hhl]; rfl
    apply @canonOk_intro (doImports I s) hbd
    · rw [hph, hLook s.head, hhI]
      exact hhl
    · intro d hd
      rw [hpm, hph, hanc _ _ hheadSome]
      exact hc1 d hd
    · intro pr hpr
      rw [hpm] at hpr
      have hcraw := hInv.2.2
      unfold canonOk at hcraw
      rw [hhl] at hcraw
      rw [Bool.and_eq_true, Bool.and_eq_true] at hcraw
      have := List.all_eq_true.mp hcraw.1.2 pr hpr
      simpa using this
    · intro pr hpr
      have hplook : alookup pr.1 (doImports I s).blocks_and_states = some pr.2 :=
        alookup_of_mem_nodup hBnod hpr
      rw [hph]
      rw [hLook pr.1] at hplook
      cases hx : alookup pr.1 I with
      | some bdI =>
        rw [hx] at hplook
        have hbe : bdI = pr.2 := Option.some.inj hplook
        obtain ⟨-, -, hflag, hfr, -⟩ := hadm.1 pr.1 bdI hx
        constructor
        · intro hcontra
          rw [← hbe, hflag] at hcontra
          cases hcontra
        · intro ⟨k, hk, ha⟩
          rw [hanc _ _ hheadSome] at ha
          obtain ⟨id2, bd2, ha2, hl2, -⟩ := anc_depth hInv k s.head hbd hhl (by omega)
          rw [ha2] at ha
          have : id2 = pr.1 := Option.some.inj ha
          rw [this] at hl2
          rw [hfr] at hl2
          cases hl2
      | none =>
        rw [hx] at hplook
        have hiff := hc3 pr.1 pr.2 hplook
        rw [hiff]
        constructor
        · intro ⟨k, hk, ha⟩
          exact ⟨k, hk, by rw [hanc _ _ hheadSome]; exact ha⟩
        · intro ⟨k, hk, ha⟩
          exact ⟨k, hk, by rw [hanc _ _ hheadSome] at ha; exact ha⟩

/-! ### Effects of the retraction and enaction loops -/

theorem retractAll_effect : ∀ (l : List Nat) (s : Store) (df : Nat → Nat),
    (∀ id ∈ l, depth_at s id = some (df id)) →
    ∃ t, retractAll l s = (.ok (), t) ∧
      t.head = s.head ∧ t.genesis = s.genesis ∧ t.auxiliaries = s.auxiliaries ∧
      (∀ x, alookup x t.blocks_and_states =
        (alookup x s.blocks_and_states).map
          (fun bd => if x ∈ l then { bd with is_canon := false } else bd)) ∧
      (∀ d, alookup d t.canon_depth_mappings =
        if d ∈ l.map df then none else alookup d s.canon_depth_mappings) ∧
      ((s.blocks_and_states.map Prod.fst).Nodup → (t.blocks_and_states.map Prod.fst).Nodup) ∧
      ((s.canon_depth_mappings.map Prod.fst).Nodup →
        (t.canon_depth_mappings.map Prod.fst).Nodup) := by
  intro l
  induction l with
  | nil =>
    intro s df _
    refine ⟨s, rfl, rfl, rfl, rfl, ?_, ?_, fun hn => hn, fun hn => hn⟩
    · intro x
      simp
    · intro d
      simp
  | cons id rest ih =>
    intro s df h
    have hdepth := h id (List.mem_cons_self _ _)
    unfold depth_at at hdepth
    cases hbd : alookup id s.blocks_and_states with
    | none => rw [hbd] at hdepth; cases hdepth
    | some bd =>
      rw [hbd] at hdepth
      have hbdd : bd.depth = df id := Option.some.inj hdepth
      cases hsc : set_canon s id false with
      | error e =>
        unfold set_canon at hsc
        rw [hbd] at hsc
        cases hsc
      | ok t1 =>
        have hsc2 := hsc
        unfold set_canon at hsc2
        rw [hbd] at hsc2
        have ht1 := Except.ok.inj hsc2
        have hbas1 : t1.blocks_and_states =
            ains id { bd with is_canon := false } s.blocks_and_states := by
          rw [← ht1]
        have hd1 : depth_at t1 id = some (df id) := by
          unfold depth_at
          rw [hbas1, alookup_ains, if_pos rfl]
          exact congrArg some hbdd
        have hrest : ∀ id2 ∈ rest,
            depth_at (remove_canon_depth_mapping t1 (df id)) id2 = some (df id2) := by
          intro id2 hid2
          show depth_at t1 id2 = some (df id2)
          unfold depth_at
          rw [hbas1, alookup_ains]
          by_cases he : id = id2
          · rw [if_pos he, ← he]
            exact congrArg some hbdd
          · rw [if_neg he]
            exact h id2 (List.mem_cons_of_mem _ hid2)
        obtain ⟨t, hrun, th, tg, ta, tbas, tcdm, tn1, tn2⟩ :=
          ih (remove_canon_depth_mapping t1 (df id)) df hrest
        have hcdm1 : (remove_canon_depth_mapping t1 (df id)).canon_depth_mappings =
            arem (df id) s.canon_depth_mappings := by
          show arem (df id) t1.canon_depth_mappings = _
          rw [← ht1]
        refine ⟨t, ?_, ?_, ?_, ?_, ?_, ?_, ?_, ?_⟩
        · unfold retractAll
          rw [hsc]
          dsimp only
          rw [hd1]
          exact hrun
        · rw [th, ← ht1]
          rfl
        · rw [tg, ← ht1]
          rfl
        · rw [ta, ← ht1]
          rfl
        · intro x
          rw [tbas x]
          show (alookup x t1.blocks_and_states).map _ = _
          rw [hbas1, alookup_ains]
          by_cases he : id = x
          · rw [if_pos he]
            subst he
            rw [hbd]
            simp only [Option.map_some']
            by_cases hm : id ∈ rest
            · rw [if_pos hm, if_pos (List.mem_cons_self _ _)]
            · rw [if_neg hm, if_pos (List.mem_cons_self _ _)]
          · rw [if_neg he]
            cases hx : alookup x s.blocks_and_states with
            | none => rfl
            | some bd2 =>
              simp only [Option.map_some']
              by_cases hm : x ∈ rest
              · rw [if_pos hm, if_pos (List.mem_cons_of_mem _ hm)]
              · rw [if_neg hm, if_neg (by
                  intro hc
                  cases List.mem_cons.mp hc with
                  | inl h1 => exact he h1.symm
                  | inr h2 => exact hm h2)]
        · intro d
          rw [tcdm d, hcdm1]
          by_cases hm : d ∈ rest.map df
          · rw [if_pos hm, if_pos (by rw [List.map_cons]; exact List.mem_cons_of_mem _ hm)]
          · rw [if_neg hm, alookup_arem]
            by_cases he : df id = d
            · rw [if_pos he, if_pos (by rw [List.map_cons, he]; exact List.mem_cons_self _ _)]
            · rw [if_neg he, if_neg (by
                rw [List.map_cons]
                intro hc
                cases List.mem_cons.mp hc with
                | inl h1 => exact he h1.symm
                | inr h2 => exact hm h2)]
        · intro hn
          apply tn1
          show (t1.blocks_and_states.map Prod.fst).Nodup
          rw [hbas1]
          exact ains_keys_nodup _ _ _ hn
        · intro hn
          apply tn2
          rw [hcdm1]
          exact arem_keys_nodup _ _ hn

theorem enactAll_effect : ∀ (l : List Nat) (s : Store) (df : Nat → Nat),
    (∀ id ∈ l, depth_at s id = some (df id)) →
    (l.map df).Nodup →
    ∃ t, enactAll l s = (.ok (), t) ∧
      t.head = s.head ∧ t.genesis = s.genesis ∧ t.auxiliaries = s.auxiliaries ∧
      (∀ x, alookup x t.blocks_and_states =
        (alookup x s.blocks_and_states).map
          (fun bd => if x ∈ l then { bd with is_canon := true } else bd)) ∧
      (∀ d, alookup d t.canon_depth_mappings =
        (match alookup d (l.map (fun i => (df i, i))) with
         | some i => some i
         | none => alookup d s.canon_depth_mappings)) ∧
      ((s.blocks_and_states.map Prod.fst).Nodup → (t.blocks_and_states.map Prod.fst).Nodup) ∧
      ((s.canon_depth_mappings.map Prod.fst).Nodup →
        (t.canon_depth_mappings.map Prod.fst).Nodup) := by
  intro l
  induction l with
  | nil =>
    intro s df _ _
    refine ⟨s, rfl, rfl, rfl, rfl, ?_, ?_, fun hn => hn, fun hn => hn⟩
    · intro x
      simp
    · intro d
      rfl
  | cons id rest ih =>
    intro s df h hnod
    rw [List.map_cons, List.nodup_cons] at hnod
    have hdepth := h id (List.mem_cons_self _ _)
    unfold depth_at at hdepth
    cases hbd : alookup id s.blocks_and_states with
    | none => rw [hbd] at hdepth; cases hdepth
    | some bd =>
      rw [hbd] at hdepth
      have hbdd : bd.depth = df id := Option.some.inj hdepth
      cases hsc : set_canon s id true with
      | error e =>
        unfold set_canon at hsc
        rw [hbd] at hsc
        cases hsc
      | ok t1 =>
        have hsc2 := hsc
        unfold set_canon at hsc2
        rw [hbd] at hsc2
        have ht1 := Except.ok.inj hsc2
        have hbas1 : t1.blocks_and_states =
            ains id { bd with is_canon := true } s.blocks_and_states := by
          rw [← ht1]
        have hd1 : depth_at t1 id = some (df id) := by
          unfold depth_at
          rw [hbas1, alookup_ains, if_pos rfl]
          exact congrArg some hbdd
        have hrest : ∀ id2 ∈ rest,
            depth_at (insert_canon_depth_mapping t1 (df id) id) id2 = some (df id2) := by
          intro id2 hid2
          show depth_at t1 id2 = some (df id2)
          unfold depth_at
          rw [hbas1, alookup_ains]
          by_cases he : id = id2
          · rw [if_pos he, ← he]
            exact congrArg some hbdd
          · rw [if_neg he]
            exact h id2 (List.mem_cons_of_mem _ hid2)
        obtain ⟨t, hrun, th, tg, ta, tbas, tcdm, tn1, tn2⟩ :=
          ih (insert_canon_depth_mapping t1 (df id) id) df hrest hnod.2
        have hcdm1 : (insert_canon_depth_mapping t1 (df id) id).canon_depth_mappings =
            ains (df id) id s.canon_depth_mappings := by
          show ains (df id) id t1.canon_depth_mappings = _
          rw [← ht1]
        refine ⟨t, ?_, ?_, ?_, ?_, ?_, ?_, ?_, ?_⟩
        · unfold enactAll
          rw [hsc]
          dsimp only
          rw [hd1]
          exact hrun
        · rw [th, ← ht1]
          rfl
        · rw [tg, ← ht1]
          rfl
        · rw [ta, ← ht1]
          rfl
        · intro x
          rw [tbas x]
          show (alookup x t1.blocks_and_states).map _ = _
          rw [hbas1, alookup_ains]
          by_cases he : id = x
          · rw [if_pos he]
            subst he
            rw [hbd]
            simp only [Option.map_some']
            by_cases hm : id ∈ rest
            · rw [if_pos hm, if_pos (List.mem_cons_self _ _)]
            · rw [if_neg hm, if_pos (List.mem_cons_self _ _)]
          · rw [if_neg he]
            cases hx : alookup x s.blocks_and_states with
            | none => rfl
            | some bd2 =>
              simp only [Option.map_some']
              by_cases hm : x ∈ rest
              · rw [if_pos hm, if_pos (List.mem_cons_of_mem _ hm)]
              · rw [if_neg hm, if_neg (by
                  intro hc
                  cases List.mem_cons.mp hc with
                  | inl h1 => exact he h1.symm
                  | inr h2 => exact hm h2)]
        · intro d
          rw [tcdm d, hcdm1]
          have hkeys : (rest.map (fun i => (df i, i))).map Prod.fst = rest.map df := by
            rw [List.map_map]
            rfl
          by_cases he : df id = d
          · have hnone : alookup d (rest.map (fun i => (df i, i))) = none := by
              rw [alookup_none_iff, hkeys]
              rw [← he]
              exact hnod.1
            rw [hnone]
            dsimp only
            rw [alookup_ains, if_pos he]
            rw [show alookup d ((id :: rest).map (fun i => (df i, i))) = some id from by
              rw [List.map_cons]
              show (if df id = d then some id else _) = some id
              rw [if_pos he]]
          · rw [show alookup d ((id :: rest).map (fun i => (df i, i))) =
                alookup d (rest.map (fun i => (df i, i))) from by
              rw [List.map_cons]
              show (if df id = d then some id else _) = _
              rw [if_neg he]]
            cases hx : alookup d (rest.map (fun i => (df i, i))) with
            | some i => rfl
            | none =>
              dsimp only
              rw [alookup_ains, if_neg he]
        · intro hn
          apply tn1
          show (t1.blocks_and_states.map Prod.fst).Nodup
          rw [hbas1]
          exact ains_keys_nodup _ _ _ hn
        · intro hn
          apply tn2
          rw [hcdm1]
          exact ains_keys_nodup _ _ _ hn

/-! ### The reorganization step preserves the invariant -/

theorem doReorg_inv (s : Store) (nh : Nat)
    (hInv : Inv s) (hn1 : (s.blocks_and_states.map Prod.fst).Nodup)
    (hn2 : (s.canon_depth_mappings.map Prod.fst).Nodup)
    (hnhs : (alookup nh s.blocks_and_states).isSome = true) :
    ∃ t, doReorg (some nh) s = (.ok (), t) ∧ Inv t ∧
      (t.blocks_and_states.map Prod.fst).Nodup ∧
      (t.canon_depth_mappings.map Prod.fst).Nodup ∧
      t.genesis = s.genesis ∧ t.auxiliaries = s.auxiliaries := by
  obtain ⟨hbd, hhl⟩ := inv_head hInv
  obtain ⟨nhbd, hnhl⟩ := Option.isSome_iff_exists.mp hnhs
  obtain ⟨r, ka, kb, c, cbd, hroute, hretr, hen, hcom, hpiv, hancA, hancB, hka, hkb,
    hcl, hcd1, hcd2⟩ := tree_route_spec hInv s.head nh hbd nhbd hhl hnhl
  have hADh : ∀ j, j ≤ hbd.depth →
      ∃ bd2, anc s s.head j = some (ancD s s.head j) ∧
        alookup (ancD s s.head j) s.blocks_and_states = some bd2 ∧
        bd2.depth = hbd.depth - j := by
    intro j hj
    obtain ⟨id2, bd2, h1, h2, h3⟩ := anc_depth hInv j s.head hbd hhl hj
    have he : ancD s s.head j = id2 := by
      unfold ancD
      rw [h1]
      rfl
    rw [he]
    exact ⟨bd2, h1, h2, h3⟩
  have hADn : ∀ j, j ≤ nhbd.depth →
      ∃ bd2, anc s nh j = some (ancD s nh j) ∧
        alookup (ancD s nh j) s.blocks_and_states = some bd2 ∧
        bd2.depth = nhbd.depth - j := by
    intro j hj
    obtain ⟨id2, bd2, h1, h2, h3⟩ := anc_depth hInv j nh nhbd hnhl hj
    have he : ancD s nh j = id2 := by
      unfold ancD
      rw [h1]
      rfl
    rw [he]
    exact ⟨bd2, h1, h2, h3⟩
  have hmemR : ∀ x, x ∈ r.retracted ↔ ∃ j, j < ka ∧ x = ancD s s.head j := by
    intro x
    rw [hretr]
    constructor
    · intro hm
      obtain ⟨j, hj, he⟩ := List.mem_map.mp hm
      exact ⟨j, List.mem_range.mp hj, he.symm⟩
    · intro ⟨j, hj, he⟩
      exact List.mem_map.mpr ⟨j, List.mem_range.mpr hj, he.symm⟩
  have hmemE : ∀ x, x ∈ r.enacted ↔ ∃ j, j < kb ∧ x = ancD s nh j := by
    intro x
    rw [hen, List.mem_reverse]
    constructor
    · intro hm
      obtain ⟨j, hj, he⟩ := List.mem_map.mp hm
      exact ⟨j, List.mem_range.mp hj, he.symm⟩
    · intro ⟨j, hj, he⟩
      exact List.mem_map.mpr ⟨j, List.mem_range.mpr hj, he.symm⟩
  have hdfh : ∀ j, j ≤ hbd.depth →
      depth_at s (ancD s s.head j) = some (hbd.depth - j) := by
    intro j hj
    obtain ⟨bd2, -, h2, h3⟩ := hADh j hj
    unfold depth_at
    rw [h2]
    exact congrArg some h3
  have hdfn : ∀ j, j ≤ nhbd.depth →
      depth_at s (ancD s nh j) = some (nhbd.depth - j) := by
    intro j hj
    obtain ⟨bd2, -, h2, h3⟩ := hADn j hj
    unfold depth_at
    rw [h2]
    exact congrArg some h3
  have hdfretr : ∀ id ∈ r.retracted,
      depth_at s id = some ((fun x => (depth_at s x).getD 0) id) := by
    intro id hid
    obtain ⟨j, hj, he⟩ := (hmemR id).mp hid
    subst he
    show depth_at s (ancD s s.head j) = some ((depth_at s (ancD s s.head j)).getD 0)
    rw [hdfh j (by omega)]
    rfl
  have hdfen : ∀ id ∈ r.enacted,
      depth_at s id = some ((fun x => (depth_at s x).getD 0) id) := by
    intro id hid
    obtain ⟨j, hj, he⟩ := (hmemE id).mp hid
    subst he
    show depth_at s (ancD s nh j) = some ((depth_at s (ancD s nh j)).getD 0)
    rw [hdfn j (by omega)]
    rfl
  have hmapR : r.retracted.map (fun x => (depth_at s x).getD 0) =
      (List.range ka).map (fun j => hbd.depth - j) := by
    rw [hretr, List.map_map]
    apply List.map_congr_left
    intro j hj
    show ((depth_at s (ancD s s.head j)).getD 0) = hbd.depth - j
    rw [hdfh j (by have := List.mem_range.mp hj; omega)]
    rfl
  have hmapE : r.enacted.map (fun x => (depth_at s x).getD 0) =
      ((List.range kb).map (fun j => nhbd.depth - j)).reverse := by
    rw [hen, List.map_reverse, List.map_map]
    congr 1
    apply List.map_congr_left
    intro j hj
    show ((depth_at s (ancD s nh j)).getD 0) = nhbd.depth - j
    rw [hdfn j (by have := List.mem_range.mp hj; omega)]
    rfl
  have hmemRD : ∀ d, d ∈ r.retracted.map (fun x => (depth_at s x).getD 0) ↔
      (hbd.depth - ka < d ∧ d ≤ hbd.depth) := by
    intro d
    rw [hmapR]
    constructor
    · intro hm
      obtain ⟨j, hj, he⟩ := List.mem_map.mp hm
      have := List.mem_range.mp hj
      omega
    · intro ⟨h1, h2⟩
      exact List.mem_map.mpr ⟨hbd.depth - d, List.mem_range.mpr (by omega), by omega⟩
  have hnodE : (r.enacted.map (fun x => (depth_at s x).getD 0)).Nodup := by
    rw [hmapE, List.nodup_reverse]
    apply List.Nodup.map_on
    · intro x hx y hy he
      have hx2 := List.mem_range.mp hx
      have hy2 := List.mem_range.mp hy
      omega
    · exact List.nodup_range _
  obtain ⟨t, hrunR, th, tg, ta, tbas, tcdm, tn1, tn2⟩ :=
    retractAll_effect r.retracted s (fun x => (depth_at s x).getD 0) hdfretr
  have htd : ∀ x, depth_at t x = depth_at s x := by
    intro x
    unfold depth_at
    rw [tbas x]
    cases hx : alookup x s.blocks_and_states with
    | none => rfl
    | some bd =>
      simp only [Option.map_some']
      by_cases hm : x ∈ r.retracted
      · rw [if_pos hm]
      · rw [if_neg hm]
  have hdfenT : ∀ id ∈ r.enacted,
      depth_at t id = some ((fun x => (depth_at s x).getD 0) id) := by
    intro id hid
    rw [htd id]
    exact hdfen id hid
  obtain ⟨u, hrunE, uh, ug, ua, ubas, ucdm, un1, un2⟩ :=
    enactAll_effect r.enacted t (fun x => (depth_at s x).getD 0) hdfenT hnodE
  refine ⟨set_head u nh, ?_, ?_, ?_, ?_, ?_, ?_⟩
  · unfold doReorg
    dsimp only
    rw [hroute]
    dsimp only
    rw [hrunR]
    dsimp only
    rw [hrunE]
  · obtain ⟨hc1, hc2, hc3⟩ := inv_canon hInv hhl
    have hSg : (set_head u nh).genesis = s.genesis := by
      show u.genesis = s.genesis
      rw [ug, tg]
    have hSbas : ∀ x, alookup x (set_head u nh).blocks_and_states =
        (alookup x s.blocks_and_states).map (fun bd =>
          if x ∈ r.enacted then { bd with is_canon := true }
          else if x ∈ r.retracted then { bd with is_canon := false } else bd) := by
      intro x
      show alookup x u.blocks_and_states = _
      rw [ubas x, tbas x]
      cases hx : alookup x s.blocks_and_states with
      | none => rfl
      | some bd =>
        simp only [Option.map_some']
        by_cases hme : x ∈ r.enacted
        · by_cases hmr : x ∈ r.retracted
          · simp only [if_pos hme, if_pos hmr]
          · simp only [if_pos hme, if_neg hmr]
        · by_cases hmr : x ∈ r.retracted
          · simp only [if_neg hme, if_pos hmr]
          · simp only [if_neg hme, if_neg hmr]
    have hadjb : ∀ x (bd : BlockData),
        (if x ∈ r.enacted then { bd with is_canon := true }
         else if x ∈ r.retracted then { bd with is_canon := false } else bd).block = bd.block := by
      intro x bd
      by_cases hme : x ∈ r.enacted
      · rw [if_pos hme]
      · rw [if_neg hme]
        by_cases hmr : x ∈ r.retracted
        · rw [if_pos hmr]
        · rw [if_neg hmr]
    have hadjd : ∀ x (bd : BlockData),
        (if x ∈ r.enacted then { bd with is_canon := true }
         else if x ∈ r.retracted then { bd with is_canon := false } else bd).depth = bd.depth := by
      intro x bd
      by_cases hme : x ∈ r.enacted
      · rw [if_pos hme]
      · rw [if_neg hme]
        by_cases hmr : x ∈ r.retracted
        · rw [if_pos hmr]
        · rw [if_neg hmr]
    have hSblock : ∀ x, (alookup x (set_head u nh).blocks_and_states).map (fun bd => bd.block) =
        (alookup x s.blocks_and_states).map (fun bd => bd.block) := by
      intro x
      rw [hSbas x]
      cases hx : alookup x s.blocks_and_states with
      | none => rfl
      | some bd =>
        simp only [Option.map_some']
        rw [hadjb]
    have hSanc : ∀ (k x : Nat), anc (set_head u nh) x k = anc s x k := anc_congr hSblock
    have hSnodB : ((set_head u nh).blocks_and_states.map Prod.fst).Nodup := un1 (tn1 hn1)
    have hSnodC : ((set_head u nh).canon_depth_mappings.map Prod.fst).Nodup := un2 (tn2 hn2)
    have hScdm : ∀ d, alookup d (set_head u nh).canon_depth_mappings =
        (match alookup d (r.enacted.map (fun i => ((depth_at s i).getD 0, i))) with
         | some i => some i
         | none =>
           if d ∈ r.retracted.map (fun x => (depth_at s x).getD 0) then none
           else alookup d s.canon_depth_mappings) := by
      intro d
      show alookup d u.canon_depth_mappings = _
      rw [ucdm d, tcdm d]
    have hmemED : ∀ d, d ∈ r.enacted.map (fun x => (depth_at s x).getD 0) ↔
        (nhbd.depth - kb < d ∧ d ≤ nhbd.depth) := by
      intro d
      rw [hmapE, List.mem_reverse]
      constructor
      · intro hm
        obtain ⟨j, hj, he⟩ := List.mem_map.mp hm
        have := List.mem_range.mp hj
        omega
      · intro ⟨h1, h2⟩
        exact List.mem_map.mpr ⟨nhbd.depth - d, List.mem_range.mpr (by omega), by omega⟩
    have hlmkeys : (r.enacted.map (fun i => ((depth_at s i).getD 0, i))).map Prod.fst =
        r.enacted.map (fun x => (depth_at s x).getD 0) := by
      rw [List.map_map]
      rfl
    have hlm : ∀ d, alookup d (r.enacted.map (fun i => ((depth_at s i).getD 0, i))) =
        if nhbd.depth - kb < d ∧ d ≤ nhbd.depth then some (ancD s nh (nhbd.depth - d))
        else none := by
      intro d
      by_cases hdc : nhbd.depth - kb < d ∧ d ≤ nhbd.depth
      · rw [if_pos hdc]
        apply alookup_of_mem_nodup
        · rw [hlmkeys]
          exact hnodE
        · apply List.mem_map.mpr
          refine ⟨ancD s nh (nhbd.depth - d),
            (hmemE _).mpr ⟨nhbd.depth - d, by omega, rfl⟩, ?_⟩
          rw [Prod.ext_iff]
          refine ⟨?_, rfl⟩
          show (depth_at s (ancD s nh (nhbd.depth - d))).getD 0 = d
          rw [hdfn (nhbd.depth - d) (by omega)]
          show nhbd.depth - (nhbd.depth - d) = d
          omega
      · rw [if_neg hdc]
        rw [alookup_none_iff, hlmkeys]
        intro hc
        exact hdc ((hmemED d).mp hc)
    obtain ⟨gbd, hgl, hgp, hgd⟩ := inv_genesis hInv
    refine ⟨?_, ?_, ?_⟩
    · rw [all_iff_alookup hSnodB]
      intro id bd3 hid
      rw [hSbas id] at hid
      cases hx : alookup id s.blocks_and_states with
      | none => rw [hx] at hid; cases hid
      | some bd =>
        rw [hx] at hid
        simp only [Option.map_some'] at hid
        have hbd3 := (Option.some.inj hid).symm
        obtain ⟨k1, k2, k3⟩ := inv_block hInv hx
        apply blockOk_intro
        · rw [hbd3, hadjb]
          exact k1
        · intro hp
          rw [hbd3, hadjb] at hp
          obtain ⟨hg2, hd0⟩ := k2 hp
          refine ⟨?_, by rw [hbd3, hadjd]; exact hd0⟩
          rw [hSg]
          exact hg2
        · intro p hp
          rw [hbd3, hadjb] at hp
          obtain ⟨pbd, hpl, hpd⟩ := k3 p hp
          refine ⟨_, by rw [hSbas p, hpl]; rfl, ?_⟩
          rw [hbd3, hadjd, hadjd]
          exact hpd
    · apply @genesisOk_intro (set_head u nh)
        (if s.genesis ∈ r.enacted then { gbd with is_canon := true }
         else if s.genesis ∈ r.retracted then { gbd with is_canon := false } else gbd)
      · rw [hSg, hSbas s.genesis, hgl]
        rfl
      · rw [hadjb]
        exact hgp
      · rw [hadjd]
        exact hgd
    · have hSh : alookup nh (set_head u nh).blocks_and_states =
          some (if nh ∈ r.enacted then { nhbd with is_canon := true }
            else if nh ∈ r.retracted then { nhbd with is_canon := false } else nhbd) := by
        rw [hSbas nh, hnhl]
        rfl
      apply @canonOk_intro (set_head u nh)
        (if nh ∈ r.enacted then { nhbd with is_canon := true }
         else if nh ∈ r.retracted then { nhbd with is_canon := false } else nhbd)
      · exact hSh
      · intro d hdlt
        rw [hadjd] at hdlt
        rw [hScdm d, hlm d]
        show _ = anc (set_head u nh) nh _
        rw [hadjd, hSanc]
        by_cases hcase : nhbd.depth - kb < d ∧ d ≤ nhbd.depth
        · rw [if_pos hcase]
          obtain ⟨bd2, ha, -, -⟩ := hADn (nhbd.depth - d) (by omega)
          exact ha.symm
        · rw [if_neg hcase]
          have hdle : d ≤ nhbd.depth - kb := by omega
          rw [if_neg (by
            intro hc
            have := (hmemRD d).mp hc
            omega)]
          rw [hc1 d (by omega)]
          rw [show hbd.depth - d = ka + (cbd.depth - d) from by omega, anc_add_some hancA]
          rw [show nhbd.depth - d = kb + (cbd.depth - d) from by omega, anc_add_some hancB]
      · intro pr hpr
        rw [hadjd]
        have hlook := alookup_of_mem_nodup hSnodC hpr
        rw [hScdm pr.1, hlm pr.1] at hlook
        by_cases hcase : nhbd.depth - kb < pr.1 ∧ pr.1 ≤ nhbd.depth
        · omega
        · rw [if_neg hcase] at hlook
          dsimp only at hlook
          by_cases hr2 : pr.1 ∈ r.retracted.map (fun x => (depth_at s x).getD 0)
          · rw [if_pos hr2] at hlook
            cases hlook
          · rw [if_neg hr2] at hlook
            have hb2 := hc2 pr.1 pr.2 hlook
            have hnr : ¬ (hbd.depth - ka < pr.1 ∧ pr.1 ≤ hbd.depth) :=
              fun hcc => hr2 ((hmemRD pr.1).mpr hcc)
            have hd1 : pr.1 ≤ hbd.depth - ka := by
              by_cases hgt : hbd.depth - ka < pr.1
              · exact absurd ⟨hgt, by omega⟩ hnr
              · omega
            omega
      · intro pr hpr
        rw [hadjd]
        have hlook := alookup_of_mem_nodup hSnodB hpr
        rw [hSbas pr.1] at hlook
        cases hx : alookup pr.1 s.blocks_and_states with
        | none => rw [hx] at hlook; cases hlook
        | some bd =>
          rw [hx] at hlook
          simp only [Option.map_some'] at hlook
          have hpr2 := (Option.some.inj hlook).symm
          have hgoal : (∃ k, k < nhbd.depth + 1 ∧
              anc (set_head u nh) (set_head u nh).head k = some pr.1) ↔
              (∃ k, k < nhbd.depth + 1 ∧ anc s nh k = some pr.1) := by
            constructor
            · intro ⟨k, h1, h2⟩
              refine ⟨k, h1, ?_⟩
              rw [← hSanc k nh]
              exact h2
            · intro ⟨k, h1, h2⟩
              refine ⟨k, h1, ?_⟩
              show anc (set_head u nh) nh k = some pr.1
              rw [hSanc k nh]
              exact h2
          rw [hpr2, hgoal]
          by_cases hme : pr.1 ∈ r.enacted
          · rw [if_pos hme]
            refine ⟨fun hfl => ?_, fun hex => rfl⟩
            obtain ⟨j, hj, he⟩ := (hmemE pr.1).mp hme
            obtain ⟨bd2, ha, -, -⟩ := hADn j (by omega)
            exact ⟨j, by omega, by rw [he]; exact ha⟩
          · rw [if_neg hme]
            by_cases hmr : pr.1 ∈ r.retracted
            · rw [if_pos hmr]
              refine ⟨fun hfl => (Bool.false_ne_true hfl).elim, fun hex => ?_⟩
              exfalso
              obtain ⟨k, hk, ha⟩ := hex
              obtain ⟨j, hj, hej⟩ := (hmemR pr.1).mp hmr
              obtain ⟨bdh, -, hlookh, hdh⟩ := hADh j (by omega)
              rw [← hej] at hlookh
              rw [hx] at hlookh
              have hbde : bd = bdh := Option.some.inj hlookh
              by_cases hklt : k < kb
              · obtain ⟨bdn, han, -, -⟩ := hADn k (by omega)
                have : ancD s nh k = pr.1 := Option.some.inj (han.symm.trans ha)
                exact hme ((hmemE pr.1).mpr ⟨k, hklt, this.symm⟩)
              · rw [show k = kb + (k - kb) from by omega, anc_add_some hancB] at ha
                obtain ⟨id2, bd22, ha3, hl3, hd3⟩ :=
                  anc_depth hInv (k - kb) c cbd hcl (by omega)
                have hid2 : id2 = pr.1 := Option.some.inj (ha3.symm.trans ha)
                rw [hid2, hx] at hl3
                have hbe : bd = bd22 := Option.some.inj hl3
                have hbdd2 : bd.depth = cbd.depth - (k - kb) := by rw [hbe]; exact hd3
                have hbdd1 : bd.depth = hbd.depth - j := by rw [hbde]; exact hdh
                omega
            · rw [if_neg hmr]
              rw [show bd.is_canon = true ↔
                  ∃ k, k < hbd.depth + 1 ∧ anc s s.head k = some pr.1 from hc3 pr.1 bd hx]
              constructor
              · intro ⟨k, hk, ha⟩
                by_cases hklt : k < ka
                · exfalso
                  obtain ⟨bdh, hah, -, -⟩ := hADh k (by omega)
                  have : ancD s s.head k = pr.1 := Option.some.inj (hah.symm.trans ha)
                  exact hmr ((hmemR pr.1).mpr ⟨k, hklt, this.symm⟩)
                · rw [show k = ka + (k - ka) from by omega, anc_add_some hancA] at ha
                  refine ⟨kb + (k - ka), by omega, ?_⟩
                  rw [anc_add_some hancB]
                  exact ha
              · intro ⟨k, hk, ha⟩
                by_cases hklt : k < kb
                · exfalso
                  obtain ⟨bdn, han, -, -⟩ := hADn k (by omega)
                  have : ancD s nh k = pr.1 := Option.some.inj (han.symm.trans ha)
                  exact hme ((hmemE pr.1).mpr ⟨k, hklt, this.symm⟩)
                · rw [show k = kb + (k - kb) from by omega, anc_add_some hancB] at ha
                  refine ⟨ka + (k - kb), by omega, ?_⟩
                  rw [anc_add_some hancA]
                  exact ha
  · exact un1 (tn1 hn1)
  · exact un2 (tn2 hn2)
  · show u.genesis = s.genesis
    rw [ug, tg]
  · show u.auxiliaries = s.auxiliaries
    rw [ua, ta]

theorem doAuxRemoves_fields (l : List Nat) (s : Store) :
    (doAuxRemoves l s).blocks_and_states = s.blocks_and_states ∧
    (doAuxRemoves l s).head = s.head ∧ (doAuxRemoves l s).genesis = s.genesis ∧
    (doAuxRemoves l s).canon_depth_mappings = s.canon_depth_mappings := by
  induction l generalizing s with
  | nil => exact ⟨rfl, rfl, rfl, rfl⟩
  | cons a rest ih => exact ih _

theorem doAuxInserts_fields (l : List Auxiliary) (s : Store) :
    (doAuxInserts l s).blocks_and_states = s.blocks_and_states ∧
    (doAuxInserts l s).head = s.head ∧ (doAuxInserts l s).genesis = s.genesis ∧
    (doAuxInserts l s).canon_depth_mappings = s.canon_depth_mappings := by
  induction l generalizing s with
  | nil => exact ⟨rfl, rfl, rfl, rfl⟩
  | cons a rest ih => exact ih _

/-- Settling a well-formed Operation (pairwise-distinct, fresh imports) on a
well-formed store preserves the invariant on success, and can only fail with
the two pre-check error values `InvalidOperation` and `IsGenesis`: the
mutation phase never fails. -/
theorem settle_preserves (s : Store) (op : Operation)
    (hInv : Inv s) (hn1 : (s.blocks_and_states.map Prod.fst).Nodup)
    (hn2 : (s.canon_depth_mappings.map Prod.fst).Nodup) (hop : GoodOp s op) :
    ((settle op s).1 = .ok () → Inv (settle op s).2 ∧
      ((settle op s).2.blocks_and_states.map Prod.fst).Nodup ∧
      ((settle op s).2.canon_depth_mappings.map Prod.fst).Nodup) ∧
    (∀ e, (settle op s).1 = .error e → e = .InvalidOperation ∨ e = .IsGenesis) := by
  cases hsl : settleLoop s (op.import_block.length + 1) [] [] op.import_block with
  | error e =>
    have hset : settle op s = (.error e, s) := by
      unfold settle
      rw [hsl]
    rw [hset]
    refine ⟨(fun h => by cases h), fun e2 he2 => ?_⟩
    have : e = e2 := Except.error.inj he2
    subst this
    exact settleLoop_errors s _ op.import_block [] [] e (by omega) hsl
  | ok r =>
    obtain ⟨I, P⟩ := r
    have hfs : ∀ i ∈ op.import_block, alookup i.block.id s.blocks_and_states = none := by
      intro i hi
      have hcont := hop.2 i hi
      unfold contains at hcont
      cases hx : alookup i.block.id s.blocks_and_states with
      | none => rfl
      | some v => rw [hx] at hcont; cases hcont
    have hadm0 : AdmEntryOk s [] [] :=
      ⟨(fun id bd h => by cases h), fun id p h => by cases h⟩
    obtain ⟨hadm, hIn, hPn, hkeys⟩ :=
      settleLoop_adm s (op.import_block.length + 1) op.import_block [] [] hop.1 hfs
        (fun i _ => rfl) hadm0 (by simp) (by simp) I P hsl
    by_cases hhp : headPrecheck s I op.set_head = false
    · have hset : settle op s = (.error .InvalidOperation, s) := by
        unfold settle
        rw [hsl]
        dsimp only
        rw [if_pos hhp]
      rw [hset]
      refine ⟨(fun h => by cases h), fun e2 he2 => ?_⟩
      exact Or.inl (Except.error.inj he2).symm
    · by_cases hap : auxPrecheck s I op.insert_auxiliaries = false
      · have hset : settle op s = (.error .InvalidOperation, s) := by
          unfold settle
          rw [hsl]
          dsimp only
          rw [if_neg hhp, if_pos hap]
        rw [hset]
        refine ⟨(fun h => by cases h), fun e2 he2 => ?_⟩
        exact Or.inl (Except.error.inj he2).symm
      · obtain ⟨hInvS1, hNodS1⟩ := doImports_inv s I P hInv hn1 hIn hadm
        obtain ⟨q1, q2, q3, q4⟩ := doImports_proj I s
        have hPok : ∀ pr ∈ P, (alookup pr.2 (doImports I s).blocks_and_states).isSome = true := by
          intro pr hpr
          have hp := alookup_of_mem_nodup hPn hpr
          have hIsome := hadm.2 pr.1 pr.2 hp
          obtain ⟨bd, hbd⟩ := Option.isSome_iff_exists.mp hIsome
          obtain ⟨-, -, -, -, q, hq1, hq2, hq3⟩ := hadm.1 pr.1 bd hbd
          have hqe : q = pr.2 := by
            rw [hq2] at hp
            exact Option.some.inj hp
          rw [hqe] at hq3
          rw [doImports_lookup I s pr.2 hIn]
          cases hq3 with
          | inl hcase =>
            obtain ⟨pbd, h1, -⟩ := hcase
            cases hqI : alookup pr.2 I with
            | some v => rfl
            | none =>
              dsimp only
              rw [h1]
              rfl
          | inr hcase =>
            obtain ⟨pbd2, h1, -⟩ := hcase
            rw [h1]
            rfl
        obtain ⟨s2, hpush⟩ := doPushes_ok P (doImports I s) hPok
        obtain ⟨p1, p2, p3, p4, p5, p6, p7, p8⟩ :=
          doPushes_strip P (doImports I s) (.ok ()) s2 hpush
        have hInvS2 : Inv s2 :=
          inv_transfer p5 p6 p7 p1 p2 p3 hNodS1 (p8 hNodS1) hInvS1
        have hNodS2 : (s2.blocks_and_states.map Prod.fst).Nodup := p8 hNodS1
        have hNodS2c : (s2.canon_depth_mappings.map Prod.fst).Nodup := by
          rw [p3, q3]
          exact hn2
        cases hsh : op.set_head with
        | none =>
          have hreorg : doReorg none s2 = (.ok (), s2) := rfl
          obtain ⟨a1, a2, a3, a4⟩ :=
            doAuxRemoves_fields op.remove_auxiliaries s2
          obtain ⟨b1, b2, b3, b4⟩ :=
            doAuxInserts_fields op.insert_auxiliaries (doAuxRemoves op.remove_auxiliaries s2)
          have hset : settle op s =
              (.ok (), doAuxInserts op.insert_auxiliaries
                (doAuxRemoves op.remove_auxiliaries s2)) := by
            unfold settle
            rw [hsl]
            dsimp only
            rw [if_neg hhp, if_neg hap, hpush]
            dsimp only
            rw [hsh]
            rfl
          rw [hset]
          refine ⟨fun _ => ⟨?_, ?_, ?_⟩, fun e2 he2 => by cases he2⟩
          · exact inv_transfer (fun id => by rw [b1, a1]) (fun id => by rw [b1, a1])
              (fun id => by rw [b1, a1]) (b2.trans a2) (b3.trans a3) (b4.trans a4)
              hNodS2 (by rw [b1, a1]; exact hNodS2) hInvS2
          · rw [b1, a1]
            exact hNodS2
          · rw [b4, a4]
            exact hNodS2c
        | some nh =>
          have hhp2 : headPrecheck s I (some nh) = true := by
            rw [hsh] at hhp
            cases hx : headPrecheck s I (some nh)
            · exact absurd hx hhp
            · rfl
          have hnh2 : (alookup nh s2.blocks_and_states).isSome = true := by
            have hiso : (alookup nh s2.blocks_and_states).isSome =
                (alookup nh (doImports I s).blocks_and_states).isSome := by
              have := congrArg Option.isSome (p5 nh)
              simpa using this
            rw [hiso, doImports_lookup I s nh hIn]
            unfold headPrecheck at hhp2
            rw [Bool.or_eq_true] at hhp2
            cases hhp2 with
            | inr hcase =>
              obtain ⟨v, hv⟩ := Option.isSome_iff_exists.mp hcase
              rw [hv]
              rfl
            | inl hcase =>
              unfold contains at hcase
              obtain ⟨v, hv⟩ := Option.isSome_iff_exists.mp hcase
              cases hqI : alookup nh I with
              | some w => rfl
              | none =>
                dsimp only
                rw [hv]
                rfl
          obtain ⟨s3, hreorg, hInvS3, hN3a, hN3b, -, -⟩ :=
            doReorg_inv s2 nh hInvS2 hNodS2 hNodS2c hnh2
          obtain ⟨a1, a2, a3, a4⟩ :=
            doAuxRemoves_fields op.remove_auxiliaries s3
          obtain ⟨b1, b2, b3, b4⟩ :=
            doAuxInserts_fields op.insert_auxiliaries (doAuxRemoves op.remove_auxiliaries s3)
          have hset : settle op s =
              (.ok (), doAuxInserts op.insert_auxiliaries
                (doAuxRemoves op.remove_auxiliaries s3)) := by
            unfold settle
            rw [hsl]
            dsimp only
            rw [if_neg hhp, if_neg hap, hpush]
            dsimp only
            rw [hsh]
            rw [hreorg]
          rw [hset]
          refine ⟨fun _ => ⟨?_, ?_, ?_⟩, fun e2 he2 => by cases he2⟩
          · exact inv_transfer (fun id => by rw [b1, a1]) (fun id => by rw [b1, a1])
              (fun id => by rw [b1, a1]) (b2.trans a2) (b3.trans a3) (b4.trans a4)
              hN3a (by rw [b1, a1]; exact hN3a) hInvS3
          · rw [b1, a1]
            exact hN3a
          · rw [b4, a4]
            exact hN3b

/-! ### Reachable stores carry the invariant -/

theorem inv_new_with_genesis (b : Block) (st : Nat) (hb : b.parent_id = none) :
    Inv (new_with_genesis b st) := by
  refine ⟨?_, ?_, ?_⟩
  · apply List.all_eq_true.mpr
    intro pr hpr
    have hpr2 : pr = (b.id, ⟨b, st, 0, [], true⟩) := by simpa [new_with_genesis] using hpr
    subst hpr2
    unfold blockOk
    simp [new_with_genesis, hb]
  · unfold genesisOk
    rw [show alookup (new_with_genesis b st).genesis (new_with_genesis b st).blocks_and_states =
        some ⟨b, st, 0, [], true⟩ from by simp [new_with_genesis, alookup]]
    simp [hb]
  · unfold canonOk
    rw [show alookup (new_with_genesis b st).head (new_with_genesis b st).blocks_and_states =
        some ⟨b, st, 0, [], true⟩ from by simp [new_with_genesis, alookup]]
    simp [new_with_genesis, alookup, anc]

theorem reachable_inv : ∀ (s : Store), ReachableG s → Inv s ∧
    (s.blocks_and_states.map Prod.fst).Nodup ∧
    (s.canon_depth_mappings.map Prod.fst).Nodup := by
  intro s hs
  induction hs with
  | genesis b st hb =>
    refine ⟨inv_new_with_genesis b st hb, ?_, ?_⟩
    · simp [new_with_genesis]
    · simp [new_with_genesis]
  | step s2 op2 hs2 hop2 hok2 ih =>
    obtain ⟨h1, h2, h3⟩ := ih
    exact (settle_preserves s2 op2 h1 h2 h3 hop2).1 hok2

/-! ### Parent-linked chains along ancestors -/

theorem chain_up (s : Store) :
    ∀ (k id c : Nat), anc s id k = some c →
      ((List.range k).map (ancD s id) ++ [c]).head? = some id ∧
      List.Chain' (fun u v => (block_at s u).bind (fun blk => blk.parent_id) = some v)
        ((List.range k).map (ancD s id) ++ [c]) := by
  intro k
  induction k with
  | zero =>
    intro id c h
    have hce : id = c := Option.some.inj h
    subst hce
    exact ⟨rfl, List.chain'_singleton _⟩
  | succ m ih =>
    intro id c h
    rw [anc_succ] at h
    cases hx : alookup id s.blocks_and_states with
    | none => rw [hx] at h; cases h
    | some bd =>
      rw [hx] at h
      dsimp only at h
      cases hpar : bd.block.parent_id with
      | none => rw [hpar] at h; cases h
      | some p =>
        rw [hpar] at h
        obtain ⟨ihh, ihc⟩ := ih p c h
        rw [range_map_anc_step s hx hpar, List.cons_append]
        refine ⟨rfl, ?_⟩
        apply List.chain'_cons'.mpr
        refine ⟨?_, ihc⟩
        intro y hy
        rw [ihh] at hy
        have hyp : p = y := by simpa using hy
        subst hyp
        show (block_at s id).bind (fun blk => blk.parent_id) = some p
        unfold block_at
        rw [hx]
        show bd.block.parent_id = some p
        exact hpar

/-- Claim C2 (amended: the settle calls must be well-formed — pairwise
distinct, fresh import identifiers — since a successful duplicate import
breaks the invariant, see the counterexample): in every store reachable
from a genesis-only backend by successful well-formed settle calls, the
head is stored at some depth `H`, its `H`-th ancestor is the genesis,
`is_canon` holds exactly for the ancestors of the head (the parent-linked
path from genesis to head), and the canon-depth index is defined exactly
on `[0, H]`, mapping each depth to the canonical block at that depth. -/
theorem claim_c2_canonical_chain (s : Store) (hs : ReachableG s) :
    ∃ H, depth_at s s.head = some H ∧
      anc s s.head H = some s.genesis ∧
      (∀ id, is_canon s id = some true ↔ ∃ k, k ≤ H ∧ anc s s.head k = some id) ∧
      (∀ d, d ≤ H → ∃ id, lookup_canon_depth s d = some id ∧
        anc s s.head (H - d) = some id ∧ depth_at s id = some d ∧
        is_canon s id = some true) ∧
      (∀ d, H < d → lookup_canon_depth s d = none) := by
  obtain ⟨hInv, -, -⟩ := reachable_inv s hs
  obtain ⟨hbd, hhl⟩ := inv_head hInv
  obtain ⟨hc1, hc2, hc3⟩ := inv_canon hInv hhl
  refine ⟨hbd.depth, ?_, ?_, ?_, ?_, ?_⟩
  · unfold depth_at
    rw [hhl]
    rfl
  · obtain ⟨id2, bd2, ha, hl, hd⟩ := anc_depth hInv hbd.depth s.head hbd hhl (Nat.le_refl _)
    obtain ⟨hk, hnone, hsome⟩ := inv_block hInv hl
    cases hpar : bd2.block.parent_id with
    | some p =>
      obtain ⟨pbd, -, hpd⟩ := hsome p hpar
      omega
    | none =>
      obtain ⟨hg, -⟩ := hnone hpar
      rw [ha, hg]
  · intro id
    unfold is_canon
    constructor
    · intro hcan
      cases hx : alookup id s.blocks_and_states with
      | none => rw [hx] at hcan; cases hcan
      | some bd =>
        rw [hx] at hcan
        have hfl : bd.is_canon = true := Option.some.inj hcan
        obtain ⟨k, hk, ha⟩ := (hc3 id bd hx).mp hfl
        exact ⟨k, by omega, ha⟩
    · intro ⟨k, hk, ha⟩
      obtain ⟨id2, bd2, ha2, hl2, -⟩ := anc_depth hInv k s.head hbd hhl (by omega)
      have hide : id2 = id := by
        rw [ha2] at ha
        exact Option.some.inj ha
      subst hide
      rw [hl2]
      have hfl := (hc3 id2 bd2 hl2).mpr ⟨k, by omega, ha⟩
      exact congrArg some hfl
  · intro d hd
    obtain ⟨id2, bd2, ha2, hl2, hd2⟩ := anc_depth hInv (hbd.depth - d) s.head hbd hhl (by omega)
    refine ⟨id2, ?_, ha2, ?_, ?_⟩
    · unfold lookup_canon_depth
      rw [hc1 d (by omega), ha2]
    · unfold depth_at
      rw [hl2]
      have hde : bd2.depth = d := by omega
      exact congrArg some hde
    · unfold is_canon
      rw [hl2]
      exact congrArg some ((hc3 id2 bd2 hl2).mpr ⟨hbd.depth - d, by omega, ha2⟩)
  · intro d hd
    unfold lookup_canon_depth
    cases hx : alookup d s.canon_depth_mappings with
    | none => rfl
    | some v =>
      have := hc2 d v hx
      omega

/-- Witness: the canonical-chain characterization applied to the freshly
created genesis-only backend. -/
theorem claim_c2_witness : ReachableG exG ∧
    (∃ H, depth_at exG exG.head = some H ∧
      anc exG exG.head H = some exG.genesis ∧
      (∀ id, is_canon exG id = some true ↔ ∃ k, k ≤ H ∧ anc exG exG.head k = some id) ∧
      (∀ d, d ≤ H → ∃ id, lookup_canon_depth exG d = some id ∧
        anc exG exG.head (H - d) = some id ∧ depth_at exG id = some d ∧
        is_canon exG id = some true) ∧
      (∀ d, H < d → lookup_canon_depth exG d = none)) :=
  ⟨ReachableG.genesis ⟨1, none⟩ 0 rfl,
    claim_c2_canonical_chain exG (ReachableG.genesis ⟨1, none⟩ 0 rfl)⟩

/-- Claim C5: on a well-formed store, for any two stored identifiers `a`
and `b`, `tree_route` succeeds and `retracted ++ [common] ++ enacted` is a
valid parent-linked path from `a` to `b`: it starts at `a`, consecutive
elements of `retracted ++ [common]` follow parent links downwards,
consecutive elements of `common :: enacted` follow parent links upwards
ending at `b`, and the common ancestor is excluded from both slices; in
the special case `a = b` the route degenerates to the single node `a` with
empty retracted and enacted slices. -/
theorem claim_c5_tree_route_path (s : Store) (a b : Nat) (hInv : Inv s)
    (ha : contains s a = true) (hb : contains s b = true) :
    (∃ r c, tree_route s a b = .ok r ∧ r.common_block = some c ∧
      List.Chain' (fun u v => (block_at s u).bind (fun blk => blk.parent_id) = some v)
        (r.retracted ++ [c]) ∧
      List.Chain' (fun u v => (block_at s v).bind (fun blk => blk.parent_id) = some u)
        (c :: r.enacted) ∧
      (r.retracted ++ [c]).head? = some a ∧
      (c :: r.enacted).getLast? = some b ∧
      c ∉ r.retracted ∧ c ∉ r.enacted) ∧
    (a = b → tree_route s a b = .ok ⟨[a], 0⟩ ∧
      TreeRoute.retracted ⟨[a], 0⟩ = [] ∧ TreeRoute.enacted ⟨[a], 0⟩ = [] ∧
      TreeRoute.common_block ⟨[a], 0⟩ = some a) := by
  have ha2 : (alookup a s.blocks_and_states).isSome = true := by
    unfold contains at ha
    exact ha
  have hb2 : (alookup b s.blocks_and_states).isSome = true := by
    unfold contains at hb
    exact hb
  obtain ⟨abd, hal⟩ := Option.isSome_iff_exists.mp ha2
  obtain ⟨bbd, hbl⟩ := Option.isSome_iff_exists.mp hb2
  constructor
  · obtain ⟨r, ka, kb, c, cbd, hroute, hretr, hen, hcom, hpiv, hancA, hancB, hka, hkb,
      hcl, hcd1, hcd2⟩ := tree_route_spec hInv a b abd bbd hal hbl
    obtain ⟨hh1, hch1⟩ := chain_up s ka a c hancA
    obtain ⟨hh2, hch2⟩ := chain_up s kb b c hancB
    have hrev : c :: r.enacted = ((List.range kb).map (ancD s b) ++ [c]).reverse := by
      rw [hen, List.reverse_append]
      rfl
    refine ⟨r, c, hroute, hcom, ?_, ?_, ?_, ?_, ?_, ?_⟩
    · rw [hretr]
      exact hch1
    · rw [hrev, List.chain'_reverse]
      exact hch2
    · rw [hretr]
      exact hh1
    · rw [hrev, List.getLast?_reverse]
      exact hh2
    · rw [hretr]
      intro hmem
      obtain ⟨j, hj, he⟩ := List.mem_map.mp hmem
      have hjlt := List.mem_range.mp hj
      obtain ⟨id2, bd2, ha3, hl2, hd2⟩ := anc_depth hInv j a abd hal (by omega)
      have hje : ancD s a j = id2 := by
        unfold ancD
        rw [ha3]
        rfl
      rw [hje] at he
      rw [he, hcl] at hl2
      have hbe : cbd = bd2 := Option.some.inj hl2
      have : cbd.depth = bd2.depth := by rw [hbe]
      omega
    · rw [hen]
      intro hmem
      rw [List.mem_reverse] at hmem
      obtain ⟨j, hj, he⟩ := List.mem_map.mp hmem
      have hjlt := List.mem_range.mp hj
      obtain ⟨id2, bd2, ha3, hl2, hd2⟩ := anc_depth hInv j b bbd hbl (by omega)
      have hje : ancD s b j = id2 := by
        unfold ancD
        rw [ha3]
        rfl
      rw [hje] at he
      rw [he, hcl] at hl2
      have hbe : cbd = bd2 := Option.some.inj hl2
      have : cbd.depth = bd2.depth := by rw [hbe]
      omega
  · intro hab
    subst hab
    have hba : block_at s a = some abd.block := by
      unfold block_at
      rw [hal]
      rfl
    have hda : depth_at s a = some abd.depth := by
      unfold depth_at
      rw [hal]
      rfl
    have h1 : walkToUp s (abd.depth + 1) abd.block abd.depth abd.depth [] =
        .ok (abd.block, abd.depth, []) := by
      unfold walkToUp
      rw [if_neg (by omega)]
    have h2 : walkFromUp s (abd.depth + 1) abd.block abd.depth abd.depth [] =
        .ok (abd.block, abd.depth, []) := by
      unfold walkFromUp
      rw [if_neg (by omega)]
    have h3 : walkLock s (abd.depth + abd.depth + 1) abd.block abd.block [] [] =
        .ok (abd.block, abd.block, [], []) := by
      unfold walkLock
      rw [if_neg (by simp)]
    have haid : abd.block.id = a := (inv_block hInv hal).1
    refine ⟨?_, rfl, rfl, rfl⟩
    unfold tree_route
    rw [hba]
    dsimp only
    rw [hda]
    dsimp only
    rw [h1]
    dsimp only
    rw [h2]
    dsimp only
    rw [h3]
    dsimp only
    rw [haid]
    rfl

/-- Witness: the tree-route path property applied to the genesis-only
backend at its only identifier. -/
theorem claim_c5_witness : Inv exG ∧ contains exG 1 = true ∧
    ((∃ r c, tree_route exG 1 1 = .ok r ∧ r.common_block = some c ∧
      List.Chain' (fun u v => (block_at exG u).bind (fun blk => blk.parent_id) = some v)
        (r.retracted ++ [c]) ∧
      List.Chain' (fun u v => (block_at exG v).bind (fun blk => blk.parent_id) = some u)
        (c :: r.enacted) ∧
      (r.retracted ++ [c]).head? = some 1 ∧
      (c :: r.enacted).getLast? = some 1 ∧
      c ∉ r.retracted ∧ c ∉ r.enacted) ∧
    (1 = 1 → tree_route exG 1 1 = .ok ⟨[1], 0⟩ ∧
      TreeRoute.retracted ⟨[1], 0⟩ = [] ∧ TreeRoute.enacted ⟨[1], 0⟩ = [] ∧
      TreeRoute.common_block ⟨[1], 0⟩ = some 1)) :=
  ⟨by decide, by decide, claim_c5_tree_route_path exG 1 1 (by decide) (by decide) (by decide)⟩

/-- Claim C10 amended: the unconditional claim is false (see the
counterexample: a duplicate import can corrupt the parent links of a
reachable store, after which a precheck-passing `set_head` panics inside
`tree_route`).  For stores reachable by well-formed settle calls and
Operations whose imports are pairwise distinct and fresh, the claim holds:
`settle` either succeeds or returns one of the two precheck error values
`InvalidOperation` and `IsGenesis` — the mutation phase (`insert_block`,
`push_child`, `tree_route`, retraction, enaction, auxiliary updates) never
fails, so the expect and panic branches of the reorg step are
unreachable. -/
theorem claim_c10_amended_mutation_total (s : Store) (op : Operation)
    (hs : ReachableG s) (hop : GoodOp s op) :
    (settle op s).1 = .ok () ∨ (settle op s).1 = .error .InvalidOperation ∨
    (settle op s).1 = .error .IsGenesis := by
  obtain ⟨h1, h2, h3⟩ := reachable_inv s hs
  obtain ⟨-, herr⟩ := settle_preserves s op h1 h2 h3 hop
  cases hres : (settle op s).1 with
  | ok u =>
    cases u
    exact Or.inl rfl
  | error e =>
    cases herr e hres with
    | inl h => exact Or.inr (Or.inl (by rw [h]))
    | inr h => exact Or.inr (Or.inr (by rw [h]))

/-- Witness: a fresh single import on the genesis-only backend. -/
theorem claim_c10_witness : ReachableG exG ∧ GoodOp exG (importOnlyOp 2 1) ∧
    ((settle (importOnlyOp 2 1) exG).1 = .ok () ∨
     (settle (importOnlyOp 2 1) exG).1 = .error .InvalidOperation ∨
     (settle (importOnlyOp 2 1) exG).1 = .error .IsGenesis) :=
  ⟨ReachableG.genesis ⟨1, none⟩ 0 rfl, ⟨by decide, by decide⟩,
    claim_c10_amended_mutation_total exG (importOnlyOp 2 1)
      (ReachableG.genesis ⟨1, none⟩ 0 rfl) ⟨by decide, by decide⟩⟩

end RB
